import Mathlib

set_option autoImplicit false

/-!
# Record introspection in gorm's `model.go`

A shallow embedding of the `Model` handle of `model.go`: the reflective walk over a
record's fields (`fields`), the table-name resolution (`tableName`) and the in-place
application of a column map (`updatedColumnsAndValues`).

Conventions of the embedding.

* Go values met through `reflect` are terms of `Val`; a struct value carries its field
  declarations together with the values, so `reflect.Type` questions are answered from
  the value itself.
* A run-time panic is the result `none`.
* `time.Now()` is read anew at every call site that is reached. `fields` takes the
  readings as `clock : Nat → Int`, where `clock i` is what `time.Now()` returns in
  iteration `i` of the loop over the fields, so two stamped fields hold two readings;
  `updatedColumnsAndValues` calls `time.Now()` once and takes that reading as `now`.
* Helpers of the package that live outside `model.go` (`toSnake`, `snakeToUpperCamel`,
  `parseSqlTag`, `getInterfaceValue`, the dialect, the `singularTableName` switch) are
  fields of `Env`.
* The order in which Go ranges over a map is an argument: a map is a list of entries and
  the loop visits them in list order.
* `reflect.Value.FieldByName` is resolved among the struct's own fields; promotion of the
  fields of an embedded struct is outside the embedding.
-/

namespace Gorm

/-! ## Values and types -/

/-- Signed integer kinds of Go. -/
inductive IntKind
  | int | int8 | int16 | int32 | int64
  deriving DecidableEq, Repr

/-- Unsigned integer kinds of Go. -/
inductive UintKind
  | uint | uint8 | uint16 | uint32 | uint64 | uintptr
  deriving DecidableEq, Repr

/-- Floating point kinds of Go. -/
inductive FloatKind
  | float32 | float64
  deriving DecidableEq, Repr

/-- The part of `reflect.Kind` that `model.go` can meet. -/
inductive Kind
  | invalid
  | bool
  | int (k : IntKind)
  | uint (k : UintKind)
  | float (k : FloatKind)
  | string
  | slice
  | struct
  | ptr
  | map
  deriving DecidableEq, Repr

/-- Static types, as far as `model.go` asks about them: the name of a type and, for a
struct type, the names of its own fields. -/
inductive Ty
  | bool
  | int (k : IntKind)
  | uint (k : UintKind)
  | float (k : FloatKind)
  | string
  | time
  | struct (name : String) (fieldNames : List String)
  | slice (elem : Ty)
  | ptr (elem : Ty)
  | map (key : Ty) (elem : Ty)
  deriving DecidableEq, Repr

/-- A `reflect.StructField`: declared name, whether the field is embedded, and the text
`Tag.Get(tagIdentifier)` returns for it. -/
structure FieldDecl where
  name : String
  anonymous : Bool
  tag : String
  deriving DecidableEq, Repr

/-- What reflection knows about a struct type besides its fields: its name, whether a
pointer to it implements `sql.Scanner`, the string its `TableName` method returns when
the method is declared on the struct type itself (value receiver), and the string it
returns when it is declared on the pointer type (pointer receiver). A type has at most
one of the two. -/
structure StructInfo where
  name : String
  scanner : Bool
  tableName : Option String
  ptrTableName : Option String := none
  deriving DecidableEq, Repr

/-- Go values. Integers are kept as mathematical integers together with their kind, a
`time.Time` as the instant it denotes (`0` is the zero time), a float as its bit pattern,
a pointer as an address with the value it points to. -/
inductive Val
  | bool (b : Bool)
  | int (k : IntKind) (v : Int)
  | uint (k : UintKind) (v : Nat)
  | float (k : FloatKind) (bits : Nat)
  | str (s : String)
  | time (t : Int)
  | slice (elem : Ty) (items : List Val)
  | struct (info : StructInfo) (fields : List (FieldDecl × Val))
  | ptr (addr : Nat) (target : Val)
  | nilptr (elem : Ty)
  | map (key : Ty) (elem : Ty) (size : Nat)

/-- The field names `reflect.Type.FieldByName` can find on a type, `none` when the kind
is not a struct (the lookup then panics). `time.Time` is a struct of three unexported
fields. -/
def Ty.fieldNames? : Ty → Option (List String)
  | .struct _ names => some names
  | .time => some ["wall", "ext", "loc"]
  | _ => none

/-- `reflect.Type.Name`: the declared name, empty for unnamed composite types. -/
def Ty.name : Ty → String
  | .bool => "bool"
  | .int .int => "int"
  | .int .int8 => "int8"
  | .int .int16 => "int16"
  | .int .int32 => "int32"
  | .int .int64 => "int64"
  | .uint .uint => "uint"
  | .uint .uint8 => "uint8"
  | .uint .uint16 => "uint16"
  | .uint .uint32 => "uint32"
  | .uint .uint64 => "uint64"
  | .uint .uintptr => "uintptr"
  | .float .float32 => "float32"
  | .float .float64 => "float64"
  | .string => "string"
  | .time => "Time"
  | .struct n _ => n
  | .slice _ => ""
  | .ptr _ => ""
  | .map _ _ => ""

/-- `reflect.Value.Kind`. -/
def Val.kind : Val → Kind
  | .bool _ => .bool
  | .int k _ => .int k
  | .uint k _ => .uint k
  | .float k _ => .float k
  | .str _ => .string
  | .time _ => .struct
  | .slice _ _ => .slice
  | .struct _ _ => .struct
  | .ptr _ _ => .ptr
  | .nilptr _ => .ptr
  | .map _ _ _ => .map

/-- `reflect.Value.Type`. -/
def Val.typeOf : Val → Ty
  | .bool _ => .bool
  | .int k _ => .int k
  | .uint k _ => .uint k
  | .float k _ => .float k
  | .str _ => .string
  | .time _ => .time
  | .slice e _ => .slice e
  | .struct info fs => .struct info.name (fs.map (fun pv => pv.1.name))
  | .ptr _ t => .ptr t.typeOf
  | .nilptr e => .ptr e
  | .map k e _ => .map k e

/-- `reflect.Indirect` on a field value: one pointer is followed, a nil pointer gives the
invalid value `none`. -/
def Val.indirect : Val → Option Val
  | .ptr _ t => some t
  | .nilptr _ => none
  | v => some v

/-- `ast.IsExported`: the name begins with an upper-case letter. -/
def isExported (name : String) : Bool :=
  match name.data with
  | c :: _ => c.isUpper
  | [] => false

/-- `reflect.Value.FieldByName` on a struct's field list. -/
def fieldByName (fs : List (FieldDecl × Val)) (name : String) : Option Val :=
  match fs.find? (fun pv => pv.1.name == name) with
  | some pv => some pv.2
  | none => none

/-- `FieldByName(name).IsValid()` on a struct's field list. -/
def hasField (fs : List (FieldDecl × Val)) (name : String) : Bool :=
  (fs.map (fun pv => pv.1.name)).contains name

/-- `reflect.Value.Set` on the field called `name`: the first field of that name gets the
value `v`. -/
def setField (fs : List (FieldDecl × Val)) (name : String) (v : Val) :
    List (FieldDecl × Val) :=
  match fs with
  | [] => []
  | pv :: rest =>
      if pv.1.name == name then (pv.1, v) :: rest else pv :: setField rest name v

/-! ## The handle -/

/-- The `Field` descriptor of `model.go`. -/
structure Field where
  Name : String
  Value : Val
  SqlType : String
  DbName : String
  AutoCreateTime : Bool
  AutoUpdateTime : Bool
  IsPrimaryKey : Bool
  IsBlank : Bool
  beforeAssociation : Bool
  afterAssociation : Bool
  foreignKey : String

/-- The `Model` handle: the record `data` (`none` is the nil interface; a record passed by
reference is a `Val.ptr`), the per-operation cache `_cache_fields`, and the errors handed
to `m.do.err` so far (most recent last). -/
structure Model where
  data : Option Val
  cache : List (String × List Field)
  errs : List String

/-- The collaborators of `model.go` that are defined elsewhere in the package. -/
structure Env where
  toSnake : String → String
  snakeToUpperCamel : String → String
  parseSqlTag : String → String × String × Nat
  getInterfaceValue : Val → Val
  sqlTag : Val → Nat → String
  primaryKeyTag : Val → Nat → String
  singularTableName : Bool

/-- `reflect.Indirect(reflect.ValueOf(m.data))`: the value reached and whether it is
addressable (only what a pointer refers to is); `none` is the invalid value. -/
def dataIndirect : Option Val → Option (Bool × Val)
  | none => none
  | some (.nilptr _) => none
  | some (.ptr _ v) => some (true, v)
  | some v => some (false, v)

/-- The record after the value reached by `dataIndirect` has been replaced by `v`. -/
def dataStore (d : Option Val) (v : Val) : Option Val :=
  match d with
  | some (.ptr a _) => some (.ptr a v)
  | other => other

/-- `m._cache_fields[operation]`: the stored sequence, empty when there is none. -/
def cacheGet (cache : List (String × List Field)) (op : String) : List Field :=
  match cache.lookup op with
  | some fs => fs
  | none => []

/-- `m._cache_fields[operation] = fields`. -/
def cachePut (cache : List (String × List Field)) (op : String) (fs : List Field) :
    List (String × List Field) :=
  (op, fs) :: cache.filter (fun e => e.1 != op)

/-- `Model.primaryKey`. -/
def primaryKey : String := "Id"

/-- `Model.primaryKeyDb`. -/
def primaryKeyDb (env : Env) : String := env.toSnake primaryKey

/-! ## Table names -/

/-- The `pluralMap` literal of `tableName`, in the order it is written. -/
def pluralMap : List (String × String) :=
  [("ch", "ches"), ("ss", "sses"), ("sh", "shes"), ("day", "days"), ("y", "ies"),
   ("x", "xes"), ("s?", "s")]

/-- The regular expression of a `pluralMap` key: a sequence of literal characters, each
marked optional when a question mark follows it. -/
def parseKey : List Char → List (Char × Bool)
  | [] => []
  | [c] => [(c, false)]
  | c :: d :: rest =>
      if d = '?' then (c, true) :: parseKey rest else (c, false) :: parseKey (d :: rest)

/-- Whether the whole text matches the item sequence. -/
def matchesAll : List (Char × Bool) → List Char → Bool
  | [], s => s.isEmpty
  | (c, opt) :: items, s =>
      (match s with
        | d :: s' => d == c && matchesAll items s'
        | [] => false) || (opt && matchesAll items s)

/-- The start of the leftmost match of `items$` in the text, if there is one. -/
def findMatch (items : List (Char × Bool)) : List Char → Option Nat
  | [] => if matchesAll items [] then some 0 else none
  | c :: s =>
      if matchesAll items (c :: s) then some 0
      else (findMatch items s).map (fun i => i + 1)

/-- `regexp.MustCompile(key + "$").MatchString(str)`. -/
def regMatch (key str : String) : Bool :=
  (findMatch (parseKey key.data) str.data).isSome

/-- `regexp.MustCompile(key + "$").ReplaceAllString(str, value)`: the match, which ends
the text, is replaced; an empty match right after it is not replaced again. -/
def regReplace (key str value : String) : String :=
  match findMatch (parseKey key.data) str.data with
  | some i => String.mk (str.data.take i) ++ value
  | none => str

/-- The `for key, value := range pluralMap` loop of `tableName`, visiting the rules in
the order `order`; `none` when the loop ends without a match. -/
def pluralLoop (order : List (String × String)) (str : String) : Option String :=
  match order with
  | [] => none
  | (key, value) :: rest =>
      if regMatch key str then some (regReplace key str value) else pluralLoop rest str

/-- `Model.typeName`; `none` when `Type()` is called on the invalid value. -/
def typeName (m : Model) : Option String :=
  match dataIndirect m.data with
  | none => none
  | some (_, .slice elem _) => some elem.name
  | some (_, v) => some v.typeOf.name

/-- The result of calling the `TableName` method found by `MethodByName` on the
dereferenced record, when there is one returning a string. The lookup is made on the
struct value, whose method set holds the methods with a value receiver only: a method
declared on the pointer type (`ptrTableName`) is not found. -/
def tableNameMethod : Val → Option String
  | .struct info _ => info.tableName
  | _ => none

/-- `Model.tableName`, with `order` the order in which the range over `pluralMap` visits
its entries. The result is the name together with the handle (whose error sink may have
grown); `none` is a panic. -/
def tableName (env : Env) (order : List (String × String)) (m : Model) :
    Option (String × Model) :=
  match m.data with
  | none => some ("", { m with errs := m.errs ++ ["Model haven't been set"] })
  | some _ =>
    match dataIndirect m.data with
    | none => none
    | some (_, v) =>
      match tableNameMethod v with
      | some result => some (result, m)
      | none =>
        match typeName m with
        | none => none
        | some tn =>
          let str := env.toSnake tn
          if !env.singularTableName then
            match pluralLoop order str with
            | some r => some (r, m)
            | none => some (str, m)
          else some (str, m)

/-! ## Field classification -/

/-- `Model.getSqlTag`. -/
def getSqlTag (env : Env) (field : Field) (p : FieldDecl) : String :=
  let column := env.getInterfaceValue field.Value
  let parsed := env.parseSqlTag p.tag
  if parsed.1 == "-" then ""
  else
    let typ :=
      if parsed.1.length == 0 then
        (if field.IsPrimaryKey then env.primaryKeyTag column parsed.2.2
         else env.sqlTag column parsed.2.2)
      else parsed.1
    if parsed.2.1.length > 0 then typ ++ " " ++ parsed.2.1 else typ

/-- The `time.Time` a field holds, when `value.Interface().(time.Time)` succeeds. -/
def timeOf : Val → Option Int
  | .time t => some t
  | _ => none

/-- The timestamp branch of `fields` (`if is_time { switch operation ... }`): the instant
the field holds afterwards. Writing needs an addressable record and panics otherwise. -/
def autoFill (addr : Bool) (operation : String) (autoCreate autoUpdate : Bool)
    (now t : Int) : Option Int :=
  if operation = "create" then
    if (autoCreate || autoUpdate) && t == 0 then (if addr then some now else none)
    else some t
  else if operation = "update" then
    if autoUpdate then (if addr then some now else none) else some t
  else some t

/-- The last part of the loop body of `fields`: storage type and association role.
`typName` is `typ.Name()` of the record, `siblings` the names of the record's fields. -/
def resolveRole (env : Env) (typName : String) (siblings : List String)
    (field : Field) (p : FieldDecl) (isTime : Bool) (value : Val) : Option Field :=
  if isTime then some { field with SqlType := getSqlTag env field p }
  else if field.IsPrimaryKey then some { field with SqlType := getSqlTag env field p }
  else
    match value.indirect with
    | some (.slice elem _) =>
        match elem.fieldNames? with
        | none => none
        | some names =>
            some { field with
              foreignKey := if names.contains (typName ++ "Id") then typName ++ "Id" else ""
              afterAssociation := true }
    | some (.struct info fs) =>
        if info.scanner then some { field with SqlType := getSqlTag env field p }
        else if siblings.contains (p.name ++ "Id") then
          some { field with foreignKey := p.name ++ "Id", beforeAssociation := true }
        else
          some { field with
            foreignKey := if hasField fs (typName ++ "Id") then typName ++ "Id" else ""
            afterAssociation := true }
    | some (.time _) =>
        if siblings.contains (p.name ++ "Id") then
          some { field with foreignKey := p.name ++ "Id", beforeAssociation := true }
        else some { field with afterAssociation := true }
    | _ => some { field with SqlType := getSqlTag env field p }

/-- One pass of the loop body of `fields` once `IsBlank` is known: timestamp auto-fill,
`field.Value`, storage type and role. Returns the descriptor and the value the field
holds afterwards. -/
def describe (env : Env) (typName : String) (siblings : List String) (addr : Bool)
    (operation : String) (now : Int) (p : FieldDecl) (value : Val) (blank : Bool) :
    Option (Field × Val) :=
  let field : Field :=
    { Name := p.name, Value := value, SqlType := "", DbName := env.toSnake p.name,
      AutoCreateTime := false, AutoUpdateTime := false,
      IsPrimaryKey := primaryKeyDb env == env.toSnake p.name, IsBlank := blank,
      beforeAssociation := false, afterAssociation := false, foreignKey := "" }
  match timeOf value with
  | some t =>
      let field := { field with
        AutoCreateTime := "created_at" == field.DbName
        AutoUpdateTime := "updated_at" == field.DbName }
      match autoFill addr operation field.AutoCreateTime field.AutoUpdateTime now t with
      | none => none
      | some t' =>
          match resolveRole env typName siblings { field with Value := .time t' } p true
              (.time t') with
          | none => none
          | some f => some (f, .time t')
  | none =>
      match resolveRole env typName siblings field p false value with
      | none => none
      | some f => some (f, value)

mutual
/-- The `switch value.Kind()` of `fields` that computes `IsBlank`. A struct that is
neither a time nor a scanner is classified itself, under the operation "other", and is
blank when `columnsHasValue` finds nothing; that nested pass never reads the clock. -/
def blankOf (env : Env) : Val → Option Bool
  | .int .int v => some (v == 0)
  | .int .int64 v => some (v == 0)
  | .int .int32 v => some (v == 0)
  | .str s => some (s == "")
  | .slice _ items => some (items.length == 0)
  | .time t => some (t == 0)
  | .struct info fs =>
      if info.scanner then
        match fieldByName fs "Valid" with
        | some (.bool b) => some (!b)
        | _ => none
      else
        match walk env info.name (fs.map (fun pv => pv.1.name)) false "other"
            (fun _ => 0) 0 fs with
        | none => none
        | some r => some ((r.1.filter (fun f => !f.IsBlank)).length == 0)
  | _ => some false
/-- The loop of `fields` over the declared fields of a struct, from iteration `i` on: the
descriptors in declaration order and the fields as they are afterwards. `clock i` is
what `time.Now()` returns when it is called in iteration `i`. -/
def walk (env : Env) (typName : String) (siblings : List String) (addr : Bool)
    (operation : String) (clock : Nat → Int) :
    Nat → List (FieldDecl × Val) → Option (List Field × List (FieldDecl × Val))
  | _, [] => some ([], [])
  | i, (p, value) :: rest =>
      if !p.anonymous && isExported p.name then
        match blankOf env value with
        | none => none
        | some blank =>
            match describe env typName siblings addr operation (clock i) p value blank with
            | none => none
            | some (f, value') =>
                match walk env typName siblings addr operation clock (i + 1) rest with
                | none => none
                | some (fs, rest') => some (f :: fs, (p, value') :: rest')
      else
        match walk env typName siblings addr operation clock (i + 1) rest with
        | none => none
        | some (fs, rest') => some (fs, (p, value) :: rest')
end

/-- `Model.fields`: the descriptors returned and the handle afterwards; `none` is a
panic. A non-empty cached sequence is returned as it is; an invalid record gives the
empty sequence and leaves the cache alone; `NumField` panics on a record that is not a
struct. `clock i` is the reading of `time.Now()` in iteration `i` of the loop. -/
def fields (env : Env) (m : Model) (operation : String) (clock : Nat → Int) :
    Option (List Field × Model) :=
  if (cacheGet m.cache operation).length > 0 then some (cacheGet m.cache operation, m)
  else
    match dataIndirect m.data with
    | none => some ([], m)
    | some (addr, .struct info fs) =>
        match walk env info.name (fs.map (fun pv => pv.1.name)) addr operation clock 0 fs with
        | none => none
        | some (ds, fs') =>
            some (ds, { m with data := dataStore m.data (.struct info fs')
                               cache := cachePut m.cache operation ds })
    | some (_, .time _) => some ([], { m with cache := cachePut m.cache operation [] })
    | some _ => none

/-- `Model.columnsHasValue`. -/
def columnsHasValue (env : Env) (m : Model) (operation : String) (clock : Nat → Int) :
    Option (List Field × Model) :=
  match fields env m operation clock with
  | none => none
  | some (ds, m') => some (ds.filter (fun f => !f.IsBlank), m')

/-- `Model.primaryKeyValue`; `none` is a panic (`FieldByName` on a value that is not a
struct). -/
def primaryKeyValue (m : Model) : Option Int :=
  match m.data with
  | none => some (-1)
  | some _ =>
    match dataIndirect m.data with
    | none => none
    | some (_, .map _ _ _) => some 0
    | some (_, .ptr _ _) => some 0
    | some (_, .nilptr _) => some 0
    | some (_, .slice _ _) => some 0
    | some (_, .struct _ fs) =>
        match fieldByName fs primaryKey with
        | some (.int .int v) => some v
        | some (.int .int64 v) => some v
        | some (.int .int32 v) => some v
        | _ => some 0
    | some (_, .time _) => some 0
    | some _ => none

/-- `Model.primaryKeyZero`. -/
def primaryKeyZero (m : Model) : Option Bool :=
  (primaryKeyValue m).map (fun v => decide (v ≤ 0))

/-- Assignment `results[key] = value` on a map kept as a list of entries. -/
def mapPut {α : Type} (entries : List (String × α)) (key : String) (value : α) :
    List (String × α) :=
  match entries with
  | [] => [(key, value)]
  | e :: rest => if e.1 == key then (key, value) :: rest else e :: mapPut rest key value

/-- `Model.columnsAndValues`. -/
def columnsAndValues (env : Env) (m : Model) (operation : String) (clock : Nat → Int) :
    Option (List (String × Val) × Model) :=
  match m.data with
  | none => some ([], m)
  | some _ =>
    match fields env m operation clock with
    | none => none
    | some (ds, m') =>
        some (ds.foldl (fun results field =>
          if !field.IsPrimaryKey && field.SqlType.length > 0 then
            mapPut results field.DbName field.Value
          else results) [], m')

/-- `Model.beforeAssociations`. -/
def beforeAssociations (env : Env) (m : Model) (clock : Nat → Int) :
    Option (List Field × Model) :=
  match fields env m "null" clock with
  | none => none
  | some (ds, m') => some (ds.filter (fun f => f.beforeAssociation && !f.IsBlank), m')

/-- `Model.afterAssociations`. -/
def afterAssociations (env : Env) (m : Model) (clock : Nat → Int) :
    Option (List Field × Model) :=
  match fields env m "null" clock with
  | none => none
  | some (ds, m') => some (ds.filter (fun f => f.afterAssociation && !f.IsBlank), m')

/-! ## Applying a column map -/

/-- Width in bits of a signed integer kind (`int` is 64 bits wide). -/
def IntKind.bits : IntKind → Nat
  | .int => 64
  | .int8 => 8
  | .int16 => 16
  | .int32 => 32
  | .int64 => 64

/-- The value kept by `reflect.Value.SetInt` on a field of kind `k`: the two's complement
reading of the low `k.bits` bits of `x`. -/
def wrapInt (k : IntKind) (x : Int) : Int :=
  (x + 2 ^ (k.bits - 1)) % 2 ^ k.bits - 2 ^ (k.bits - 1)

/-- Whether a bit pattern of the given float kind is a NaN. -/
def floatNaN : FloatKind → Nat → Bool
  | .float32, b => (b / 2 ^ 23) % 2 ^ 8 == 255 && b % 2 ^ 23 != 0
  | .float64, b => (b / 2 ^ 52) % 2 ^ 11 == 2047 && b % 2 ^ 52 != 0

/-- Whether a bit pattern of the given float kind is a zero of either sign. -/
def floatZero : FloatKind → Nat → Bool
  | .float32, b => b % 2 ^ 31 == 0
  | .float64, b => b % 2 ^ 63 == 0

mutual
/-- Whether Go can compare the value's type with `==`: slices and maps cannot be
compared, a struct only when all its fields can. -/
def Val.comparable : Val → Bool
  | .slice _ _ => false
  | .map _ _ _ => false
  | .struct _ fs => comparableFields fs
  | _ => true
/-- All fields of a struct are comparable. -/
def comparableFields : List (FieldDecl × Val) → Bool
  | [] => true
  | (_, v) :: rest => v.comparable && comparableFields rest
end

mutual
/-- Go's `==` on two values of one comparable type. -/
def Val.same : Val → Val → Bool
  | .bool a, .bool b => a == b
  | .int _ a, .int _ b => a == b
  | .uint _ a, .uint _ b => a == b
  | .float k a, .float _ b =>
      !floatNaN k a && !floatNaN k b && (a == b || (floatZero k a && floatZero k b))
  | .str a, .str b => a == b
  | .time a, .time b => a == b
  | .struct _ fs, .struct _ gs => sameFields fs gs
  | .ptr a _, .ptr b _ => a == b
  | .nilptr _, .nilptr _ => true
  | _, _ => false
/-- Field-wise `==` of two structs of one type. -/
def sameFields : List (FieldDecl × Val) → List (FieldDecl × Val) → Bool
  | [], [] => true
  | (_, v) :: r, (_, w) :: s => v.same w && sameFields r s
  | _, _ => false
end

/-- The comparison `field.Interface() != value` of two non-nil interface values: true
when the dynamic types differ, a panic (`none`) when the common type is not comparable. -/
def ifaceNe (a b : Val) : Option Bool :=
  if a.typeOf ≠ b.typeOf then some true
  else if !a.comparable then none
  else some (!a.same b)

/-- One pass of the loop body of `updatedColumnsAndValues` for the entry `(key, value)`,
on the record's fields `fs` with the flag `any_updated` so far. `value = none` is the nil
interface. Panics: `Interface` on an unexported field, `Int` on a value that is not a
signed integer, `Set` and `SetInt` on a record that is not addressable, `Set` with a nil
value or a value of another type. -/
def applyEntry (env : Env) (addr : Bool) (st : List (FieldDecl × Val) × Bool)
    (key : String) (value : Option Val) : Option (List (FieldDecl × Val) × Bool) :=
  let name := env.snakeToUpperCamel key
  match fieldByName st.1 name with
  | none => some st
  | some old =>
    if !isExported name then none
    else
      match value with
      | none => none
      | some v =>
        match ifaceNe old v with
        | none => none
        | some false => some st
        | some true =>
          if old.kind = .int .int ∨ old.kind = .int .int32 ∨ old.kind = .int .int64 then
            match old, v with
            | .int k x, .int _ y =>
                if addr then some (setField st.1 name (.int k (wrapInt k y)), st.2 || x != y)
                else none
            | _, _ => none
          else if addr && v.typeOf == old.typeOf then some (setField st.1 name v, true)
          else none

/-- The `for key, value := range values` loop of `updatedColumnsAndValues`, visiting the
entries in list order. -/
def applyLoop (env : Env) (addr : Bool) :
    List (String × Option Val) → List (FieldDecl × Val) × Bool →
    Option (List (FieldDecl × Val) × Bool)
  | [], st => some st
  | (key, value) :: rest, st =>
      match applyEntry env addr st key value with
      | none => none
      | some st' => applyLoop env addr rest st'

/-- The lookup `values[key]` of a Go map kept as a list of entries; `none` is nil. -/
def mapGet (values : List (String × Option Val)) (key : String) : Option Val :=
  match values.lookup key with
  | some v => v
  | none => none

/-- Modelled from the spec: the helper `setFieldValue`, which is defined outside
`model.go`. The spec has it "unconditionally stamp the updated-timestamp field with
current time": the field, when the record has it, is assigned the value; a record
without the field is left as it is. -/
def setFieldValue (fs : List (FieldDecl × Val)) (name : String) (v : Val) :
    List (FieldDecl × Val) :=
  setField fs name v

/-- `Model.updatedColumnsAndValues`: the map returned (`none` is the nil map), the flag
`any_updated`, and the handle afterwards; the outer `none` is a panic. -/
def updatedColumnsAndValues (env : Env) (m : Model) (values : List (String × Option Val))
    (now : Int) : Option (Option (List (String × Option Val)) × Bool × Model) :=
  match m.data with
  | none => some (some values, true, m)
  | some _ =>
    match dataIndirect m.data with
    | some (addr, .struct info fs) =>
        match applyLoop env addr values (fs, false) with
        | none => none
        | some (fs', anyUpdated) =>
            let fs'' :=
              if (mapGet values "updated_at").isSome && anyUpdated then
                setFieldValue fs' "UpdatedAt" (.time now)
              else fs'
            some (none, anyUpdated, { m with data := dataStore m.data (.struct info fs'') })
    | some (_, .time _) =>
        if values.all (fun kv => !(["wall", "ext", "loc"].contains
            (env.snakeToUpperCamel kv.1))) then some (none, false, m)
        else none
    | _ => if values.isEmpty then some (none, false, m) else none

/-! ## Sample collaborators -/

/-- Modelled from the spec: `toSnake`, defined outside `model.go`. An underscore is
inserted only where an upper-case letter follows a lower-case letter or a digit, and the
result is lower case, so that adjacent capitals get no underscore between them. -/
def toSnakeChars (prev : Option Char) : List Char → List Char
  | [] => []
  | c :: rest =>
      (if c.isUpper && (match prev with
          | some d => d.isLower || d.isDigit
          | none => false) then ['_', c.toLower] else [c.toLower])
        ++ toSnakeChars (some c) rest

/-- Modelled from the spec: `snakeToUpperCamel`, defined outside `model.go`, the inverse
mapping of `toSnake`: the underscores go and the letter that starts the name or follows
an underscore becomes upper case. -/
def camelChars (up : Bool) : List Char → List Char
  | [] => []
  | c :: rest =>
      if c = '_' then camelChars true rest
      else (if up then c.toUpper else c) :: camelChars false rest

/-- A set of collaborators to evaluate the definitions on: the two name conversions as
the spec describes them, a tag that is the explicit type itself, and a dialect that
answers with the Go type's name. -/
def sampleEnv : Env :=
  { toSnake := fun s => String.mk (toSnakeChars none s.data)
    snakeToUpperCamel := fun s => String.mk (camelChars true s.data)
    parseSqlTag := fun tag => (tag, "", 0)
    getInterfaceValue := fun v => v
    sqlTag := fun v _ => v.typeOf.name
    primaryKeyTag := fun v _ => v.typeOf.name ++ " primary key"
    singularTableName := false }

/-! ## Sample records -/

/-- A handle on a record of the given struct type, passed by reference, with an empty
cache and an empty error sink. -/
def handleOn (typName : String) (fs : List (FieldDecl × Val)) : Model :=
  { data := some (.ptr 1 (.struct { name := typName, scanner := false, tableName := none } fs))
    cache := []
    errs := [] }

/-- An exported, non-embedded, untagged field declaration. -/
def plainField (name : String) : FieldDecl :=
  { name := name, anonymous := false, tag := "" }

/-- The traversal of `pluralMap` that meets the entry "s?" first. -/
def optionalSFirst : List (String × String) :=
  [("s?", "s"), ("ch", "ches"), ("ss", "sses"), ("sh", "shes"), ("day", "days"),
   ("y", "ies"), ("x", "xes")]

/-! ## Notions used to state the properties -/

/-- A field the loop of `fields` describes: exported and not embedded. -/
def visible (p : FieldDecl) : Bool :=
  !p.anonymous && isExported p.name

mutual
/-- Whether a value is the zero value of its type: false, the number zero, the empty
string, the zero time, a slice or map without elements, a nil pointer, a struct whose
fields are all zero. -/
def Val.isZero : Val → Bool
  | .bool b => !b
  | .int _ v => v == 0
  | .uint _ v => v == 0
  | .float k b => floatZero k b
  | .str s => s == ""
  | .time t => t == 0
  | .slice _ items => items.length == 0
  | .struct _ fs => zeroFields fs
  | .ptr _ _ => false
  | .nilptr _ => true
  | .map _ _ n => n == 0
/-- All fields of a struct hold the zero value of their type. -/
def zeroFields : List (FieldDecl × Val) → Bool
  | [] => true
  | (_, v) :: rest => v.isZero && zeroFields rest
end

/-- The values for which the `switch value.Kind()` of `fields` has a case that compares
with zero: `int`, `int32`, `int64`, strings, slices and times. -/
def zeroChecked : Val → Bool
  | .int .int _ => true
  | .int .int32 _ => true
  | .int .int64 _ => true
  | .str _ => true
  | .slice _ _ => true
  | .time _ => true
  | _ => false

/-- A record with one `int8` field holding zero. -/
def int8Record : Model :=
  handleOn "Profile" [(plainField "Age", .int .int8 0)]

/-- A record with a string and an `int64` field. -/
def personRecord : Model :=
  handleOn "Person" [(plainField "Name", .str ""), (plainField "Age", .int .int64 7)]

/-- The fields of a struct paired with their positions, counted from `i`: the position
is the iteration of the loop of `fields` in which the field is visited. -/
def indexFrom : Nat → List (FieldDecl × Val) → List (Nat × (FieldDecl × Val))
  | _, [] => []
  | i, pv :: rest => (i, pv) :: indexFrom (i + 1) rest

/-- The fields `fields("create")` is to stamp: a described field that holds the zero
time and whose column name is "created_at" or "updated_at". -/
def stampsOnCreate (env : Env) (pv : FieldDecl × Val) : Bool :=
  visible pv.1 &&
    ("created_at" == env.toSnake pv.1.name || "updated_at" == env.toSnake pv.1.name) &&
    (match pv.2 with
      | .time t => t == 0
      | _ => false)

/-- The fields `fields("update")` is to stamp: a described field that holds a time and
whose column name is "updated_at". -/
def stampsOnUpdate (env : Env) (pv : FieldDecl × Val) : Bool :=
  visible pv.1 && "updated_at" == env.toSnake pv.1.name &&
    (match pv.2 with
      | .time _ => true
      | _ => false)

/-- A record with an identifier, a name and the two timestamps, both zero. -/
def userFields : List (FieldDecl × Val) :=
  [(plainField "Id", .int .int64 0), (plainField "Name", .str "Alice"),
   (plainField "CreatedAt", .time 0), (plainField "UpdatedAt", .time 0)]

/-- The same record with the timestamps set to the instants `c` and `u`. -/
def userFieldsAt (c u : Int) : List (FieldDecl × Val) :=
  [(plainField "Id", .int .int64 0), (plainField "Name", .str "Alice"),
   (plainField "CreatedAt", .time c), (plainField "UpdatedAt", .time u)]

/-- Whether the loop body of `updatedColumnsAndValues` counts a supplied value as a
change of the field holding `old`: for a field of kind `int`, `int32` or `int64` the two
are read as 64-bit integers and compared, for any other field they are compared as
interface values. -/
def suppliedDiffers (old v : Val) : Bool :=
  if old.kind = .int .int ∨ old.kind = .int .int32 ∨ old.kind = .int .int64 then
    match old, v with
    | .int _ x, .int _ y => x != y
    | _, _ => false
  else ifaceNe old v == some true

/-- An integer value lies within the width of its kind. -/
def inRange : Val → Bool
  | .int k x => wrapInt k x == x
  | _ => true

/-- A record with an `int32` field holding 5. -/
def ageFields : List (FieldDecl × Val) :=
  [(plainField "Name", .str "Alice"), (plainField "Age", .int .int32 5)]

/-- The field `pv'` is the field `pv` afterwards when nothing but fields called by one
of `names` may have been written: the declaration is the same, and so is the value
unless the field's name is among `names`. -/
def keptOutside (names : List String) (pv pv' : FieldDecl × Val) : Prop :=
  pv'.1 = pv.1 ∧ (pv.1.name ∉ names → pv'.2 = pv.2)

/-- A fresh handle whose record is the nil interface. -/
def nilHandle : Model :=
  { data := none, cache := [], errs := [] }

/-- A record whose `Id` is an `int8` holding 5. -/
def int8IdRecord : Model :=
  handleOn "Tag" [(plainField "Id", .int .int8 5), (plainField "Name", .str "go")]

/-- Fields of a record with an unexported field and an embedded field next to `Id` and
`FirstName`. -/
def mixedFields : List (FieldDecl × Val) :=
  [(plainField "Id", .int .int64 3), (plainField "secret", .str "x"),
   ({ name := "Base", anonymous := true, tag := "" }, .int .int 1),
   (plainField "FirstName", .str "Ann")]

/-- A handle on a record with the fields `mixedFields`. -/
def mixedRecord : Model :=
  handleOn "Account" mixedFields

/-- Fields of a `User` with a slice of `Email` (which has a `UserId`), a `Company` with
the sibling `CompanyId`, an `Address` (which has a `UserId`) without sibling, and a
creation time. -/
def assocFields : List (FieldDecl × Val) :=
  [(plainField "Id", .int .int64 1),
   (plainField "Emails", .slice (.struct "Email" ["Id", "UserId", "Address"]) []),
   (plainField "Company",
     .struct { name := "Company", scanner := false, tableName := none }
       [(plainField "Id", .int .int64 0), (plainField "Name", .str "")]),
   (plainField "CompanyId", .int .int64 0),
   (plainField "Address",
     .struct { name := "Address", scanner := false, tableName := none }
       [(plainField "Id", .int .int64 0), (plainField "UserId", .int .int64 0),
        (plainField "Street", .str "Main")]),
   (plainField "CreatedAt", .time 0)]

/-- Fields of a `User` with two optional times, each a pointer to a `time.Time`, the
second with the sibling `ArchivedAtId`, and a creation time held by value. -/
def optionalTimeFields : List (FieldDecl × Val) :=
  [(plainField "Id", .int .int64 1),
   (plainField "DeletedAt", .ptr 7 (.time 5)),
   (plainField "ArchivedAt", .ptr 8 (.time 0)),
   (plainField "ArchivedAtId", .int .int64 0),
   (plainField "CreatedAt", .time 5)]

/-- The handle `fields` builds for a nested struct value: the value itself, no cache,
and the error sink of the outer handle. -/
def nestedHandle (m : Model) (v : Val) : Model :=
  { data := some v, cache := [], errs := m.errs }

/-- Fields of a record with a nested struct all of whose described fields are blank, a
nested struct without exported fields, and a nested struct with a non-blank field. -/
def nestedFields : List (FieldDecl × Val) :=
  [(plainField "Empty",
     .struct { name := "Place", scanner := false, tableName := none }
       [(plainField "City", .str ""), (plainField "Zip", .int .int 0)]),
   (plainField "Hidden",
     .struct { name := "Inner", scanner := false, tableName := none }
       [(plainField "secret", .str "x")]),
   (plainField "Home",
     .struct { name := "Place", scanner := false, tableName := none }
       [(plainField "City", .str "Oslo"), (plainField "Zip", .int .int 0)])]

/-- A record type with a `TableName` method that answers "people". -/
def namedRecord : Model :=
  { data := some (.ptr 1 (.struct ⟨"Person", false, some "people", none⟩
      [(plainField "Id", .int .int64 1)]))
    cache := []
    errs := [] }

/-- A record of a type `Animal` whose `TableName` method is declared on the pointer type,
`func (a *Animal) TableName() string`, and answers "beasts"; the record is passed by
reference. -/
def animalRecord : Model :=
  { data := some (.ptr 1 (.struct ⟨"Animal", false, none, some "beasts"⟩
      [(plainField "Id", .int .int64 1)]))
    cache := []
    errs := [] }

/-- The string the `TableName` method of a record type returns, whichever receiver the
method is declared with: what the type exposes to a caller holding a pointer to the
record. -/
def exposedTableName (info : StructInfo) : Option String :=
  match info.tableName with
  | some s => some s
  | none => info.ptrTableName

/-- The collaborators of `sampleEnv` with singular table names configured. -/
def singularEnv : Env :=
  { sampleEnv with singularTableName := true }

/-- The test of `columnsAndValues`: the descriptor is not the primary key and has a
storage type. -/
def isColumn (f : Field) : Bool :=
  !f.IsPrimaryKey && decide (f.SqlType.length > 0)

/-- Fields of a record one of whose fields carries the type tag "-". -/
def taggedFields : List (FieldDecl × Val) :=
  [(plainField "Id", .int .int64 4), (plainField "Name", .str "Ann"),
   ({ name := "Password", anonymous := false, tag := "-" }, .str "pw")]

mutual
/-- A field value the loop body of `fields` passes without a panic from a lookup: a
scanner has a boolean field `Valid`, the described fields of any other nested struct are
passable in turn, and a slice, reached directly or through a pointer, has a struct as its
element type. -/
def passable : Val → Bool
  | .struct info fs =>
      if info.scanner then
        (match fieldByName fs "Valid" with
          | some (.bool _) => true
          | _ => false)
      else passableFields fs
  | .slice elem _ => elem.fieldNames?.isSome
  | .ptr _ (.slice elem _) => elem.fieldNames?.isSome
  | _ => true
/-- Every described field of the list is passable. -/
def passableFields : List (FieldDecl × Val) → Bool
  | [] => true
  | (p, v) :: rest => (!visible p || passable v) && passableFields rest
end

/-- A value whose kind, after a pointer is followed, is neither slice nor struct: the
loop body of `fields` has no special case for it. -/
def unclassified (v : Val) : Bool :=
  match v.indirect with
  | some w => w.kind != .slice && w.kind != .struct
  | none => true

/-- Fields of a record with a boolean, a float, a map and a nil pointer. -/
def scalarFields : List (FieldDecl × Val) :=
  [(plainField "Active", .bool false), (plainField "Score", .float .float64 0),
   (plainField "Labels", .map .string .string 0), (plainField "Note", .nilptr .string)]

/-- Fields of a record with a slice of strings. -/
def tagsFields : List (FieldDecl × Val) :=
  [(plainField "Name", .str "Ann"), (plainField "Tags", .slice .string [.str "a"])]

/-! ## Theorems -/

/-- C1: the table name depends on the order in which the range over `pluralMap` visits
its entries. For a record type `Category` the traversal in the written order gives
"categories", and the traversal that meets the entry "s?" first (also a traversal of the
same map) gives "categorys". -/
theorem tableName_depends_on_traversal_order :
    optionalSFirst.Perm pluralMap ∧
    tableName sampleEnv pluralMap (handleOn "Category" []) =
      some ("categories", handleOn "Category" []) ∧
    tableName sampleEnv optionalSFirst (handleOn "Category" []) =
      some ("categorys", handleOn "Category" []) :=
  ⟨by decide, rfl, rfl⟩

/-! ### The walk over the fields -/

theorem resolveRole_keeps {env : Env} {tn : String} {sib : List String} {field f : Field}
    {p : FieldDecl} {isTime : Bool} {value : Val}
    (h : resolveRole env tn sib field p isTime value = some f) :
    f.Name = field.Name ∧ f.Value = field.Value ∧ f.DbName = field.DbName ∧
    f.IsBlank = field.IsBlank ∧ f.IsPrimaryKey = field.IsPrimaryKey ∧
    f.AutoCreateTime = field.AutoCreateTime ∧ f.AutoUpdateTime = field.AutoUpdateTime := by
  unfold resolveRole at h
  repeat' split at h
  all_goals first
    | (cases h; simp)
    | (simp at h)

theorem describe_spec {env : Env} {tn : String} {sib : List String} {addr : Bool}
    {op : String} {now : Int} {p : FieldDecl} {v v' : Val} {blank : Bool} {f : Field}
    (h : describe env tn sib addr op now p v blank = some (f, v')) :
    f.Name = p.name ∧ f.DbName = env.toSnake p.name ∧ f.IsBlank = blank ∧ f.Value = v' ∧
    f.IsPrimaryKey = (primaryKeyDb env == env.toSnake p.name) := by
  unfold describe at h
  simp only at h
  split at h
  · split at h
    · simp at h
    · split at h
      · simp at h
      · rename_i f' hf'
        simp only [Option.some.injEq, Prod.mk.injEq] at h
        obtain ⟨rfl, rfl⟩ := h
        have := resolveRole_keeps hf'
        simp_all
  · split at h
    · simp at h
    · rename_i f' hf'
      simp only [Option.some.injEq, Prod.mk.injEq] at h
      obtain ⟨rfl, rfl⟩ := h
      have := resolveRole_keeps hf'
      simp_all

theorem describe_value {env : Env} {tn : String} {sib : List String} {addr : Bool}
    {op : String} {now : Int} {p : FieldDecl} {v v' : Val} {blank : Bool} {f : Field}
    (h : describe env tn sib addr op now p v blank = some (f, v')) :
    (timeOf v = none → v' = v) ∧
    (∀ t, timeOf v = some t →
      ∃ t', autoFill addr op ("created_at" == env.toSnake p.name)
        ("updated_at" == env.toSnake p.name) now t = some t' ∧ v' = .time t') := by
  unfold describe at h
  simp only at h
  split at h
  · rename_i t ht
    split at h
    · simp at h
    · rename_i t' ht'
      split at h
      · simp at h
      · simp only [Option.some.injEq, Prod.mk.injEq] at h
        obtain ⟨-, rfl⟩ := h
        refine ⟨fun hn => by simp [ht] at hn, fun t0 h0 => ?_⟩
        rw [ht] at h0
        cases h0
        exact ⟨t', ht', rfl⟩
  · rename_i ht
    split at h
    · simp at h
    · simp only [Option.some.injEq, Prod.mk.injEq] at h
      obtain ⟨-, rfl⟩ := h
      exact ⟨fun _ => rfl, fun t0 h0 => by simp [ht] at h0⟩

theorem walk_nil {env : Env} {tn : String} {sib : List String} {addr : Bool}
    {op : String} {clock : Nat → Int} {i : Nat} :
    walk env tn sib addr op clock i [] = some ([], []) := by
  simp [walk]

theorem walk_cons {env : Env} {tn : String} {sib : List String} {addr : Bool}
    {op : String} {clock : Nat → Int} {i : Nat} {p : FieldDecl} {value : Val}
    {rest : List (FieldDecl × Val)} :
    walk env tn sib addr op clock i ((p, value) :: rest) =
      if visible p then
        match blankOf env value with
        | none => none
        | some blank =>
            match describe env tn sib addr op (clock i) p value blank with
            | none => none
            | some (f, value') =>
                match walk env tn sib addr op clock (i + 1) rest with
                | none => none
                | some (fs, rest') => some (f :: fs, (p, value') :: rest')
      else
        match walk env tn sib addr op clock (i + 1) rest with
        | none => none
        | some (fs, rest') => some (fs, (p, value) :: rest') := by
  rw [walk]
  rfl

/-- The descriptors of a walk are those of the visible fields, in order: each comes from
`describe` applied to the field, to the clock reading of the field's iteration and to
the blank flag `blankOf` computes for it. -/
theorem walk_descriptors_indexed {env : Env} {tn : String} {sib : List String} {addr : Bool}
    {op : String} {clock : Nat → Int} :
    ∀ {fs : List (FieldDecl × Val)} {i : Nat} {ds : List Field}
      {fs' : List (FieldDecl × Val)},
      walk env tn sib addr op clock i fs = some (ds, fs') →
      List.Forall₂ (fun ipv f => ∃ blank v', blankOf env ipv.2.2 = some blank ∧
          describe env tn sib addr op (clock ipv.1) ipv.2.1 ipv.2.2 blank = some (f, v'))
        ((indexFrom i fs).filter (fun ipv => visible ipv.2.1)) ds := by
  intro fs
  induction fs with
  | nil =>
      intro i ds fs' h
      rw [walk_nil] at h
      cases h
      exact List.Forall₂.nil
  | cons pv rest ih =>
      obtain ⟨p, value⟩ := pv
      intro i ds fs' h
      rw [walk_cons] at h
      by_cases hv : visible p = true
      · rw [if_pos hv] at h
        cases hb : blankOf env value with
        | none => simp [hb] at h
        | some blank =>
          simp only [hb] at h
          cases hd : describe env tn sib addr op (clock i) p value blank with
          | none => simp [hd] at h
          | some r =>
            obtain ⟨f, value'⟩ := r
            simp only [hd] at h
            cases hw : walk env tn sib addr op clock (i + 1) rest with
            | none => simp [hw] at h
            | some r2 =>
              obtain ⟨ds2, rest'⟩ := r2
              simp only [hw] at h
              simp only [Option.some.injEq, Prod.mk.injEq] at h
              obtain ⟨rfl, rfl⟩ := h
              rw [indexFrom, List.filter_cons_of_pos (by simpa using hv)]
              exact List.Forall₂.cons ⟨blank, value', hb, hd⟩ (ih hw)
      · rw [if_neg hv] at h
        cases hw : walk env tn sib addr op clock (i + 1) rest with
        | none => simp [hw] at h
        | some r2 =>
          obtain ⟨ds2, rest'⟩ := r2
          simp only [hw] at h
          simp only [Option.some.injEq, Prod.mk.injEq] at h
          obtain ⟨rfl, rfl⟩ := h
          rw [indexFrom, List.filter_cons_of_neg (by simpa using hv)]
          exact ih hw

/-- The descriptors of a walk are those of the visible fields, in order: each comes from
`describe` applied to the field, to a clock reading and to the blank flag `blankOf`
computes for it. -/
theorem walk_descriptors {env : Env} {tn : String} {sib : List String} {addr : Bool}
    {op : String} {clock : Nat → Int} :
    ∀ {fs : List (FieldDecl × Val)} {i : Nat} {ds : List Field}
      {fs' : List (FieldDecl × Val)},
      walk env tn sib addr op clock i fs = some (ds, fs') →
      List.Forall₂ (fun pv f => ∃ now blank v', blankOf env pv.2 = some blank ∧
          describe env tn sib addr op now pv.1 pv.2 blank = some (f, v'))
        (fs.filter (fun pv => visible pv.1)) ds := by
  intro fs
  induction fs with
  | nil =>
      intro i ds fs' h
      rw [walk_nil] at h
      cases h
      exact List.Forall₂.nil
  | cons pv rest ih =>
      obtain ⟨p, value⟩ := pv
      intro i ds fs' h
      rw [walk_cons] at h
      by_cases hv : visible p = true
      · rw [if_pos hv] at h
        cases hb : blankOf env value with
        | none => simp [hb] at h
        | some blank =>
          simp only [hb] at h
          cases hd : describe env tn sib addr op (clock i) p value blank with
          | none => simp [hd] at h
          | some r =>
            obtain ⟨f, value'⟩ := r
            simp only [hd] at h
            cases hw : walk env tn sib addr op clock (i + 1) rest with
            | none => simp [hw] at h
            | some r2 =>
              obtain ⟨ds2, rest'⟩ := r2
              simp only [hw] at h
              simp only [Option.some.injEq, Prod.mk.injEq] at h
              obtain ⟨rfl, rfl⟩ := h
              rw [List.filter_cons_of_pos (by simpa using hv)]
              exact List.Forall₂.cons ⟨clock i, blank, value', hb, hd⟩ (ih hw)
      · rw [if_neg hv] at h
        cases hw : walk env tn sib addr op clock (i + 1) rest with
        | none => simp [hw] at h
        | some r2 =>
          obtain ⟨ds2, rest'⟩ := r2
          simp only [hw] at h
          simp only [Option.some.injEq, Prod.mk.injEq] at h
          obtain ⟨rfl, rfl⟩ := h
          rw [List.filter_cons_of_neg (by simpa using hv)]
          exact ih hw

/-- The fields after a walk: declarations are kept, a field that is not visible or not a
time keeps its value, and a visible time field holds what `autoFill` returned for the
clock reading of the field's iteration. -/
theorem walk_fields {env : Env} {tn : String} {sib : List String} {addr : Bool}
    {op : String} {clock : Nat → Int} :
    ∀ {fs : List (FieldDecl × Val)} {i : Nat} {ds : List Field}
      {fs' : List (FieldDecl × Val)},
      walk env tn sib addr op clock i fs = some (ds, fs') →
      List.Forall₂ (fun ipv pv' => pv'.1 = ipv.2.1 ∧
          ((visible ipv.2.1 = false ∨ timeOf ipv.2.2 = none) → pv'.2 = ipv.2.2) ∧
          (∀ t, visible ipv.2.1 = true → timeOf ipv.2.2 = some t →
            ∃ t', autoFill addr op ("created_at" == env.toSnake ipv.2.1.name)
              ("updated_at" == env.toSnake ipv.2.1.name) (clock ipv.1) t = some t' ∧
              pv'.2 = .time t'))
        (indexFrom i fs) fs' := by
  intro fs
  induction fs with
  | nil =>
      intro i ds fs' h
      rw [walk_nil] at h
      cases h
      exact List.Forall₂.nil
  | cons pv rest ih =>
      obtain ⟨p, value⟩ := pv
      intro i ds fs' h
      rw [walk_cons] at h
      by_cases hv : visible p = true
      · rw [if_pos hv] at h
        cases hb : blankOf env value with
        | none => simp [hb] at h
        | some blank =>
          simp only [hb] at h
          cases hd : describe env tn sib addr op (clock i) p value blank with
          | none => simp [hd] at h
          | some r =>
            obtain ⟨f, value'⟩ := r
            simp only [hd] at h
            cases hw : walk env tn sib addr op clock (i + 1) rest with
            | none => simp [hw] at h
            | some r2 =>
              obtain ⟨ds2, rest'⟩ := r2
              simp only [hw] at h
              simp only [Option.some.injEq, Prod.mk.injEq] at h
              obtain ⟨rfl, rfl⟩ := h
              have hval := describe_value hd
              rw [indexFrom]
              refine List.Forall₂.cons ⟨rfl, ?_, ?_⟩ (ih hw)
              · rintro (hc | hc)
                · simp [hv] at hc
                · exact hval.1 hc
              · intro t _ ht
                exact hval.2 t ht
      · rw [if_neg hv] at h
        cases hw : walk env tn sib addr op clock (i + 1) rest with
        | none => simp [hw] at h
        | some r2 =>
          obtain ⟨ds2, rest'⟩ := r2
          simp only [hw] at h
          simp only [Option.some.injEq, Prod.mk.injEq] at h
          obtain ⟨rfl, rfl⟩ := h
          rw [indexFrom]
          refine List.Forall₂.cons ⟨rfl, fun _ => rfl, ?_⟩ (ih hw)
          intro t hc
          exact absurd hc hv

theorem indexFrom_map_snd :
    ∀ (fs : List (FieldDecl × Val)) (i : Nat), (indexFrom i fs).map Prod.snd = fs := by
  intro fs
  induction fs with
  | nil => intro i; rfl
  | cons pv rest ih => intro i; simp [indexFrom, ih]

theorem forall₂_mem_right {α β : Type} {R : α → β → Prop} :
    ∀ {l₁ : List α} {l₂ : List β}, List.Forall₂ R l₁ l₂ →
      ∀ b ∈ l₂, ∃ a ∈ l₁, R a b := by
  intro l₁ l₂ h
  induction h with
  | nil => intro b hb; simp at hb
  | cons hab _ ih =>
      intro b hb
      rcases List.mem_cons.1 hb with rfl | hb
      · exact ⟨_, List.mem_cons_self _ _, hab⟩
      · obtain ⟨a, ha, hr⟩ := ih b hb
        exact ⟨a, List.mem_cons_of_mem _ ha, hr⟩

theorem autoFill_other {addr : Bool} {op : String} {ac au : Bool} {now t : Int}
    (h1 : op ≠ "create") (h2 : op ≠ "update") : autoFill addr op ac au now t = some t := by
  simp [autoFill, h1, h2]

theorem forall₂_right_eq_map {α β : Type} {h : α → β} :
    ∀ {l : List α} {l' : List β}, List.Forall₂ (fun a b => b = h a) l l' →
      l' = l.map h := by
  intro l l' hF
  induction hF with
  | nil => rfl
  | cons hab _ ih => rw [List.map_cons, ← hab, ← ih]

/-- A walk under an operation other than "create" and "update" leaves the fields as they
are. -/
theorem walk_other_fields {env : Env} {tn : String} {sib : List String} {addr : Bool}
    {op : String} {clock : Nat → Int} {i : Nat} {fs fs' : List (FieldDecl × Val)}
    {ds : List Field}
    (h1 : op ≠ "create") (h2 : op ≠ "update")
    (h : walk env tn sib addr op clock i fs = some (ds, fs')) : fs' = fs := by
  have hf := walk_fields h
  have : List.Forall₂ (fun ipv pv' => pv' = Prod.snd ipv) (indexFrom i fs) fs' := by
    refine hf.imp ?_
    rintro ⟨j, p, v⟩ ⟨p', v'⟩ ⟨hp, hkeep, htime⟩
    simp only at hp hkeep htime
    subst hp
    by_cases hv : visible p' = true
    · cases ht : timeOf v with
      | none => rw [hkeep (Or.inr ht)]
      | some t =>
        obtain ⟨t', hfill, rfl⟩ := htime t hv ht
        rw [autoFill_other h1 h2] at hfill
        cases hfill
        cases v <;> simp [timeOf] at ht
        rw [ht]
    · rw [hkeep (Or.inl (by simpa using hv))]
  rw [forall₂_right_eq_map this, indexFrom_map_snd]

theorem dataStore_self {d : Option Val} {addr : Bool} {v : Val}
    (h : dataIndirect d = some (addr, v)) : dataStore d v = d := by
  unfold dataIndirect at h
  split at h <;> simp at h
  · obtain ⟨-, rfl⟩ := h
    rfl
  · obtain ⟨-, rfl⟩ := h
    unfold dataStore
    split
    · rename_i _ hptr _ a tgt heq
      simp only [Option.some.injEq] at heq
      exact (hptr a tgt heq).elim
    · rfl

theorem fields_miss_struct {env : Env} {m : Model} {op : String} {clock : Nat → Int}
    {addr : Bool}
    {info : StructInfo} {fs : List (FieldDecl × Val)}
    (hc : (cacheGet m.cache op).length = 0)
    (hd : dataIndirect m.data = some (addr, .struct info fs)) :
    fields env m op clock =
      match walk env info.name (fs.map (fun pv => pv.1.name)) addr op clock 0 fs with
      | none => none
      | some (ds, fs') =>
          some (ds, { m with data := dataStore m.data (.struct info fs')
                             cache := cachePut m.cache op ds }) := by
  unfold fields
  simp [hc, hd]

theorem blankOf_zeroChecked {env : Env} {v : Val} {b : Bool}
    (h : blankOf env v = some b) (hz : zeroChecked v = true) : b = v.isZero := by
  cases v with
  | int k x =>
      cases k <;> simp [zeroChecked] at hz <;> simp [blankOf, Val.isZero] at h ⊢ <;>
        simp [← h]
  | str x => simp [blankOf, Val.isZero] at h ⊢; simp [← h]
  | slice e items => simp [blankOf, Val.isZero] at h ⊢; simp [← h]
  | time t => simp [blankOf, Val.isZero] at h ⊢; simp [← h]
  | _ => simp [zeroChecked] at hz

theorem blankOf_unchecked {env : Env} {v : Val} {b : Bool}
    (h : blankOf env v = some b) (hz : zeroChecked v = false)
    (hk : v.kind ≠ .struct) : b = false := by
  cases v with
  | int k x => cases k <;> simp [zeroChecked] at hz <;> simp [blankOf] at h <;> simp [← h]
  | struct info fs => simp [Val.kind] at hk
  | time t => simp [Val.kind] at hk
  | str x => simp [zeroChecked] at hz
  | slice e items => simp [zeroChecked] at hz
  | _ => simp [blankOf] at h; simp [← h]

/-- C2 (counterexample): a record whose only field is an `int8` holding zero, classified
under the operation "other" on a fresh handle, gets a descriptor whose value is the zero
value of its type and whose `IsBlank` is false. -/
theorem isBlank_false_on_zero_int8 :
    ∃ f m', fields sampleEnv int8Record "other" (fun _ => 0) = some ([f], m') ∧
      f.Name = "Age" ∧ f.Value.isZero = true ∧ f.IsBlank = false :=
  ⟨_, _, rfl, rfl, rfl, rfl⟩

/-- C2 (amended): on a handle without a cached sequence for the operation, and for an
operation other than "create" and "update", the record is left as it is and every
descriptor returned describes a field of the record, carries that field's value, and
has `IsBlank` true exactly when the value is the zero value of its type provided the
field is an `int`, `int32`, `int64`, a string, a slice or a time; for a field of any
other kind that is not a struct `IsBlank` is false whatever the value. -/
theorem fields_isBlank_checked_kinds (env : Env) (m m' : Model) (op : String) (clock : Nat → Int)
    (addr : Bool) (info : StructInfo) (fs : List (FieldDecl × Val)) (ds : List Field)
    (hcreate : op ≠ "create") (hupdate : op ≠ "update")
    (hcache : (cacheGet m.cache op).length = 0)
    (hdata : dataIndirect m.data = some (addr, .struct info fs))
    (hret : fields env m op clock = some (ds, m')) :
    m'.data = m.data ∧
    ∀ f ∈ ds, ∃ pv ∈ fs, visible pv.1 = true ∧ f.Name = pv.1.name ∧ f.Value = pv.2 ∧
      (zeroChecked pv.2 = true → (f.IsBlank = true ↔ pv.2.isZero = true)) ∧
      (zeroChecked pv.2 = false → pv.2.kind ≠ .struct → f.IsBlank = false) := by
  rw [fields_miss_struct hcache hdata] at hret
  cases hw : walk env info.name (fs.map (fun pv => pv.1.name)) addr op clock 0 fs with
  | none => simp [hw] at hret
  | some r =>
    obtain ⟨ds0, fs'⟩ := r
    simp only [hw, Option.some.injEq, Prod.mk.injEq] at hret
    obtain ⟨rfl, rfl⟩ := hret
    have hfs : fs' = fs := walk_other_fields hcreate hupdate hw
    subst hfs
    refine ⟨by simp [dataStore_self hdata], ?_⟩
    intro f hf
    obtain ⟨pv, hpv, now, blank, v', hb, hd⟩ := forall₂_mem_right (walk_descriptors hw) f hf
    rw [List.mem_filter] at hpv
    obtain ⟨hname, -, hblank, hvalue, -⟩ := describe_spec hd
    have hv' : v' = pv.2 := by
      have hval := describe_value hd
      cases ht : timeOf pv.2 with
      | none => exact hval.1 ht
      | some t =>
        obtain ⟨t', hfill, rfl⟩ := hval.2 t ht
        rw [autoFill_other hcreate hupdate] at hfill
        cases hfill
        revert ht
        cases pv.2 <;> simp [timeOf]
        intro h; rw [h]
    refine ⟨pv, hpv.1, by simpa using hpv.2, hname, by rw [hvalue, hv'], ?_, ?_⟩
    · intro hz
      rw [hblank, blankOf_zeroChecked hb hz]
    · intro hz hk
      rw [hblank]
      exact blankOf_unchecked hb hz hk

/-- C2 (witness): the amended statement at a record with an empty name and the age 7,
classified under "other". -/
theorem fields_isBlank_checked_kinds_witness :
    ("other" ≠ "create" ∧ "other" ≠ "update") ∧
    (∃ ds m', fields sampleEnv personRecord "other" (fun _ => 0) = some (ds, m') ∧
      m'.data = personRecord.data ∧
      ∀ f ∈ ds, ∃ pv ∈ [(plainField "Name", Val.str ""), (plainField "Age", Val.int .int64 7)],
        visible pv.1 = true ∧ f.Name = pv.1.name ∧ f.Value = pv.2 ∧
        (zeroChecked pv.2 = true → (f.IsBlank = true ↔ pv.2.isZero = true)) ∧
        (zeroChecked pv.2 = false → pv.2.kind ≠ .struct → f.IsBlank = false)) :=
  ⟨⟨by decide, by decide⟩, _, _, rfl,
    fields_isBlank_checked_kinds sampleEnv personRecord _ "other" (fun _ => 0) true
      { name := "Person", scanner := false, tableName := none } _ _
      (by decide) (by decide) rfl rfl rfl⟩

theorem dataIndirect_store {d : Option Val} {addr : Bool} {v v' : Val}
    (h : dataIndirect d = some (addr, v)) (hv : addr = false → v' = v) :
    dataIndirect (dataStore d v') = some (addr, v') := by
  cases addr with
  | false =>
      rw [hv rfl, dataStore_self h]
      exact h
  | true =>
      unfold dataIndirect at h
      split at h <;> simp at h
      subst h
      rfl

theorem cacheGet_nil (op : String) : (cacheGet [] op).length = 0 := rfl

/-- C3: on a fresh handle on a struct record, a completed first call `fields("create")`
leaves the record with every described time field whose column is "created_at" or
"updated_at" and which held the zero time set to the current time, that is to the
reading `time.Now()` returns in the iteration that visits the field (`clock i` for the
field at position `i`), and with every other field (a time field that was already set
included) exactly as it was; so the fields that were to be stamped each hold a clock
reading afterwards, which is not the zero time when the clock is not at the zero
time. -/
theorem fields_create_stamps_zero_times (env : Env) (m m' : Model) (clock : Nat → Int)
    (addr : Bool) (info : StructInfo) (fs : List (FieldDecl × Val)) (ds : List Field)
    (hfresh : m.cache = [])
    (hdata : dataIndirect m.data = some (addr, .struct info fs))
    (hret : fields env m "create" clock = some (ds, m')) :
    dataIndirect m'.data = some (addr, .struct info
      ((indexFrom 0 fs).map (fun ipv =>
        if stampsOnCreate env ipv.2 = true then (ipv.2.1, .time (clock ipv.1))
        else ipv.2))) ∧
    (∀ ipv ∈ indexFrom 0 fs, stampsOnCreate env ipv.2 = true →
      (ipv.2.1, Val.time (clock ipv.1)) ∈
        (indexFrom 0 fs).map (fun ipv =>
          if stampsOnCreate env ipv.2 = true then (ipv.2.1, .time (clock ipv.1))
          else ipv.2)) ∧
    (∀ i, clock i ≠ 0 → (Val.time (clock i)).isZero = false) := by
  have hcache : (cacheGet m.cache "create").length = 0 := by rw [hfresh]; rfl
  rw [fields_miss_struct hcache hdata] at hret
  cases hw : walk env info.name (fs.map (fun pv => pv.1.name)) addr "create" clock 0 fs with
  | none => simp [hw] at hret
  | some r =>
    obtain ⟨ds0, fs'⟩ := r
    simp only [hw, Option.some.injEq, Prod.mk.injEq] at hret
    obtain ⟨rfl, rfl⟩ := hret
    have hstep : List.Forall₂ (fun ipv pv' =>
        pv' = (if stampsOnCreate env ipv.2 = true then (ipv.2.1, Val.time (clock ipv.1))
          else ipv.2) ∧
        (stampsOnCreate env ipv.2 = true → addr = true)) (indexFrom 0 fs) fs' := by
      refine (walk_fields hw).imp ?_
      rintro ⟨j, p, v⟩ ⟨p', v'⟩ ⟨hp, hkeep, htime⟩
      simp only at hp hkeep htime
      subst hp
      by_cases hv : visible p' = true
      · cases v with
        | time t =>
          obtain ⟨t', hfill, rfl⟩ := htime t hv rfl
          by_cases hz : (("created_at" == env.toSnake p'.name ||
              "updated_at" == env.toSnake p'.name) && t == 0) = true
          · have hs : stampsOnCreate env (p', Val.time t) = true := by
              simp only [Bool.and_eq_true] at hz
              simp [stampsOnCreate, hv, hz.1, hz.2]
            cases addr <;> simp [autoFill, hz] at hfill
            subst hfill
            simp [hs]
          · have hs : ¬ stampsOnCreate env (p', Val.time t) = true := by
              intro hs
              apply hz
              simp only [stampsOnCreate, Bool.and_eq_true] at hs
              simp only [Bool.and_eq_true]
              exact ⟨hs.1.2, hs.2⟩
            simp [autoFill, hz] at hfill
            subst hfill
            simp [hs]
        | _ =>
          rw [hkeep (Or.inr rfl)]
          simp [stampsOnCreate]
      · have hs : ¬ stampsOnCreate env (p', v) = true := by
          simp [stampsOnCreate, hv]
        rw [hkeep (Or.inl (by simpa using hv))]
        simp [hs]
    have hmap : fs' = (indexFrom 0 fs).map (fun ipv =>
        if stampsOnCreate env ipv.2 = true then (ipv.2.1, Val.time (clock ipv.1))
        else ipv.2) :=
      forall₂_right_eq_map (hstep.imp (fun _ _ h => h.1))
    have haddr : addr = false → fs' = fs := by
      intro ha
      have : List.Forall₂ (fun ipv pv' => pv' = Prod.snd ipv) (indexFrom 0 fs) fs' := by
        refine hstep.imp ?_
        rintro ipv pv' ⟨h1, h2⟩
        by_cases hs : stampsOnCreate env ipv.2 = true
        · have := h2 hs
          rw [ha] at this
          cases this
        · rw [h1, if_neg hs]
      rw [forall₂_right_eq_map this, indexFrom_map_snd]
    refine ⟨?_, ?_, ?_⟩
    · rw [← hmap]
      exact dataIndirect_store hdata (fun ha => by rw [haddr ha])
    · intro ipv hipv hs
      exact List.mem_map.2 ⟨ipv, hipv, by simp [hs]⟩
    · intro i hnow
      simp [Val.isZero, hnow]

/-- C3 (witness): a record whose `CreatedAt` and `UpdatedAt` are zero, classified under
"create" with a clock that reads 1700 in the first iteration and one more in each later
one: `CreatedAt`, the third field, gets 1702 and `UpdatedAt`, the fourth, gets 1703. -/
theorem fields_create_stamps_zero_times_witness :
    (∃ ds m', fields sampleEnv (handleOn "User" userFields) "create"
        (fun i => 1700 + (i : Int)) = some (ds, m') ∧
      dataIndirect m'.data = some (true, .struct
        { name := "User", scanner := false, tableName := none }
        ((indexFrom 0 userFields).map (fun ipv =>
          if stampsOnCreate sampleEnv ipv.2 = true then
            (ipv.2.1, .time ((fun i => 1700 + (i : Int)) ipv.1))
          else ipv.2)))) ∧
    (indexFrom 0 userFields).map (fun ipv =>
        if stampsOnCreate sampleEnv ipv.2 = true then
          (ipv.2.1, Val.time ((fun i => 1700 + (i : Int)) ipv.1))
        else ipv.2)
      = userFieldsAt 1702 1703 :=
  ⟨⟨_, _, rfl,
    (fields_create_stamps_zero_times sampleEnv (handleOn "User" userFields) _
      (fun i => 1700 + (i : Int)) true
      { name := "User", scanner := false, tableName := none } userFields _ rfl rfl rfl).1⟩,
    rfl⟩

/-- C4 (counterexample): on one handle, a first `fields("update")` whose clock reads 100
stamps `UpdatedAt` with 100; a second `fields("update")` whose clock reads 200 returns
the same descriptors and leaves `UpdatedAt` at 100. -/
theorem fields_update_second_call_writes_nothing :
    ∃ ds m₁ m₂,
      fields sampleEnv (handleOn "User" (userFieldsAt 5 7)) "update" (fun _ => 100)
        = some (ds, m₁) ∧
      fields sampleEnv m₁ "update" (fun _ => 200) = some (ds, m₂) ∧
      dataIndirect m₂.data = some (true, .struct
        { name := "User", scanner := false, tableName := none } (userFieldsAt 5 100)) ∧
      fieldByName (userFieldsAt 5 100) "UpdatedAt" ≠ some (.time 200) :=
  ⟨_, _, _, rfl, rfl, rfl, by simp [fieldByName, userFieldsAt, plainField]⟩

/-- C4 (amended): on a handle without a cached sequence for "update", a completed call
`fields("update")` leaves the record with every described time field whose column is
"updated_at" set to the current time, that is to the reading `time.Now()` returns in the
iteration that visits the field (`clock i` for the field at position `i`), whatever it
held, and with every other field (the "created_at" field and every field that is not a
time included) exactly as it was. -/
theorem fields_update_stamps_on_cache_miss (env : Env) (m m' : Model) (clock : Nat → Int)
    (addr : Bool) (info : StructInfo) (fs : List (FieldDecl × Val)) (ds : List Field)
    (hcache : (cacheGet m.cache "update").length = 0)
    (hdata : dataIndirect m.data = some (addr, .struct info fs))
    (hret : fields env m "update" clock = some (ds, m')) :
    dataIndirect m'.data = some (addr, .struct info
      ((indexFrom 0 fs).map (fun ipv =>
        if stampsOnUpdate env ipv.2 = true then (ipv.2.1, .time (clock ipv.1))
        else ipv.2))) ∧
    (∀ ipv ∈ indexFrom 0 fs, stampsOnUpdate env ipv.2 = true →
      (ipv.2.1, Val.time (clock ipv.1)) ∈
        (indexFrom 0 fs).map (fun ipv =>
          if stampsOnUpdate env ipv.2 = true then (ipv.2.1, .time (clock ipv.1))
          else ipv.2)) := by
  rw [fields_miss_struct hcache hdata] at hret
  cases hw : walk env info.name (fs.map (fun pv => pv.1.name)) addr "update" clock 0 fs with
  | none => simp [hw] at hret
  | some r =>
    obtain ⟨ds0, fs'⟩ := r
    simp only [hw, Option.some.injEq, Prod.mk.injEq] at hret
    obtain ⟨rfl, rfl⟩ := hret
    have hne : ("update" : String) ≠ "create" := by decide
    have hstep : List.Forall₂ (fun ipv pv' =>
        pv' = (if stampsOnUpdate env ipv.2 = true then (ipv.2.1, Val.time (clock ipv.1))
          else ipv.2) ∧
        (stampsOnUpdate env ipv.2 = true → addr = true)) (indexFrom 0 fs) fs' := by
      refine (walk_fields hw).imp ?_
      rintro ⟨j, p, v⟩ ⟨p', v'⟩ ⟨hp, hkeep, htime⟩
      simp only at hp hkeep htime
      subst hp
      by_cases hv : visible p' = true
      · cases v with
        | time t =>
          obtain ⟨t', hfill, rfl⟩ := htime t hv rfl
          by_cases hz : ("updated_at" == env.toSnake p'.name) = true
          · have hs : stampsOnUpdate env (p', Val.time t) = true := by
              simp [stampsOnUpdate, hv, hz]
            cases addr <;> simp [autoFill, hz, hne] at hfill
            subst hfill
            simp [hs]
          · have hs : ¬ stampsOnUpdate env (p', Val.time t) = true := by
              intro hs
              apply hz
              simp only [stampsOnUpdate, Bool.and_eq_true] at hs
              exact hs.1.2
            simp [autoFill, hz, hne] at hfill
            subst hfill
            simp [hs]
        | _ =>
          rw [hkeep (Or.inr rfl)]
          simp [stampsOnUpdate]
      · have hs : ¬ stampsOnUpdate env (p', v) = true := by
          simp [stampsOnUpdate, hv]
        rw [hkeep (Or.inl (by simpa using hv))]
        simp [hs]
    have hmap : fs' = (indexFrom 0 fs).map (fun ipv =>
        if stampsOnUpdate env ipv.2 = true then (ipv.2.1, Val.time (clock ipv.1))
        else ipv.2) :=
      forall₂_right_eq_map (hstep.imp (fun _ _ h => h.1))
    have haddr : addr = false → fs' = fs := by
      intro ha
      have : List.Forall₂ (fun ipv pv' => pv' = Prod.snd ipv) (indexFrom 0 fs) fs' := by
        refine hstep.imp ?_
        rintro ipv pv' ⟨h1, h2⟩
        by_cases hs : stampsOnUpdate env ipv.2 = true
        · have := h2 hs
          rw [ha] at this
          cases this
        · rw [h1, if_neg hs]
      rw [forall₂_right_eq_map this, indexFrom_map_snd]
    refine ⟨?_, ?_⟩
    · rw [← hmap]
      exact dataIndirect_store hdata (fun ha => by rw [haddr ha])
    · intro ipv hipv hs
      exact List.mem_map.2 ⟨ipv, hipv, by simp [hs]⟩

/-- C4 (witness): a record whose `CreatedAt` is 5 and whose `UpdatedAt` is 7, classified
under "update" on a fresh handle when the clock reads 100. -/
theorem fields_update_stamps_on_cache_miss_witness :
    (∃ ds m', fields sampleEnv (handleOn "User" (userFieldsAt 5 7)) "update"
        (fun _ => 100) = some (ds, m') ∧
      dataIndirect m'.data = some (true, .struct
        { name := "User", scanner := false, tableName := none }
        ((indexFrom 0 (userFieldsAt 5 7)).map (fun ipv =>
          if stampsOnUpdate sampleEnv ipv.2 = true then
            (ipv.2.1, .time ((fun _ => 100) ipv.1))
          else ipv.2)))) ∧
    (indexFrom 0 (userFieldsAt 5 7)).map (fun ipv =>
        if stampsOnUpdate sampleEnv ipv.2 = true then
          (ipv.2.1, Val.time ((fun _ => 100) ipv.1))
        else ipv.2)
      = userFieldsAt 5 100 :=
  ⟨⟨_, _, rfl,
    (fields_update_stamps_on_cache_miss sampleEnv (handleOn "User" (userFieldsAt 5 7)) _
      (fun _ => 100) true { name := "User", scanner := false, tableName := none }
      (userFieldsAt 5 7) _ rfl rfl rfl).1⟩,
    rfl⟩

/-! ### The cache -/

theorem cacheGet_cachePut (cache : List (String × List Field)) (op : String)
    (ds : List Field) : cacheGet (cachePut cache op ds) op = ds := by
  simp [cacheGet, cachePut, List.lookup]

/-- A walk that returns no descriptor met no visible field: it wrote nothing, and it
gives the same result at every clock. -/
theorem walk_empty {env : Env} {tn : String} {sib : List String} {addr : Bool}
    {op : String} {clock : Nat → Int} :
    ∀ {fs fs' : List (FieldDecl × Val)} {i : Nat},
      walk env tn sib addr op clock i fs = some ([], fs') →
      fs' = fs ∧ ∀ clock' i', walk env tn sib addr op clock' i' fs = some ([], fs) := by
  intro fs
  induction fs with
  | nil =>
      intro fs' i h
      rw [walk_nil] at h
      cases h
      exact ⟨rfl, fun _ _ => walk_nil⟩
  | cons pv rest ih =>
      obtain ⟨p, value⟩ := pv
      intro fs' i h
      rw [walk_cons] at h
      by_cases hv : visible p = true
      · rw [if_pos hv] at h
        cases hb : blankOf env value with
        | none => simp [hb] at h
        | some blank =>
          simp only [hb] at h
          cases hd : describe env tn sib addr op (clock i) p value blank with
          | none => simp [hd] at h
          | some r =>
            obtain ⟨f, value'⟩ := r
            simp only [hd] at h
            cases hw : walk env tn sib addr op clock (i + 1) rest with
            | none => simp [hw] at h
            | some r2 =>
              obtain ⟨ds2, rest'⟩ := r2
              simp [hw] at h
      · rw [if_neg hv] at h
        cases hw : walk env tn sib addr op clock (i + 1) rest with
        | none => simp [hw] at h
        | some r2 =>
          obtain ⟨ds2, rest'⟩ := r2
          simp only [hw, Option.some.injEq, Prod.mk.injEq] at h
          obtain ⟨rfl, rfl⟩ := h
          obtain ⟨hrest, hall⟩ := ih hw
          subst hrest
          refine ⟨rfl, fun clock' i' => ?_⟩
          rw [walk_cons, if_neg hv, hall clock' (i' + 1)]

/-- C5: when a call `fields(op)` on a handle completes, a second call `fields(op)` on
the handle as the first call left it completes too, at whatever clock readings, returns
exactly the sequence of the first call, and leaves the record and the error sink as they
were; this covers the handle whose first classification is empty, which is classified
again with the same result. -/
theorem fields_second_call_same (env : Env) (m m₁ : Model) (op : String)
    (clock clock' : Nat → Int)
    (ds : List Field) (h : fields env m op clock = some (ds, m₁)) :
    ∃ m₂, fields env m₁ op clock' = some (ds, m₂) ∧ m₂.data = m₁.data ∧
      m₂.errs = m₁.errs := by
  by_cases hc : (cacheGet m.cache op).length > 0
  · have h1 : fields env m op clock = some (cacheGet m.cache op, m) := by
      unfold fields; rw [if_pos hc]
    rw [h1] at h
    simp only [Option.some.injEq, Prod.mk.injEq] at h
    obtain ⟨rfl, rfl⟩ := h
    exact ⟨m, by unfold fields; rw [if_pos hc], rfl, rfl⟩
  · have hc0 : (cacheGet m.cache op).length = 0 := by omega
    cases hd : dataIndirect m.data with
    | none =>
        have h1 : ∀ t, fields env m op t = some ([], m) := by
          intro t; unfold fields; rw [if_neg hc]; simp [hd]
        rw [h1] at h
        simp only [Option.some.injEq, Prod.mk.injEq] at h
        obtain ⟨rfl, rfl⟩ := h
        exact ⟨m, h1 clock', rfl, rfl⟩
    | some r =>
        obtain ⟨addr, v⟩ := r
        cases v with
        | struct info fs =>
            rw [fields_miss_struct hc0 hd] at h
            cases hw : walk env info.name (fs.map (fun pv => pv.1.name)) addr op clock 0 fs with
            | none => simp [hw] at h
            | some r2 =>
              obtain ⟨ds0, fs'⟩ := r2
              simp only [hw, Option.some.injEq, Prod.mk.injEq] at h
              obtain ⟨rfl, rfl⟩ := h
              cases hds : ds0 with
              | cons f rest =>
                  refine ⟨_, ?_, rfl, rfl⟩
                  unfold fields
                  simp only [cacheGet_cachePut]
                  rw [if_pos (by simp)]
              | nil =>
                  subst hds
                  obtain ⟨hfs, hall⟩ := walk_empty hw
                  subst hfs
                  have hd1 : dataIndirect (dataStore m.data (.struct info fs'))
                      = some (addr, .struct info fs') := by
                    rw [dataStore_self hd]; exact hd
                  have hc1 : (cacheGet (cachePut m.cache op []) op).length = 0 := by
                    rw [cacheGet_cachePut]; rfl
                  have h2 := @fields_miss_struct env { m with
                        data := dataStore m.data (.struct info fs')
                        cache := cachePut m.cache op [] } op clock' addr info fs' hc1 hd1
                  simp only [hall clock' 0] at h2
                  exact ⟨_, h2, by simp [dataStore_self hd], rfl⟩
        | time t =>
            have h1 : ∀ (m0 : Model) (t' : Nat → Int), (cacheGet m0.cache op).length = 0 →
                dataIndirect m0.data = some (addr, .time t) →
                fields env m0 op t' = some ([], { m0 with cache := cachePut m0.cache op [] }) := by
              intro m0 t' h0 h0d
              unfold fields
              rw [if_neg (by omega)]
              simp [h0d]
            rw [h1 m clock hc0 hd] at h
            simp only [Option.some.injEq, Prod.mk.injEq] at h
            obtain ⟨rfl, rfl⟩ := h
            refine ⟨_, h1 _ clock' ?_ hd, rfl, rfl⟩
            simp only [cacheGet_cachePut]
            rfl
        | _ =>
            exfalso
            unfold fields at h
            rw [if_neg hc] at h
            simp [hd] at h

/-- C5 (witness): two calls `fields("create")` on one handle, the first with a clock that
starts at 1700 and the second with a clock that starts at 1800, each one later in every
iteration. -/
theorem fields_second_call_same_witness :
    ∃ ds m₁, fields sampleEnv (handleOn "User" userFields) "create"
        (fun i => 1700 + (i : Int)) = some (ds, m₁) ∧
      dataIndirect m₁.data = some (true, .struct
        { name := "User", scanner := false, tableName := none } (userFieldsAt 1702 1703)) ∧
      ∃ m₂, fields sampleEnv m₁ "create" (fun i => 1800 + (i : Int)) = some (ds, m₂) ∧
        m₂.data = m₁.data ∧ m₂.errs = m₁.errs :=
  ⟨_, _, rfl, rfl,
    fields_second_call_same sampleEnv (handleOn "User" userFields) _ "create"
      (fun i => 1700 + (i : Int)) (fun i => 1800 + (i : Int)) _ rfl⟩

/-! ### Applying a column map -/

theorem updatedColumnsAndValues_struct {env : Env} {m : Model}
    {values : List (String × Option Val)} {now : Int} {addr : Bool} {info : StructInfo}
    {fs : List (FieldDecl × Val)}
    (hdata : dataIndirect m.data = some (addr, .struct info fs)) :
    updatedColumnsAndValues env m values now =
      match applyLoop env addr values (fs, false) with
      | none => none
      | some (fs', anyUpdated) =>
          some (none, anyUpdated, { m with data := dataStore m.data (.struct info
            (if (mapGet values "updated_at").isSome = true ∧ anyUpdated = true then
              setField fs' "UpdatedAt" (.time now)
             else fs')) }) := by
  unfold updatedColumnsAndValues
  cases hm : m.data with
  | none => rw [hm] at hdata; simp [dataIndirect] at hdata
  | some d =>
      rw [hm] at hdata
      simp only [hdata, Bool.and_eq_true, setFieldValue]

theorem fieldByName_setField_same {fs : List (FieldDecl × Val)} {name : String}
    {old v : Val} (h : fieldByName fs name = some old) :
    fieldByName (setField fs name v) name = some v := by
  induction fs with
  | nil => simp [fieldByName] at h
  | cons pv rest ih =>
      by_cases hn : (pv.1.name == name) = true
      · simp [setField, hn, fieldByName, List.find?]
      · have hn' : (pv.1.name == name) = false := by simpa using hn
        have hrest : fieldByName rest name = some old := by
          simpa [fieldByName, List.find?, hn'] using h
        have := ih hrest
        simpa [setField, hn', fieldByName, List.find?] using this

theorem fieldByName_setField_other {fs : List (FieldDecl × Val)} {name n : String}
    {v : Val} (h : n ≠ name) :
    fieldByName (setField fs name v) n = fieldByName fs n := by
  induction fs with
  | nil => rfl
  | cons pv rest ih =>
      by_cases hn : (pv.1.name == name) = true
      · have hne : (pv.1.name == n) = false := by
          have : pv.1.name = name := by simpa using hn
          simp [this, Ne.symm h]
        simp [setField, hn, fieldByName, List.find?, hne]
      · have hn' : (pv.1.name == name) = false := by simpa using hn
        by_cases hm : (pv.1.name == n) = true
        · simp [setField, hn', fieldByName, List.find?, hm]
        · have hm' : (pv.1.name == n) = false := by simpa using hm
          simpa [setField, hn', fieldByName, List.find?, hm'] using ih

theorem setField_self {fs : List (FieldDecl × Val)} {name : String} {v : Val}
    (h : fieldByName fs name = some v) : setField fs name v = fs := by
  induction fs with
  | nil => rfl
  | cons pv rest ih =>
      by_cases hn : (pv.1.name == name) = true
      · have : pv.2 = v := by simpa [fieldByName, List.find?, hn] using h
        simp [setField, hn, ← this]
      · have hn' : (pv.1.name == name) = false := by simpa using hn
        have hrest : fieldByName rest name = some v := by
          simpa [fieldByName, List.find?, hn'] using h
        simp [setField, hn', ih hrest]

theorem applyLoop_name {env : Env} {addr : Bool} {fs : List (FieldDecl × Val)} {a b : String}
    (hname : fieldByName fs "Name" = some (.str a))
    (hcamel : env.snakeToUpperCamel "name" = "Name") :
    applyLoop env addr [("name", some (.str b))] (fs, false) =
      if a = b then some (fs, false)
      else if addr = true then some (setField fs "Name" (.str b), true) else none := by
  have hexp : isExported "Name" = true := by decide
  by_cases hab : a = b
  · subst hab
    simp [applyLoop, applyEntry, hcamel, hname, hexp, ifaceNe, Val.typeOf, Val.comparable,
      Val.same]
  · have hbeq : (a == b) = false := by simpa using hab
    cases addr <;>
      simp [applyLoop, applyEntry, hcamel, hname, hexp, ifaceNe, Val.typeOf, Val.comparable,
        Val.same, Val.kind, hab, hbeq]

/-- C6: on a struct record whose string field `Name` holds `a`, with "name" converted to
the identifier `Name`, `updatedColumnsAndValues` applied to the one-entry map from "name"
to the string `b` completes when the record is passed by reference, and whenever it
completes it reports changed exactly when `a` and `b` differ and leaves the record with
`Name` holding `b`. -/
theorem updatedColumnsAndValues_name (env : Env) (m : Model) (a b : String) (now : Int)
    (addr : Bool) (info : StructInfo) (fs : List (FieldDecl × Val))
    (hdata : dataIndirect m.data = some (addr, .struct info fs))
    (hname : fieldByName fs "Name" = some (.str a))
    (hcamel : env.snakeToUpperCamel "name" = "Name") :
    (addr = true →
      (updatedColumnsAndValues env m [("name", some (.str b))] now).isSome = true) ∧
    ∀ res changed m',
      updatedColumnsAndValues env m [("name", some (.str b))] now = some (res, changed, m') →
      (changed = true ↔ a ≠ b) ∧
      ∃ fs', dataIndirect m'.data = some (addr, .struct info fs') ∧
        fieldByName fs' "Name" = some (.str b) := by
  have hstamp : mapGet [("name", some (Val.str b))] "updated_at" = none := by
    have : ("updated_at" == "name") = false := by decide
    simp [mapGet, List.lookup, this]
  rw [updatedColumnsAndValues_struct hdata, applyLoop_name hname hcamel, hstamp]
  refine ⟨?_, ?_⟩
  · intro ha
    subst ha
    by_cases hab : a = b <;> simp [hab]
  · intro res changed m' h
    by_cases hab : a = b
    · subst hab
      simp only [if_true, Option.isSome_none, Bool.false_and, Bool.false_eq_true, if_false,
        Option.some.injEq, Prod.mk.injEq] at h
      obtain ⟨-, rfl, rfl⟩ := h
      refine ⟨by simp, fs, ?_, hname⟩
      simp [dataStore_self hdata, hdata]
    · cases addr with
      | false => simp [hab] at h
      | true =>
        simp only [hab, if_false, if_true, Option.isSome_none, Bool.false_and,
          Bool.false_eq_true, Option.some.injEq, Prod.mk.injEq] at h
        obtain ⟨-, rfl, rfl⟩ := h
        refine ⟨by simp [hab], _, dataIndirect_store hdata (by simp), ?_⟩
        exact fieldByName_setField_same hname

/-- C6 (witness): the record whose `Name` is "Alice", given the map from "name" to
"Bob". -/
theorem updatedColumnsAndValues_name_witness :
    updatedColumnsAndValues sampleEnv (handleOn "User" userFields)
        [("name", some (.str "Bob"))] 50 =
      some (none, true, handleOn "User"
        [(plainField "Id", .int .int64 0), (plainField "Name", .str "Bob"),
         (plainField "CreatedAt", .time 0), (plainField "UpdatedAt", .time 0)]) ∧
    ((true = true ↔ "Alice" ≠ "Bob") ∧
      ∃ fs', dataIndirect (handleOn "User"
          [(plainField "Id", .int .int64 0), (plainField "Name", .str "Bob"),
           (plainField "CreatedAt", .time 0), (plainField "UpdatedAt", .time 0)]).data =
          some (true, .struct { name := "User", scanner := false, tableName := none } fs') ∧
        fieldByName fs' "Name" = some (.str "Bob")) :=
  ⟨rfl,
    (updatedColumnsAndValues_name sampleEnv (handleOn "User" userFields) "Alice" "Bob" 50 true
      { name := "User", scanner := false, tableName := none } userFields rfl rfl rfl).2
      _ _ _ rfl⟩

theorem fieldByName_mem {fs : List (FieldDecl × Val)} {name : String} {v : Val}
    (h : fieldByName fs name = some v) : ∃ pv ∈ fs, pv.1.name = name ∧ pv.2 = v := by
  unfold fieldByName at h
  split at h
  · rename_i pv hfind
    simp only [Option.some.injEq] at h
    exact ⟨pv, List.mem_of_find?_eq_some hfind,
      by simpa using List.find?_some hfind, h⟩
  · simp at h

theorem applyEntry_flag_true {env : Env} {addr : Bool} {cur cur' : List (FieldDecl × Val)}
    {key : String} {value : Option Val} {flag : Bool}
    (h : applyEntry env addr (cur, true) key value = some (cur', flag)) : flag = true := by
  unfold applyEntry at h
  simp only at h
  repeat' split at h
  all_goals first
    | (simp at h; done)
    | (simp only [Option.some.injEq, Prod.mk.injEq] at h; simp [← h.2])

theorem applyLoop_flag_true {env : Env} {addr : Bool} :
    ∀ {values : List (String × Option Val)} {cur fs' : List (FieldDecl × Val)} {flag : Bool},
      applyLoop env addr values (cur, true) = some (fs', flag) → flag = true := by
  intro values
  induction values with
  | nil =>
      intro cur fs' flag h
      simp only [applyLoop, Option.some.injEq, Prod.mk.injEq] at h
      exact h.2.symm
  | cons kv rest ih =>
      obtain ⟨key, value⟩ := kv
      intro cur fs' flag h
      simp only [applyLoop] at h
      cases he : applyEntry env addr (cur, true) key value with
      | none => simp [he] at h
      | some st =>
        obtain ⟨cur', flag'⟩ := st
        simp only [he] at h
        have := applyEntry_flag_true he
        subst this
        exact ih h

/-- One pass of the loop body while nothing has been reported changed: the flag is
raised exactly when the entry names a field and supplies a value that differs from it,
and while the flag is down the record is as it was. -/
theorem applyEntry_from_false {env : Env} {addr : Bool} {cur cur' : List (FieldDecl × Val)}
    {key : String} {value : Option Val} {flag : Bool}
    (hr : ∀ pv ∈ cur, inRange pv.2 = true)
    (h : applyEntry env addr (cur, false) key value = some (cur', flag)) :
    (flag = true ↔ ∃ old v, fieldByName cur (env.snakeToUpperCamel key) = some old ∧
        value = some v ∧ suppliedDiffers old v = true) ∧
    (flag = false → cur' = cur) := by
  unfold applyEntry at h
  simp only at h
  cases hf : fieldByName cur (env.snakeToUpperCamel key) with
  | none =>
      simp only [hf, Option.some.injEq, Prod.mk.injEq] at h
      obtain ⟨rfl, rfl⟩ := h
      simp
  | some old =>
      simp only [hf] at h
      by_cases hexp : isExported (env.snakeToUpperCamel key) = true
      · simp only [hexp, Bool.not_true, Bool.false_eq_true, if_false] at h
        cases value with
        | none => simp at h
        | some v =>
          simp only at h
          cases hne : ifaceNe old v with
          | none => simp [hne] at h
          | some ne =>
            simp only [hne] at h
            cases ne with
            | false =>
                simp only [Option.some.injEq, Prod.mk.injEq] at h
                obtain ⟨rfl, rfl⟩ := h
                refine ⟨?_, fun _ => rfl⟩
                simp only [Bool.false_eq_true, false_iff, not_exists, not_and]
                intro old' v' h1 h2
                cases h1
                cases h2
                unfold suppliedDiffers
                split
                · cases old with
                  | int k x =>
                    cases v with
                    | int k' y =>
                      unfold ifaceNe at hne
                      by_cases hty : (Val.int k x).typeOf ≠ (Val.int k' y).typeOf
                      · simp [hty] at hne
                      · simp only [hty, if_false, Val.comparable, Val.same, Bool.not_true,
                          Bool.false_eq_true, Option.some.injEq, Bool.not_eq_false'] at hne
                        have hxy : x = y := by simpa using hne
                        simp [hxy]
                    | _ => simp
                  | _ => simp
                · simp [hne]
            | true =>
                simp only at h
                by_cases hk : old.kind = .int .int ∨ old.kind = .int .int32 ∨
                    old.kind = .int .int64
                · simp only [hk, if_true] at h
                  cases old with
                  | int k x =>
                    cases v with
                    | int k' y =>
                      cases addr with
                      | false => simp at h
                      | true =>
                        simp only [if_true, Bool.false_or, Option.some.injEq,
                          Prod.mk.injEq] at h
                        obtain ⟨rfl, rfl⟩ := h
                        refine ⟨?_, ?_⟩
                        · constructor
                          · intro hxy
                            exact ⟨_, _, rfl, rfl, by simp [suppliedDiffers, hk, hxy]⟩
                          · rintro ⟨old', v', h1, h2, h3⟩
                            cases h1
                            cases h2
                            simpa [suppliedDiffers, hk] using h3
                        · intro hxy
                          have hxy' : x = y := by simpa using hxy
                          subst hxy'
                          obtain ⟨pv, hpv, -, hval⟩ := fieldByName_mem hf
                          have hin := hr pv hpv
                          rw [hval] at hin
                          have hw : wrapInt k x = x := by simpa [inRange] using hin
                          rw [hw]
                          exact setField_self hf
                    | _ => simp at h
                  | _ => simp [Val.kind] at hk
                · simp only [hk, if_false] at h
                  by_cases hset : (addr && v.typeOf == old.typeOf) = true
                  · simp only [hset, if_true, Option.some.injEq, Prod.mk.injEq] at h
                    obtain ⟨rfl, rfl⟩ := h
                    refine ⟨?_, fun hc => by simp at hc⟩
                    simp only [true_iff]
                    exact ⟨_, _, rfl, rfl, by simp [suppliedDiffers, hk, hne]⟩
                  · simp [hset] at h
      · simp [hexp] at h

/-- The loop started with the flag down: the flag comes out raised exactly when some
entry names a field of the record as it was before the loop and supplies a value that
differs from it. -/
theorem applyLoop_from_false {env : Env} {addr : Bool} :
    ∀ {values : List (String × Option Val)} {cur fs' : List (FieldDecl × Val)} {flag : Bool},
      (∀ pv ∈ cur, inRange pv.2 = true) →
      applyLoop env addr values (cur, false) = some (fs', flag) →
      (flag = true ↔ ∃ kv ∈ values, ∃ old v,
        fieldByName cur (env.snakeToUpperCamel kv.1) = some old ∧ kv.2 = some v ∧
        suppliedDiffers old v = true) := by
  intro values
  induction values with
  | nil =>
      intro cur fs' flag _ h
      simp only [applyLoop, Option.some.injEq, Prod.mk.injEq] at h
      simp [← h.2]
  | cons kv rest ih =>
      obtain ⟨key, value⟩ := kv
      intro cur fs' flag hr h
      simp only [applyLoop] at h
      cases he : applyEntry env addr (cur, false) key value with
      | none => simp [he] at h
      | some st =>
        obtain ⟨cur', flag'⟩ := st
        simp only [he] at h
        obtain ⟨hiff, hkeep⟩ := applyEntry_from_false hr he
        cases flag' with
        | true =>
            have := applyLoop_flag_true h
            subst this
            simp only [true_iff]
            exact ⟨(key, value), List.mem_cons_self _ _, hiff.1 rfl⟩
        | false =>
            have hcur := hkeep rfl
            subst hcur
            rw [ih hr h]
            constructor
            · rintro ⟨kv, hkv, hx⟩
              exact ⟨kv, List.mem_cons_of_mem _ hkv, hx⟩
            · rintro ⟨kv, hkv, hx⟩
              rcases List.mem_cons.1 hkv with rfl | hkv
              · have := hiff.2 hx
                simp at this
              · exact ⟨kv, hkv, hx⟩

/-- C7 (counterexample): the `int32` field `Age` holds 5 and the map supplies the
`int64` value 2^32 + 5 for "age". The call reports changed, and the record afterwards is
the record before: `Age` still holds 5. -/
theorem updatedColumnsAndValues_changed_but_same_value :
    updatedColumnsAndValues sampleEnv (handleOn "User" ageFields)
        [("age", some (.int .int64 4294967301))] 0 =
      some (none, true, handleOn "User" ageFields) ∧
    fieldByName ageFields "Age" = some (.int .int32 5) :=
  ⟨rfl, rfl⟩

/-- C7 (amended): on a struct record whose integers lie within their widths, a completed
`updatedColumnsAndValues` reports changed exactly when at least one entry of the map
names a field of the record and supplies a value that differs from the value the field
held before the call, where for a field of kind `int`, `int32` or `int64` the two are
compared as 64-bit integers, before the store cuts the supplied value to the field's
width, and otherwise as interface values. -/
theorem updatedColumnsAndValues_changed_iff (env : Env) (m m' : Model)
    (values : List (String × Option Val)) (now : Int) (addr : Bool) (info : StructInfo)
    (fs : List (FieldDecl × Val)) (res : Option (List (String × Option Val)))
    (changed : Bool)
    (hdata : dataIndirect m.data = some (addr, .struct info fs))
    (hrange : ∀ pv ∈ fs, inRange pv.2 = true)
    (hret : updatedColumnsAndValues env m values now = some (res, changed, m')) :
    changed = true ↔ ∃ kv ∈ values, ∃ old v,
      fieldByName fs (env.snakeToUpperCamel kv.1) = some old ∧ kv.2 = some v ∧
      suppliedDiffers old v = true := by
  rw [updatedColumnsAndValues_struct hdata] at hret
  cases hl : applyLoop env addr values (fs, false) with
  | none => simp [hl] at hret
  | some st =>
    obtain ⟨fs', flag⟩ := st
    simp only [hl, Option.some.injEq, Prod.mk.injEq] at hret
    obtain ⟨-, rfl, -⟩ := hret
    exact applyLoop_from_false hrange hl

/-- C7 (witness): the `int32` field `Age` holds 5 and the map supplies the `int64` value 6
for "age". -/
theorem updatedColumnsAndValues_changed_iff_witness :
    updatedColumnsAndValues sampleEnv (handleOn "User" ageFields)
        [("age", some (.int .int64 6))] 0 =
      some (none, true, handleOn "User"
        [(plainField "Name", .str "Alice"), (plainField "Age", .int .int32 6)]) ∧
    (true = true ↔ ∃ kv ∈ [("age", some (Val.int .int64 6))], ∃ old v,
      fieldByName ageFields (sampleEnv.snakeToUpperCamel kv.1) = some old ∧
      kv.2 = some v ∧ suppliedDiffers old v = true) :=
  ⟨rfl,
    updatedColumnsAndValues_changed_iff sampleEnv (handleOn "User" ageFields) _
      [("age", some (.int .int64 6))] 0 true
      { name := "User", scanner := false, tableName := none } ageFields _ true rfl
      (by
        intro pv hpv
        simp only [ageFields, List.mem_cons, List.mem_singleton, List.not_mem_nil,
          or_false] at hpv
        rcases hpv with rfl | rfl <;> decide)
      rfl⟩

/-! ### What a column map leaves alone -/

theorem keptOutside_refl (names : List String) :
    ∀ fs : List (FieldDecl × Val), List.Forall₂ (keptOutside names) fs fs := by
  intro fs
  induction fs with
  | nil => exact List.Forall₂.nil
  | cons pv rest ih => exact List.Forall₂.cons ⟨rfl, fun _ => rfl⟩ ih

theorem keptOutside_mono {names names' : List String} (hsub : ∀ n ∈ names, n ∈ names')
    {fs fs' : List (FieldDecl × Val)} (h : List.Forall₂ (keptOutside names) fs fs') :
    List.Forall₂ (keptOutside names') fs fs' :=
  h.imp (fun _ _ hk => ⟨hk.1, fun hn => hk.2 (fun hin => hn (hsub _ hin))⟩)

theorem keptOutside_trans {names : List String} :
    ∀ {a b c : List (FieldDecl × Val)}, List.Forall₂ (keptOutside names) a b →
      List.Forall₂ (keptOutside names) b c → List.Forall₂ (keptOutside names) a c := by
  intro a b c hab
  induction hab generalizing c with
  | nil => intro hbc; cases hbc; exact List.Forall₂.nil
  | cons h _ ih =>
      intro hbc
      cases hbc with
      | cons h' hrest =>
        refine List.Forall₂.cons ⟨h'.1.trans h.1, fun hn => ?_⟩ (ih hrest)
        rw [h'.2 (by rw [h.1]; exact hn), h.2 hn]

theorem setField_keptOutside (name : String) (v : Val) :
    ∀ fs : List (FieldDecl × Val),
      List.Forall₂ (keptOutside [name]) fs (setField fs name v) := by
  intro fs
  induction fs with
  | nil => exact List.Forall₂.nil
  | cons pv rest ih =>
      by_cases hn : (pv.1.name == name) = true
      · have hname : pv.1.name = name := by simpa using hn
        simp only [setField, hn, if_true]
        exact List.Forall₂.cons ⟨rfl, fun hne => absurd (by simp [hname]) hne⟩
          (keptOutside_refl _ rest)
      · simp only [setField, hn, if_false]
        exact List.Forall₂.cons ⟨rfl, fun _ => rfl⟩ ih

theorem applyEntry_keptOutside {env : Env} {addr : Bool} {st st' : List (FieldDecl × Val) × Bool}
    {key : String} {value : Option Val}
    (h : applyEntry env addr st key value = some st') :
    List.Forall₂ (keptOutside [env.snakeToUpperCamel key]) st.1 st'.1 := by
  unfold applyEntry at h
  simp only at h
  repeat' split at h
  all_goals first
    | (simp at h; done)
    | (simp only [Option.some.injEq] at h; subst h; exact keptOutside_refl _ _)
    | (simp only [Option.some.injEq] at h; subst h; exact setField_keptOutside _ _ _)

theorem applyLoop_keptOutside {env : Env} {addr : Bool} :
    ∀ {values : List (String × Option Val)} {st st' : List (FieldDecl × Val) × Bool},
      applyLoop env addr values st = some st' →
      List.Forall₂ (keptOutside (values.map (fun kv => env.snakeToUpperCamel kv.1)))
        st.1 st'.1 := by
  intro values
  induction values with
  | nil =>
      intro st st' h
      simp only [applyLoop, Option.some.injEq] at h
      subst h
      exact keptOutside_refl _ _
  | cons kv rest ih =>
      obtain ⟨key, value⟩ := kv
      intro st st' h
      simp only [applyLoop] at h
      cases he : applyEntry env addr st key value with
      | none => simp [he] at h
      | some st₁ =>
        simp only [he] at h
        refine keptOutside_trans
          (keptOutside_mono (fun n hn => ?_) (applyEntry_keptOutside he))
          (keptOutside_mono (fun n hn => ?_) (ih h))
        · simp only [List.mem_singleton] at hn
          simp [hn]
        · simp only [List.map_cons, List.mem_cons]
          exact Or.inr hn

theorem fieldByName_none_of_hasField {fs : List (FieldDecl × Val)} {name : String}
    (h : hasField fs name = false) : fieldByName fs name = none := by
  induction fs with
  | nil => rfl
  | cons pv rest ih =>
      simp only [hasField, List.map_cons, List.contains_cons, Bool.or_eq_false_iff] at h
      have h1 : (pv.1.name == name) = false := by
        rw [← h.1]; simp [BEq.comm]
      have h2 : fieldByName rest name = none := ih (by simpa [hasField] using h.2)
      simpa [fieldByName, List.find?, h1] using h2

theorem applyLoop_no_field {env : Env} {addr : Bool} {fs : List (FieldDecl × Val)}
    {flag : Bool} :
    ∀ {values : List (String × Option Val)},
      (∀ kv ∈ values, hasField fs (env.snakeToUpperCamel kv.1) = false) →
      applyLoop env addr values (fs, flag) = some (fs, flag) := by
  intro values
  induction values with
  | nil => intro _; rfl
  | cons kv rest ih =>
      obtain ⟨key, value⟩ := kv
      intro h
      have hnone := fieldByName_none_of_hasField (h (key, value) (List.mem_cons_self _ _))
      simp only at hnone
      have he : applyEntry env addr (fs, flag) key value = some (fs, flag) := by
        unfold applyEntry
        simp [hnone]
      simp only [applyLoop, he]
      exact ih (fun kv hkv => h kv (List.mem_cons_of_mem _ hkv))

theorem applyEntry_not_addressable {env : Env} {st st' : List (FieldDecl × Val) × Bool}
    {key : String} {value : Option Val}
    (h : applyEntry env false st key value = some st') : st' = st := by
  unfold applyEntry at h
  simp only [Bool.false_eq_true, if_false, Bool.false_and] at h
  repeat' split at h
  all_goals first
    | (simp at h; done)
    | (simp only [Option.some.injEq] at h; exact h.symm)

theorem applyLoop_not_addressable {env : Env} :
    ∀ {values : List (String × Option Val)} {st st' : List (FieldDecl × Val) × Bool},
      applyLoop env false values st = some st' → st' = st := by
  intro values
  induction values with
  | nil =>
      intro st st' h
      simp only [applyLoop, Option.some.injEq] at h
      exact h.symm
  | cons kv rest ih =>
      obtain ⟨key, value⟩ := kv
      intro st st' h
      simp only [applyLoop] at h
      cases he : applyEntry env false st key value with
      | none => simp [he] at h
      | some st₁ =>
        simp only [he] at h
        rw [ih h, applyEntry_not_addressable he]

theorem hasField_of_keptOutside {names : List String} {a b : List (FieldDecl × Val)}
    (h : List.Forall₂ (keptOutside names) a b) (n : String) : hasField b n = hasField a n := by
  induction h with
  | nil => rfl
  | cons hk _ ih =>
      simp only [hasField, List.map_cons, List.contains_cons] at ih ⊢
      rw [ih, hk.1]

theorem fieldByName_of_hasField {fs : List (FieldDecl × Val)} {name : String}
    (h : hasField fs name = true) : ∃ old, fieldByName fs name = some old := by
  induction fs with
  | nil => simp [hasField] at h
  | cons pv rest ih =>
      by_cases hn : (pv.1.name == name) = true
      · exact ⟨pv.2, by simp [fieldByName, List.find?, hn]⟩
      · have hn' : (pv.1.name == name) = false := by simpa using hn
        have hrest : hasField rest name = true := by
          simp only [hasField, List.map_cons, List.contains_cons, Bool.or_eq_true] at h
          rcases h with h | h
          · rw [BEq.comm] at h
            rw [h] at hn'
            cases hn'
          · simpa [hasField] using h
        obtain ⟨old, hold⟩ := ih hrest
        exact ⟨old, by simpa [fieldByName, List.find?, hn'] using hold⟩

/-- C8 (counterexample): the map has the single entry "updated_at" with the instant 20,
on a record whose `UpdatedAt` holds 10, when the clock reads 99. No field other than
`UpdatedAt` is changed, and yet `UpdatedAt` is stamped: it ends as 99. -/
theorem updatedColumnsAndValues_stamps_on_own_change :
    updatedColumnsAndValues sampleEnv (handleOn "User" (userFieldsAt 5 10))
        [("updated_at", some (.time 20))] 99 =
      some (none, true, handleOn "User" (userFieldsAt 5 99)) :=
  rfl

/-- C8 (amended): on a struct record with an `UpdatedAt` field, a completed
`updatedColumnsAndValues` stamps `UpdatedAt` with the clock reading exactly when the map
has a non-nil value for "updated_at" and the call reports changed, a change made by the
"updated_at" entry itself included: the record afterwards is the record the loop over
the entries produced, with `UpdatedAt` overwritten by `now` in that case and untouched
otherwise; when it stamps, `UpdatedAt` ends as `now`, not as the value the map supplied,
in whatever order the entries were visited. -/
theorem updatedColumnsAndValues_stamp (env : Env) (m m' : Model)
    (values : List (String × Option Val)) (now : Int) (addr : Bool) (info : StructInfo)
    (fs : List (FieldDecl × Val)) (res : Option (List (String × Option Val)))
    (changed : Bool)
    (hdata : dataIndirect m.data = some (addr, .struct info fs))
    (hupd : hasField fs "UpdatedAt" = true)
    (hret : updatedColumnsAndValues env m values now = some (res, changed, m')) :
    ∃ fsLoop fs', applyLoop env addr values (fs, false) = some (fsLoop, changed) ∧
      dataIndirect m'.data = some (addr, .struct info fs') ∧
      fs' = (if (mapGet values "updated_at").isSome = true ∧ changed = true then
              setField fsLoop "UpdatedAt" (.time now) else fsLoop) ∧
      ((mapGet values "updated_at").isSome = true → changed = true →
        fieldByName fs' "UpdatedAt" = some (.time now)) := by
  rw [updatedColumnsAndValues_struct hdata] at hret
  cases hl : applyLoop env addr values (fs, false) with
  | none => simp [hl] at hret
  | some st =>
    obtain ⟨fsLoop, flag⟩ := st
    simp only [hl, Option.some.injEq, Prod.mk.injEq] at hret
    obtain ⟨-, rfl, rfl⟩ := hret
    refine ⟨fsLoop, _, rfl, ?_, rfl, ?_⟩
    · apply dataIndirect_store hdata
      intro ha
      subst ha
      have := applyLoop_not_addressable hl
      simp only [Prod.mk.injEq] at this
      obtain ⟨rfl, rfl⟩ := this
      simp
    · intro h1 h2
      have hkept := applyLoop_keptOutside hl
      have hhas : hasField fsLoop "UpdatedAt" = true := by
        rw [hasField_of_keptOutside hkept]; exact hupd
      obtain ⟨old, hold⟩ := fieldByName_of_hasField hhas
      simp only [h1, h2, and_self, if_true]
      exact fieldByName_setField_same hold

/-- C8 (witness): the map supplies a new name and the instant 20 for "updated_at", on a
record whose `UpdatedAt` holds 10, when the clock reads 99. -/
theorem updatedColumnsAndValues_stamp_witness :
    updatedColumnsAndValues sampleEnv (handleOn "User" (userFieldsAt 5 10))
        [("name", some (.str "Bob")), ("updated_at", some (.time 20))] 99 =
      some (none, true, handleOn "User"
        [(plainField "Id", .int .int64 0), (plainField "Name", .str "Bob"),
         (plainField "CreatedAt", .time 5), (plainField "UpdatedAt", .time 99)]) ∧
    ∃ fsLoop fs', applyLoop sampleEnv true
        [("name", some (.str "Bob")), ("updated_at", some (.time 20))]
        (userFieldsAt 5 10, false) = some (fsLoop, true) ∧
      dataIndirect (handleOn "User"
        [(plainField "Id", .int .int64 0), (plainField "Name", .str "Bob"),
         (plainField "CreatedAt", .time 5), (plainField "UpdatedAt", .time 99)]).data =
        some (true, .struct { name := "User", scanner := false, tableName := none } fs') ∧
      fs' = (if (mapGet [("name", some (.str "Bob")), ("updated_at", some (.time 20))]
                "updated_at").isSome = true ∧ true = true then
              setField fsLoop "UpdatedAt" (.time 99) else fsLoop) ∧
      ((mapGet [("name", some (.str "Bob")), ("updated_at", some (.time 20))]
          "updated_at").isSome = true → true = true →
        fieldByName fs' "UpdatedAt" = some (.time 99)) :=
  ⟨rfl,
    updatedColumnsAndValues_stamp sampleEnv (handleOn "User" (userFieldsAt 5 10)) _
      [("name", some (.str "Bob")), ("updated_at", some (.time 20))] 99 true
      { name := "User", scanner := false, tableName := none } (userFieldsAt 5 10) _ true
      rfl rfl rfl⟩

/-- C9: on a struct record, a completed `updatedColumnsAndValues` reports no error and
leaves every field whose name is not the camel-case form of a key of the map as it was,
`UpdatedAt` excepted when the map has a non-nil "updated_at" and the call reports
changed; and when no key of the map names a field of the record the call completes,
reports not changed, and leaves the handle, record and error sink included, as it
was. -/
theorem updatedColumnsAndValues_leaves_unnamed_fields (env : Env) (m : Model)
    (values : List (String × Option Val)) (now : Int) (addr : Bool) (info : StructInfo)
    (fs : List (FieldDecl × Val))
    (hdata : dataIndirect m.data = some (addr, .struct info fs)) :
    (∀ res changed m',
      updatedColumnsAndValues env m values now = some (res, changed, m') →
      m'.errs = m.errs ∧
      ∃ fs', dataIndirect m'.data = some (addr, .struct info fs') ∧
        List.Forall₂ (keptOutside (values.map (fun kv => env.snakeToUpperCamel kv.1) ++
          (if (mapGet values "updated_at").isSome = true ∧ changed = true then ["UpdatedAt"]
           else []))) fs fs') ∧
    ((∀ kv ∈ values, hasField fs (env.snakeToUpperCamel kv.1) = false) →
      updatedColumnsAndValues env m values now = some (none, false, m)) := by
  rw [updatedColumnsAndValues_struct hdata]
  refine ⟨?_, ?_⟩
  · intro res changed m' hret
    cases hl : applyLoop env addr values (fs, false) with
    | none => simp [hl] at hret
    | some st =>
      obtain ⟨fsLoop, flag⟩ := st
      simp only [hl, Option.some.injEq, Prod.mk.injEq] at hret
      obtain ⟨-, rfl, rfl⟩ := hret
      refine ⟨rfl, (if (mapGet values "updated_at").isSome = true ∧ flag = true then
              setField fsLoop "UpdatedAt" (.time now) else fsLoop), ?_, ?_⟩
      · apply dataIndirect_store hdata
        intro ha
        subst ha
        have := applyLoop_not_addressable hl
        simp only [Prod.mk.injEq] at this
        obtain ⟨rfl, rfl⟩ := this
        simp
      · have hkept := applyLoop_keptOutside hl
        simp only at hkept
        by_cases hs : (mapGet values "updated_at").isSome = true ∧ flag = true
        · simp only [hs, and_self, if_true]
          refine keptOutside_trans (keptOutside_mono (fun n hn => ?_) hkept)
            (keptOutside_mono (fun n hn => ?_) (setField_keptOutside _ _ _))
          · exact List.mem_append_left _ hn
          · exact List.mem_append_right _ hn
        · simp only [hs, if_false, List.append_nil]
          exact hkept
  · intro hno
    rw [applyLoop_no_field hno]
    simp [dataStore_self hdata]

/-- C9 (witness): the map names a column "nickname" the record has no field for. -/
theorem updatedColumnsAndValues_leaves_unnamed_fields_witness :
    (∀ kv ∈ [("nickname", some (Val.str "Al"))],
      hasField userFields (sampleEnv.snakeToUpperCamel kv.1) = false) ∧
    updatedColumnsAndValues sampleEnv (handleOn "User" userFields)
      [("nickname", some (.str "Al"))] 50 = some (none, false, handleOn "User" userFields) :=
  ⟨by decide,
    (updatedColumnsAndValues_leaves_unnamed_fields sampleEnv (handleOn "User" userFields)
      [("nickname", some (.str "Al"))] 50 true
      { name := "User", scanner := false, tableName := none } userFields rfl).2 (by decide)⟩

/-! ### A handle without a record -/

/-- C10 (counterexample): `fields("create")` on a fresh handle whose record is nil
returns the empty sequence and leaves the error sink empty: no error is reported. -/
theorem fields_nil_reports_nothing :
    ∃ m', fields sampleEnv nilHandle "create" (fun _ => 0) = some ([], m') ∧ m'.errs = [] :=
  ⟨_, rfl, rfl⟩

/-- C10 (amended): for every operation name, `fields` on a handle whose record is nil, or
a nil pointer, and which has no cached sequence for the operation, does not panic,
returns the empty sequence and leaves the handle as it is, the error sink included:
nothing is reported. The error "Model haven't been set" is what `tableName` reports on a
nil record, returning the empty name. -/
theorem fields_nil_record (env : Env) (m : Model) (op : String) (clock : Nat → Int)
    (hnil : m.data = none ∨ ∃ e, m.data = some (.nilptr e))
    (hcache : (cacheGet m.cache op).length = 0) :
    fields env m op clock = some ([], m) ∧
    (m.data = none → ∀ order, tableName env order m =
      some ("", { m with errs := m.errs ++ ["Model haven't been set"] })) := by
  have hind : dataIndirect m.data = none := by
    rcases hnil with h | ⟨e, h⟩ <;> rw [h] <;> rfl
  refine ⟨?_, ?_⟩
  · unfold fields
    rw [if_neg (by omega)]
    simp [hind]
  · intro h order
    unfold tableName
    simp [h]

/-- C10 (witness): a fresh handle whose record is the nil interface. -/
theorem fields_nil_record_witness :
    (nilHandle.data = none ∨ ∃ e, nilHandle.data = some (.nilptr e)) ∧
    fields sampleEnv nilHandle "update" (fun _ => 7) = some ([], nilHandle) ∧
    (nilHandle.data = none → ∀ order, tableName sampleEnv order nilHandle =
      some ("", { nilHandle with errs := nilHandle.errs ++ ["Model haven't been set"] })) :=
  ⟨Or.inl rfl,
    fields_nil_record sampleEnv nilHandle "update" (fun _ => 7) (Or.inl rfl) rfl⟩

/-! ### The primary key -/

theorem primaryKeyValue_struct {m : Model} {addr : Bool} {info : StructInfo}
    {fs : List (FieldDecl × Val)}
    (hdata : dataIndirect m.data = some (addr, .struct info fs)) :
    primaryKeyValue m =
      match fieldByName fs primaryKey with
      | some (.int .int v) => some v
      | some (.int .int64 v) => some v
      | some (.int .int32 v) => some v
      | _ => some 0 := by
  unfold primaryKeyValue
  cases hm : m.data with
  | none => rw [hm] at hdata; simp [dataIndirect] at hdata
  | some d =>
      rw [hm] at hdata
      simp only [hdata]

/-- C11 (counterexample): a record whose `Id` is declared `int8` and holds 5 has
`primaryKeyValue` 0, so `primaryKeyZero` answers true although 5 is positive. -/
theorem primaryKeyZero_true_on_int8_five :
    fieldByName [(plainField "Id", Val.int .int8 5), (plainField "Name", Val.str "go")] "Id"
      = some (.int .int8 5) ∧
    primaryKeyValue int8IdRecord = some 0 ∧
    primaryKeyZero int8IdRecord = some true :=
  ⟨rfl, rfl, rfl⟩

/-- C11 (amended): on a struct record, held directly or by reference, whose field `Id`
holds the integer `v`: when `Id` is declared `int`, `int32` or `int64`, `primaryKeyZero`
returns true exactly when `v ≤ 0` (true for 0, false for 5); when `Id` is declared with
any other type, `primaryKeyZero` returns true whatever the value. -/
theorem primaryKeyZero_iff (m : Model) (addr : Bool) (info : StructInfo)
    (fs : List (FieldDecl × Val)) (x : Val)
    (hdata : dataIndirect m.data = some (addr, .struct info fs))
    (hid : fieldByName fs "Id" = some x) :
    (∀ k v, x = .int k v → (k = .int ∨ k = .int32 ∨ k = .int64) →
      primaryKeyZero m = some (decide (v ≤ 0)) ∧
      (v = 0 → primaryKeyZero m = some true) ∧ (v = 5 → primaryKeyZero m = some false)) ∧
    (x.kind ≠ .int .int → x.kind ≠ .int .int32 → x.kind ≠ .int .int64 →
      primaryKeyZero m = some true) := by
  have hv := primaryKeyValue_struct hdata
  have hid' : fieldByName fs primaryKey = some x := hid
  rw [hid'] at hv
  refine ⟨?_, ?_⟩
  · intro k v hx hk
    subst hx
    have hval : primaryKeyValue m = some v := by
      rcases hk with rfl | rfl | rfl <;> simpa using hv
    have hz : primaryKeyZero m = some (decide (v ≤ 0)) := by
      simp [primaryKeyZero, hval]
    refine ⟨hz, ?_, ?_⟩
    · intro h0; rw [hz, h0]; rfl
    · intro h5; rw [hz, h5]; rfl
  · intro h1 h2 h3
    have hval : primaryKeyValue m = some 0 := by
      cases x with
      | int k v => cases k <;> simp [Val.kind] at h1 h2 h3 <;> simpa using hv
      | _ => simpa using hv
    simp [primaryKeyZero, hval]

/-- C11 (witness): a record held by reference whose `Id` is an `int64` holding 0. -/
theorem primaryKeyZero_iff_witness :
    fieldByName userFields "Id" = some (.int .int64 0) ∧
    primaryKeyZero (handleOn "User" userFields) = some (decide ((0 : Int) ≤ 0)) ∧
    primaryKeyZero (handleOn "User" userFields) = some true :=
  ⟨rfl,
    (((primaryKeyZero_iff (handleOn "User" userFields) true
      { name := "User", scanner := false, tableName := none } userFields (.int .int64 0)
      rfl rfl).1 .int64 0 rfl (Or.inr (Or.inr rfl))).1),
    rfl⟩

/-! ### One descriptor per described field -/

/-- On a cache miss over a struct record, `fields` is the walk over the record's
fields. -/
theorem fields_walk {env : Env} {m m' : Model} {op : String} {clock : Nat → Int}
    {addr : Bool}
    {info : StructInfo} {fs : List (FieldDecl × Val)} {ds : List Field}
    (hcache : (cacheGet m.cache op).length = 0)
    (hdata : dataIndirect m.data = some (addr, .struct info fs))
    (hret : fields env m op clock = some (ds, m')) :
    ∃ fs', walk env info.name (fs.map (fun pv => pv.1.name)) addr op clock 0 fs
        = some (ds, fs') ∧
      m' = { m with data := dataStore m.data (.struct info fs')
                    cache := cachePut m.cache op ds } := by
  rw [fields_miss_struct hcache hdata] at hret
  cases hw : walk env info.name (fs.map (fun pv => pv.1.name)) addr op clock 0 fs with
  | none => simp [hw] at hret
  | some r =>
    obtain ⟨ds0, fs'⟩ := r
    simp only [hw, Option.some.injEq, Prod.mk.injEq] at hret
    obtain ⟨rfl, rfl⟩ := hret
    exact ⟨fs', rfl, rfl⟩

theorem forall₂_map_eq {α β γ : Type} {g : β → γ} {h : α → γ} :
    ∀ {l : List α} {l' : List β}, List.Forall₂ (fun a b => g b = h a) l l' →
      l'.map g = l.map h := by
  intro l l' hF
  induction hF with
  | nil => rfl
  | cons hab _ ih => rw [List.map_cons, List.map_cons, hab, ih]

/-- C14: on a struct record classified afresh (no cached sequence for the operation), a
completed `fields` returns one descriptor for each exported, non-embedded field of the
record and none for the others, in declaration order; each descriptor has the declared
identifier as `Name`, `toSnake` of it as `DbName`, and `IsPrimaryKey` true exactly when
`DbName` is `toSnake` of "Id". -/
theorem fields_one_descriptor_per_field (env : Env) (m m' : Model) (op : String)
    (clock : Nat → Int)
    (addr : Bool) (info : StructInfo) (fs : List (FieldDecl × Val)) (ds : List Field)
    (hcache : (cacheGet m.cache op).length = 0)
    (hdata : dataIndirect m.data = some (addr, .struct info fs))
    (hret : fields env m op clock = some (ds, m')) :
    List.Forall₂ (fun pv f => f.Name = pv.1.name ∧ f.DbName = env.toSnake f.Name ∧
        (f.IsPrimaryKey = true ↔ f.DbName = env.toSnake "Id"))
      (fs.filter (fun pv => !pv.1.anonymous && isExported pv.1.name)) ds ∧
    ds.map (fun f => f.Name) =
      (fs.filter (fun pv => !pv.1.anonymous && isExported pv.1.name)).map
        (fun pv => pv.1.name) := by
  obtain ⟨fs', hw, -⟩ := fields_walk hcache hdata hret
  have hF : List.Forall₂ (fun pv f => f.Name = pv.1.name ∧ f.DbName = env.toSnake f.Name ∧
        (f.IsPrimaryKey = true ↔ f.DbName = env.toSnake "Id"))
      (fs.filter (fun pv => visible pv.1)) ds := by
    refine (walk_descriptors hw).imp ?_
    rintro pv f ⟨now, blank, v', -, hd⟩
    obtain ⟨hname, hdb, -, -, hpk⟩ := describe_spec hd
    refine ⟨hname, by rw [hdb, hname], ?_⟩
    rw [hpk, hdb, beq_iff_eq]
    exact eq_comm
  exact ⟨hF, forall₂_map_eq (hF.imp (fun _ _ h => h.1))⟩

/-- C14 (witness): a record with an unexported field and an embedded field next to `Id`
and `Name`. -/
theorem fields_one_descriptor_per_field_witness :
    ∃ ds m', fields sampleEnv mixedRecord "other" (fun _ => 0) = some (ds, m') ∧
      ds.map (fun f => (f.Name, f.DbName, f.IsPrimaryKey)) =
        [("Id", "id", true), ("FirstName", "first_name", false)] ∧
      ds.map (fun f => f.Name) =
        (mixedFields.filter (fun pv => !pv.1.anonymous && isExported pv.1.name)).map
          (fun pv => pv.1.name) :=
  ⟨_, _, rfl, rfl,
    (fields_one_descriptor_per_field sampleEnv mixedRecord _ "other" (fun _ => 0) true
      { name := "Account", scanner := false, tableName := none } mixedFields _
      rfl rfl rfl).2⟩

/-! ### The blank flag of a timestamp -/

theorem autoFill_result {addr : Bool} {op : String} {ac au : Bool} {now t t' : Int}
    (h : autoFill addr op ac au now t = some t') :
    t' = if (op = "create" ∧ ((ac || au) && t == 0) = true) ∨ (op = "update" ∧ au = true)
      then now else t := by
  have hne : ("update" : String) ≠ "create" := by decide
  unfold autoFill at h
  by_cases hc : op = "create"
  · subst hc
    rw [if_pos rfl] at h
    by_cases hz : ((ac || au) && t == 0) = true
    · rw [if_pos (Or.inl ⟨rfl, hz⟩)]
      rw [if_pos hz] at h
      cases addr
      · simp at h
      · simpa using h.symm
    · have hcond : ¬ ((("create" : String) = "create" ∧ ((ac || au) && t == 0) = true) ∨
          (("create" : String) = "update" ∧ au = true)) := by
        rintro (⟨-, h1⟩ | ⟨h1, -⟩)
        · exact hz h1
        · exact hne h1.symm
      rw [if_neg hcond]
      rw [if_neg hz] at h
      simpa using h.symm
  · rw [if_neg hc] at h
    by_cases hu : op = "update"
    · subst hu
      rw [if_pos rfl] at h
      by_cases ha : au = true
      · rw [if_pos (Or.inr ⟨rfl, ha⟩)]
        rw [if_pos ha] at h
        cases addr
        · simp at h
        · simpa using h.symm
      · have hcond : ¬ ((("update" : String) = "create" ∧ ((ac || au) && t == 0) = true) ∨
            (("update" : String) = "update" ∧ au = true)) := by
          rintro (⟨h1, -⟩ | ⟨-, h1⟩)
          · exact hne h1
          · exact ha h1
        rw [if_neg hcond]
        rw [if_neg ha] at h
        simpa using h.symm
    · rw [if_neg hu] at h
      have hcond : ¬ ((op = "create" ∧ ((ac || au) && t == 0) = true) ∨
          (op = "update" ∧ au = true)) := by
        rintro (⟨h1, -⟩ | ⟨h1, -⟩)
        · exact hc h1
        · exact hu h1
      rw [if_neg hcond]
      simpa using h.symm

theorem forall₂_with_left {α β : Type} {R : α → β → Prop} {P : α → Prop} :
    ∀ {l : List α} {l' : List β}, List.Forall₂ R l l' → (∀ a ∈ l, P a) →
      List.Forall₂ (fun a b => P a ∧ R a b) l l' := by
  intro l l' hF
  induction hF with
  | nil => intro _; exact List.Forall₂.nil
  | cons hab _ ih =>
      intro hP
      exact List.Forall₂.cons ⟨hP _ (List.mem_cons_self _ _), hab⟩
        (ih (fun a ha => hP a (List.mem_cons_of_mem _ ha)))

/-- The descriptors of a walk, each paired with the visible field it describes. -/
theorem walk_descriptors_visible {env : Env} {tn : String} {sib : List String} {addr : Bool}
    {op : String} {clock : Nat → Int} {fs : List (FieldDecl × Val)} {ds : List Field}
    {fs' : List (FieldDecl × Val)}
    (h : walk env tn sib addr op clock 0 fs = some (ds, fs')) :
    List.Forall₂ (fun ipv f => visible ipv.2.1 = true ∧ ∃ blank v',
        blankOf env ipv.2.2 = some blank ∧
        describe env tn sib addr op (clock ipv.1) ipv.2.1 ipv.2.2 blank = some (f, v'))
      ((indexFrom 0 fs).filter (fun ipv => visible ipv.2.1)) ds :=
  forall₂_with_left (walk_descriptors_indexed h) (fun _ hpv => (List.mem_filter.1 hpv).2)

/-- C20 (counterexample): under "create" on a record whose `CreatedAt` and `UpdatedAt`
are zero, with a clock that reads 1700 in the first iteration and one more in each later
one, the two timestamp descriptors have `IsBlank` true and carry the values 1702 and
1703, which are not the zero time. -/
theorem fields_create_blank_flag_stale :
    ∃ ds m', fields sampleEnv (handleOn "User" userFields) "create"
        (fun i => 1700 + (i : Int)) = some (ds, m') ∧
      ds.map (fun f => (f.Name, f.IsBlank, f.Value.isZero)) =
        [("Id", true, true), ("Name", false, false), ("CreatedAt", true, false),
         ("UpdatedAt", true, false)] ∧
      ds.map (fun f => f.Value) =
        [.int .int64 0, .str "Alice", .time 1702, .time 1703] :=
  ⟨_, _, rfl, rfl, rfl⟩

/-- C20 (amended): on a struct record classified afresh, for every operation name, the
descriptor of a time field has `IsBlank` true exactly when the field held the zero time
before the call, and its `Value` is the time the field holds after the auto-fill: the
clock reading of the iteration that visits the field (`clock i` for the field at
position `i`) when the field was stamped (under "create" a zero "created_at" or
"updated_at", under "update" every "updated_at"), the old value otherwise. So for an
operation other than "create" and "update" the flag is true exactly when the value
carried is the zero time; and `columnsHasValue` keeps the descriptors whose flag is
false. -/
theorem fields_time_blank_before_fill (env : Env) (m m' : Model) (op : String)
    (clock : Nat → Int)
    (addr : Bool) (info : StructInfo) (fs : List (FieldDecl × Val)) (ds : List Field)
    (hcache : (cacheGet m.cache op).length = 0)
    (hdata : dataIndirect m.data = some (addr, .struct info fs))
    (hret : fields env m op clock = some (ds, m')) :
    List.Forall₂ (fun ipv f => f.Name = ipv.2.1.name ∧ ∀ t, ipv.2.2 = .time t →
        (f.IsBlank = true ↔ t = 0) ∧
        f.Value = .time (if (op = "create" ∧ stampsOnCreate env ipv.2 = true) ∨
            (op = "update" ∧ stampsOnUpdate env ipv.2 = true) then clock ipv.1 else t) ∧
        (op ≠ "create" → op ≠ "update" → (f.IsBlank = true ↔ f.Value.isZero = true)))
      ((indexFrom 0 fs).filter (fun ipv => visible ipv.2.1)) ds ∧
    columnsHasValue env m op clock = some (ds.filter (fun f => !f.IsBlank), m') := by
  obtain ⟨fs', hw, -⟩ := fields_walk hcache hdata hret
  refine ⟨?_, by simp [columnsHasValue, hret]⟩
  refine (walk_descriptors_visible hw).imp ?_
  rintro ⟨j, p, v⟩ f ⟨hv, blank, v', hb, hd⟩
  simp only at hv hb hd
  obtain ⟨hname, -, hblank, hvalue, -⟩ := describe_spec hd
  refine ⟨hname, ?_⟩
  intro t ht
  simp only at ht
  subst ht
  obtain ⟨t', hfill, hv'⟩ := (describe_value hd).2 t rfl
  have ht' := autoFill_result hfill
  have hbl : blank = (t == 0) := by
    simp only [blankOf, Option.some.injEq] at hb
    exact hb.symm
  have hcond : ((op = "create" ∧ stampsOnCreate env (p, Val.time t) = true) ∨
      (op = "update" ∧ stampsOnUpdate env (p, Val.time t) = true)) ↔
      ((op = "create" ∧ (("created_at" == env.toSnake p.name ||
        "updated_at" == env.toSnake p.name) && t == 0) = true) ∨
       (op = "update" ∧ ("updated_at" == env.toSnake p.name) = true)) := by
    simp [stampsOnCreate, stampsOnUpdate, hv]
  have hval : f.Value = Val.time (if (op = "create" ∧
      stampsOnCreate env (p, Val.time t) = true) ∨
      (op = "update" ∧ stampsOnUpdate env (p, Val.time t) = true) then clock j else t) := by
    rw [hvalue, hv', ht']
    congr 1
    by_cases hc : (op = "create" ∧ stampsOnCreate env (p, Val.time t) = true) ∨
      (op = "update" ∧ stampsOnUpdate env (p, Val.time t) = true)
    · rw [if_pos hc, if_pos (hcond.1 hc)]
    · rw [if_neg hc, if_neg (fun h => hc (hcond.2 h))]
  refine ⟨by rw [hblank, hbl]; simp, hval, ?_⟩
  intro h1 h2
  rw [hval, hblank, hbl]
  have : ¬ ((op = "create" ∧ stampsOnCreate env (p, Val.time t) = true) ∨
      (op = "update" ∧ stampsOnUpdate env (p, Val.time t) = true)) := by
    rintro (⟨h, -⟩ | ⟨h, -⟩)
    · exact h1 h
    · exact h2 h
  rw [if_neg this]
  simp [Val.isZero]

/-- C20 (witness): the record with zero timestamps classified under "create" with a
clock that reads 1700 in the first iteration and one more in each later one. -/
theorem fields_time_blank_before_fill_witness :
    ∃ ds m', fields sampleEnv (handleOn "User" userFields) "create"
        (fun i => 1700 + (i : Int)) = some (ds, m') ∧
      ds.map (fun f => (f.Name, f.IsBlank)) =
        [("Id", true), ("Name", false), ("CreatedAt", true), ("UpdatedAt", true)] ∧
      columnsHasValue sampleEnv (handleOn "User" userFields) "create"
          (fun i => 1700 + (i : Int)) =
        some (ds.filter (fun f => !f.IsBlank), m') :=
  ⟨_, _, rfl, rfl,
    (fields_time_blank_before_fill sampleEnv (handleOn "User" userFields) _ "create"
      (fun i => 1700 + (i : Int))
      true { name := "User", scanner := false, tableName := none } userFields _
      rfl rfl rfl).2⟩

/-! ### Association roles -/

/-- What `resolveRole` makes of a descriptor that has no storage type, role or foreign
key yet. -/
theorem resolveRole_roles {env : Env} {tn : String} {sib : List String} {field f : Field}
    {p : FieldDecl} {isTime : Bool} {value : Val}
    (h : resolveRole env tn sib field p isTime value = some f)
    (h0 : field.SqlType = "" ∧ field.beforeAssociation = false ∧
      field.afterAssociation = false ∧ field.foreignKey = "") :
    (isTime = true ∨ field.IsPrimaryKey = true →
      f.SqlType = getSqlTag env field p ∧ f.beforeAssociation = false ∧
      f.afterAssociation = false ∧ f.foreignKey = "") ∧
    (isTime = false → field.IsPrimaryKey = false →
      match value.indirect with
      | some (.slice elem _) =>
          ∃ names, elem.fieldNames? = some names ∧ f.afterAssociation = true ∧
            f.beforeAssociation = false ∧ f.SqlType = "" ∧
            f.foreignKey = if names.contains (tn ++ "Id") then tn ++ "Id" else ""
      | some (.struct sinfo sfs) =>
          if sinfo.scanner = true then
            f.SqlType = getSqlTag env field p ∧ f.beforeAssociation = false ∧
            f.afterAssociation = false ∧ f.foreignKey = ""
          else if sib.contains (p.name ++ "Id") = true then
            f.beforeAssociation = true ∧ f.afterAssociation = false ∧ f.SqlType = "" ∧
            f.foreignKey = p.name ++ "Id"
          else
            f.afterAssociation = true ∧ f.beforeAssociation = false ∧ f.SqlType = "" ∧
            f.foreignKey = if hasField sfs (tn ++ "Id") then tn ++ "Id" else ""
      | some (.time _) =>
          if sib.contains (p.name ++ "Id") = true then
            f.beforeAssociation = true ∧ f.afterAssociation = false ∧ f.SqlType = "" ∧
            f.foreignKey = p.name ++ "Id"
          else
            f.afterAssociation = true ∧ f.beforeAssociation = false ∧ f.SqlType = "" ∧
            f.foreignKey = ""
      | _ =>
          f.SqlType = getSqlTag env field p ∧ f.beforeAssociation = false ∧
          f.afterAssociation = false ∧ f.foreignKey = "") := by
  obtain ⟨h1, h2, h3, h4⟩ := h0
  unfold resolveRole at h
  refine ⟨?_, ?_⟩
  · intro hor
    by_cases ht : isTime = true
    · simp only [ht, if_true, Option.some.injEq] at h
      subst h
      simp [h2, h3, h4]
    · have hp : field.IsPrimaryKey = true := hor.resolve_left ht
      simp only [ht, hp, if_true, if_false, Bool.false_eq_true, Option.some.injEq] at h
      subst h
      simp [h2, h3, h4]
  · intro ht hp
    simp only [ht, hp, Bool.false_eq_true, if_false] at h
    cases hvi : value.indirect with
    | none =>
        simp only [hvi, Option.some.injEq] at h
        subst h
        simp [h2, h3, h4]
    | some w =>
        simp only [hvi] at h
        cases w with
        | slice elem items =>
            simp only at h ⊢
            cases hn : elem.fieldNames? with
            | none => simp [hn] at h
            | some names =>
                simp only [hn, Option.some.injEq] at h
                subst h
                exact ⟨names, rfl, rfl, h2, h1, rfl⟩
        | struct sinfo sfs =>
            simp only at h ⊢
            by_cases hs : sinfo.scanner = true
            · simp only [hs, if_true, Option.some.injEq] at h ⊢
              subst h
              simp [h2, h3, h4]
            · simp only [hs, if_false, Bool.false_eq_true] at h ⊢
              by_cases hc : sib.contains (p.name ++ "Id") = true
              · simp only [hc, if_true, if_false, Bool.false_eq_true, Option.some.injEq] at h ⊢
                subst h
                simp [h1, h3]
              · simp only [hc, if_true, if_false, Bool.false_eq_true, Option.some.injEq] at h ⊢
                subst h
                simp [h1, h2]
        | time t =>
            simp only at h ⊢
            by_cases hc : sib.contains (p.name ++ "Id") = true
            · simp only [hc, if_true, if_false, Bool.false_eq_true, Option.some.injEq] at h ⊢
              subst h
              simp [h1, h3]
            · simp only [hc, if_true, if_false, Bool.false_eq_true, Option.some.injEq] at h ⊢
              subst h
              simp [h1, h2, h4]
        | _ =>
            simp only [Option.some.injEq] at h ⊢
            subst h
            simp [h2, h3, h4]

theorem getSqlTag_congr (env : Env) {f g : Field} (p : FieldDecl)
    (hv : f.Value = g.Value) (hp : f.IsPrimaryKey = g.IsPrimaryKey) :
    getSqlTag env f p = getSqlTag env g p := by
  unfold getSqlTag
  rw [hv, hp]

/-- The storage type, role and foreign key `describe` gives a descriptor. -/
theorem describe_roles {env : Env} {tn : String} {sib : List String} {addr : Bool}
    {op : String} {now : Int} {p : FieldDecl} {v v' : Val} {blank : Bool} {f : Field}
    (h : describe env tn sib addr op now p v blank = some (f, v')) :
    ((timeOf v).isSome = true ∨ f.IsPrimaryKey = true →
      f.SqlType = getSqlTag env f p ∧ f.beforeAssociation = false ∧
      f.afterAssociation = false ∧ f.foreignKey = "") ∧
    (timeOf v = none → f.IsPrimaryKey = false →
      match v.indirect with
      | some (.slice elem _) =>
          ∃ names, elem.fieldNames? = some names ∧ f.afterAssociation = true ∧
            f.beforeAssociation = false ∧ f.SqlType = "" ∧
            f.foreignKey = if names.contains (tn ++ "Id") then tn ++ "Id" else ""
      | some (.struct sinfo sfs) =>
          if sinfo.scanner = true then
            f.SqlType = getSqlTag env f p ∧ f.beforeAssociation = false ∧
            f.afterAssociation = false ∧ f.foreignKey = ""
          else if sib.contains (p.name ++ "Id") = true then
            f.beforeAssociation = true ∧ f.afterAssociation = false ∧ f.SqlType = "" ∧
            f.foreignKey = p.name ++ "Id"
          else
            f.afterAssociation = true ∧ f.beforeAssociation = false ∧ f.SqlType = "" ∧
            f.foreignKey = if hasField sfs (tn ++ "Id") then tn ++ "Id" else ""
      | some (.time _) =>
          if sib.contains (p.name ++ "Id") = true then
            f.beforeAssociation = true ∧ f.afterAssociation = false ∧ f.SqlType = "" ∧
            f.foreignKey = p.name ++ "Id"
          else
            f.afterAssociation = true ∧ f.beforeAssociation = false ∧ f.SqlType = "" ∧
            f.foreignKey = ""
      | _ =>
          f.SqlType = getSqlTag env f p ∧ f.beforeAssociation = false ∧
          f.afterAssociation = false ∧ f.foreignKey = "") := by
  unfold describe at h
  simp only at h
  cases ht : timeOf v with
  | some t =>
      simp only [ht] at h
      cases hfill : autoFill addr op ("created_at" == env.toSnake p.name)
          ("updated_at" == env.toSnake p.name) now t with
      | none => simp [hfill] at h
      | some t' =>
        simp only [hfill] at h
        split at h
        · simp at h
        · rename_i f' hf'
          simp only [Option.some.injEq, Prod.mk.injEq] at h
          obtain ⟨rfl, rfl⟩ := h
          have hk := resolveRole_keeps hf'
          have hr := (resolveRole_roles hf' ⟨rfl, rfl, rfl, rfl⟩).1 (Or.inl rfl)
          refine ⟨fun _ => ⟨?_, hr.2⟩, fun hn => by simp at hn⟩
          rw [hr.1]
          exact (getSqlTag_congr env p hk.2.1 hk.2.2.2.2.1).symm
  | none =>
      simp only [ht] at h
      split at h
      · simp at h
      · rename_i f' hf'
        simp only [Option.some.injEq, Prod.mk.injEq] at h
        obtain ⟨rfl, rfl⟩ := h
        have hk := resolveRole_keeps hf'
        have hr := resolveRole_roles hf' ⟨rfl, rfl, rfl, rfl⟩
        have hsql := getSqlTag_congr env p hk.2.1 hk.2.2.2.2.1
        refine ⟨?_, ?_⟩
        · rintro (hc | hc)
          · simp at hc
          · have := hr.1 (Or.inr (by rw [← hk.2.2.2.2.1]; exact hc))
            exact ⟨by rw [this.1, hsql], this.2⟩
        · intro _ hpk
          have := hr.2 rfl (by rw [← hk.2.2.2.2.1]; exact hpk)
          rw [hsql]
          exact this

/-- C12: on a struct record of type `info.name` classified afresh, for each described
field `F` of a completed `fields`: no descriptor is both before and after; a time field
(a field holding a `time.Time`, which is what the code tests) and the primary key carry
no role; and for a field that is neither, when the value after following a pointer is a
slice the descriptor is an after-association without storage type whose foreign key is
the owner's name followed by "Id" exactly when the element type has a field of that name
(empty otherwise); when it is a struct that is not a scanner the descriptor has no
storage type, is a before-association with foreign key `F` followed by "Id" when the
record has a field of that name, and otherwise an after-association whose foreign key is
the owner's name followed by "Id" exactly when the nested type has such a field. A field
holding a pointer to a `time.Time` is not a time field for the code: it falls under the
single-struct case, `time.Time` being a struct that is no scanner and has no field whose
name ends in "Id", so its descriptor has no storage type and is a before-association
with foreign key `F` followed by "Id" when the record has a field of that name, and an
after-association with the empty foreign key otherwise. -/
theorem fields_association_roles (env : Env) (m m' : Model) (op : String) (clock : Nat → Int)
    (addr : Bool) (info : StructInfo) (fs : List (FieldDecl × Val)) (ds : List Field)
    (hcache : (cacheGet m.cache op).length = 0)
    (hdata : dataIndirect m.data = some (addr, .struct info fs))
    (hret : fields env m op clock = some (ds, m')) :
    List.Forall₂ (fun pv f =>
        f.Name = pv.1.name ∧
        ¬ (f.beforeAssociation = true ∧ f.afterAssociation = true) ∧
        ((timeOf pv.2).isSome = true ∨ f.IsPrimaryKey = true →
          f.beforeAssociation = false ∧ f.afterAssociation = false) ∧
        (timeOf pv.2 = none → f.IsPrimaryKey = false →
          (∀ elem items, pv.2.indirect = some (.slice elem items) →
            f.afterAssociation = true ∧ f.beforeAssociation = false ∧ f.SqlType = "" ∧
            ∃ names, elem.fieldNames? = some names ∧
              f.foreignKey =
                if names.contains (info.name ++ "Id") then info.name ++ "Id" else "") ∧
          (∀ sinfo sfs, pv.2.indirect = some (.struct sinfo sfs) → sinfo.scanner = false →
            f.SqlType = "" ∧
            (hasField fs (pv.1.name ++ "Id") = true →
              f.beforeAssociation = true ∧ f.afterAssociation = false ∧
              f.foreignKey = pv.1.name ++ "Id") ∧
            (hasField fs (pv.1.name ++ "Id") = false →
              f.afterAssociation = true ∧ f.beforeAssociation = false ∧
              f.foreignKey =
                if hasField sfs (info.name ++ "Id") then info.name ++ "Id" else "")) ∧
          (∀ t, pv.2.indirect = some (.time t) →
            f.SqlType = "" ∧
            (hasField fs (pv.1.name ++ "Id") = true →
              f.beforeAssociation = true ∧ f.afterAssociation = false ∧
              f.foreignKey = pv.1.name ++ "Id") ∧
            (hasField fs (pv.1.name ++ "Id") = false →
              f.afterAssociation = true ∧ f.beforeAssociation = false ∧
              f.foreignKey = ""))))
      (fs.filter (fun pv => visible pv.1)) ds := by
  obtain ⟨fs', hw, -⟩ := fields_walk hcache hdata hret
  refine (walk_descriptors hw).imp ?_
  rintro ⟨p, v⟩ f ⟨now, blank, v', -, hd⟩
  simp only at hd
  obtain ⟨hname, -⟩ := describe_spec hd
  obtain ⟨hr1, hr2⟩ := describe_roles hd
  have hboth : ¬ (f.beforeAssociation = true ∧ f.afterAssociation = true) := by
    rintro ⟨hb, ha⟩
    by_cases hc : (timeOf v).isSome = true ∨ f.IsPrimaryKey = true
    · have := (hr1 hc).2.1
      rw [hb] at this
      cases this
    · have hn : timeOf v = none := by
        cases ht : timeOf v with
        | none => rfl
        | some t => exact absurd (Or.inl (by simp [ht])) hc
      have hp : f.IsPrimaryKey = false := by
        cases hpk : f.IsPrimaryKey with
        | false => rfl
        | true => exact absurd (Or.inr hpk) hc
      have h2 := hr2 hn hp
      cases hvi : v.indirect with
      | none => simp only [hvi] at h2; rw [h2.2.1] at hb; cases hb
      | some w =>
        cases w with
        | slice elem items =>
            simp only [hvi] at h2
            obtain ⟨names, -, -, h3, -⟩ := h2
            rw [h3] at hb; cases hb
        | struct sinfo sfs =>
            simp only [hvi] at h2
            by_cases hs : sinfo.scanner = true
            · simp only [hs, if_true] at h2
              rw [h2.2.1] at hb; cases hb
            · simp only [hs, if_false, Bool.false_eq_true] at h2
              by_cases hsib : (fs.map (fun pv => pv.1.name)).contains (p.name ++ "Id") = true
              · simp only [hsib, if_true] at h2
                rw [h2.2.1] at ha; cases ha
              · simp only [hsib, if_false, Bool.false_eq_true] at h2
                rw [h2.2.1] at hb; cases hb
        | time t =>
            simp only [hvi] at h2
            by_cases hsib : (fs.map (fun pv => pv.1.name)).contains (p.name ++ "Id") = true
            · simp only [hsib, if_true] at h2
              rw [h2.2.1] at ha; cases ha
            · simp only [hsib, if_false, Bool.false_eq_true] at h2
              rw [h2.2.1] at hb; cases hb
        | _ => simp only [hvi] at h2; rw [h2.2.1] at hb; cases hb
  refine ⟨hname, hboth, fun hc => ⟨(hr1 hc).2.1, (hr1 hc).2.2.1⟩, ?_⟩
  intro hn hp
  have h2 := hr2 hn hp
  refine ⟨?_, ?_, ?_⟩
  · intro elem items hvi
    simp only at hvi
    simp only [hvi] at h2
    obtain ⟨names, h3, h4, h5, h6, h7⟩ := h2
    exact ⟨h4, h5, h6, names, h3, h7⟩
  · intro sinfo sfs hvi hs
    simp only at hvi
    simp only [hvi, hs, Bool.false_eq_true, if_false] at h2
    refine ⟨?_, ?_, ?_⟩
    · by_cases hsib : (fs.map (fun pv => pv.1.name)).contains (p.name ++ "Id") = true
      · simp only [hsib, if_true] at h2; exact h2.2.2.1
      · simp only [hsib, if_false, Bool.false_eq_true] at h2; exact h2.2.2.1
    · intro hsib
      have hsib' : (fs.map (fun pv => pv.1.name)).contains (p.name ++ "Id") = true := hsib
      simp only [hsib', if_true] at h2
      exact ⟨h2.1, h2.2.1, h2.2.2.2⟩
    · intro hsib
      have hsib' : (fs.map (fun pv => pv.1.name)).contains (p.name ++ "Id") = false := hsib
      simp only [hsib', if_false, Bool.false_eq_true] at h2
      exact ⟨h2.1, h2.2.1, h2.2.2.2⟩
  · intro t hvi
    simp only at hvi
    simp only [hvi] at h2
    refine ⟨?_, ?_, ?_⟩
    · by_cases hsib : (fs.map (fun pv => pv.1.name)).contains (p.name ++ "Id") = true
      · simp only [hsib, if_true] at h2; exact h2.2.2.1
      · simp only [hsib, if_false, Bool.false_eq_true] at h2; exact h2.2.2.1
    · intro hsib
      have hsib' : (fs.map (fun pv => pv.1.name)).contains (p.name ++ "Id") = true := hsib
      simp only [hsib', if_true] at h2
      exact ⟨h2.1, h2.2.1, h2.2.2.2⟩
    · intro hsib
      have hsib' : (fs.map (fun pv => pv.1.name)).contains (p.name ++ "Id") = false := hsib
      simp only [hsib', if_false, Bool.false_eq_true] at h2
      exact ⟨h2.1, h2.2.1, h2.2.2.2⟩

/-- C12 (witness): a `User` with a slice of `Email`, a `Company` with the sibling
`CompanyId`, an `Address` without sibling, and a creation time; and a `User` with two
pointers to a `time.Time`, `DeletedAt` without sibling and `ArchivedAt` with the sibling
`ArchivedAtId`, next to the primary key and a creation time held by value. -/
theorem fields_association_roles_witness :
    (∃ ds m', fields sampleEnv (handleOn "User" assocFields) "other" (fun _ => 0)
        = some (ds, m') ∧
      ds.map (fun f => (f.Name, f.beforeAssociation, f.afterAssociation, f.foreignKey,
          f.SqlType)) =
        [("Id", false, false, "", "int64 primary key"),
         ("Emails", false, true, "UserId", ""),
         ("Company", true, false, "CompanyId", ""),
         ("CompanyId", false, false, "", "int64"),
         ("Address", false, true, "UserId", ""),
         ("CreatedAt", false, false, "", "Time")] ∧
      List.Forall₂ (fun pv f => f.Name = pv.1.name ∧
          ¬ (f.beforeAssociation = true ∧ f.afterAssociation = true))
        (assocFields.filter (fun pv => visible pv.1)) ds) ∧
    (∃ ds m', fields sampleEnv (handleOn "User" optionalTimeFields) "other" (fun _ => 0)
        = some (ds, m') ∧
      ds.map (fun f => (f.Name, f.beforeAssociation, f.afterAssociation, f.foreignKey,
          f.SqlType)) =
        [("Id", false, false, "", "int64 primary key"),
         ("DeletedAt", false, true, "", ""),
         ("ArchivedAt", true, false, "ArchivedAtId", ""),
         ("ArchivedAtId", false, false, "", "int64"),
         ("CreatedAt", false, false, "", "Time")] ∧
      List.Forall₂ (fun pv f => f.Name = pv.1.name ∧
          ¬ (f.beforeAssociation = true ∧ f.afterAssociation = true))
        (optionalTimeFields.filter (fun pv => visible pv.1)) ds) :=
  ⟨⟨_, _, rfl, rfl,
    (fields_association_roles sampleEnv (handleOn "User" assocFields) _ "other"
      (fun _ => 0) true
      { name := "User", scanner := false, tableName := none } assocFields _
      rfl rfl rfl).imp (fun _ _ h => ⟨h.1, h.2.1⟩)⟩,
   ⟨_, _, rfl, rfl,
    (fields_association_roles sampleEnv (handleOn "User" optionalTimeFields) _ "other"
      (fun _ => 0) true
      { name := "User", scanner := false, tableName := none } optionalTimeFields _
      rfl rfl rfl).imp (fun _ _ h => ⟨h.1, h.2.1⟩)⟩⟩

/-! ### Nested structs -/

theorem blankOf_struct {env : Env} {sinfo : StructInfo}
    {sfs : List (FieldDecl × Val)} (hs : sinfo.scanner = false) :
    blankOf env (.struct sinfo sfs) =
      match walk env sinfo.name (sfs.map (fun pv => pv.1.name)) false "other"
          (fun _ => 0) 0 sfs with
      | none => none
      | some r => some ((r.1.filter (fun f => !f.IsBlank)).length == 0) := by
  rw [blankOf]
  simp [hs]

/-- Under an operation other than "create" and "update" the loop body does not depend on
the clock reading. -/
theorem describe_unstamped {env : Env} {tn : String} {sib : List String} {addr : Bool}
    {op : String} (h1 : op ≠ "create") (h2 : op ≠ "update") (now now' : Int)
    (p : FieldDecl) (v : Val) (blank : Bool) :
    describe env tn sib addr op now p v blank = describe env tn sib addr op now' p v blank := by
  unfold describe
  simp only [autoFill_other h1 h2]

/-- Under an operation other than "create" and "update" the walk does not depend on the
clock or on the iteration it starts from. -/
theorem walk_unstamped {env : Env} {tn : String} {sib : List String} {addr : Bool}
    {op : String} (h1 : op ≠ "create") (h2 : op ≠ "update") (clock clock' : Nat → Int) :
    ∀ (fs : List (FieldDecl × Val)) (i i' : Nat),
      walk env tn sib addr op clock i fs = walk env tn sib addr op clock' i' fs := by
  intro fs
  induction fs with
  | nil => intro i i'; rw [walk_nil, walk_nil]
  | cons pv rest ih =>
      obtain ⟨p, value⟩ := pv
      intro i i'
      rw [walk_cons, walk_cons, ih (i + 1) (i' + 1)]
      by_cases hv : visible p = true
      · rw [if_pos hv, if_pos hv]
        cases hb : blankOf env value with
        | none => rfl
        | some blank =>
          simp only []
          rw [describe_unstamped h1 h2 (clock i) (clock' i')]
      · rw [if_neg hv, if_neg hv]

/-- C15: on a struct record classified afresh, the descriptor of a described field
holding a struct that is neither a time nor a scanner has `IsBlank` true exactly when
`columnsHasValue("other")` on a handle on that struct value returns nothing, which is
when the classification of the nested struct under "other" has no descriptor with
`IsBlank` false: a nested struct whose descriptors are all blank, or which has no
descriptor at all, is blank, and one with a non-blank descriptor is not. The nested
classification gives the same result at every clock. -/
theorem fields_nested_struct_blank (env : Env) (m m' : Model) (op : String)
    (clock : Nat → Int)
    (addr : Bool) (info : StructInfo) (fs : List (FieldDecl × Val)) (ds : List Field)
    (hcache : (cacheGet m.cache op).length = 0)
    (hdata : dataIndirect m.data = some (addr, .struct info fs))
    (hret : fields env m op clock = some (ds, m')) :
    List.Forall₂ (fun pv f => f.Name = pv.1.name ∧
        ∀ sinfo sfs, pv.2 = .struct sinfo sfs → sinfo.scanner = false →
          ∃ sub nested',
            (∀ clock', fields env (nestedHandle m pv.2) "other" clock'
              = some (sub, nested')) ∧
            (∀ clock', columnsHasValue env (nestedHandle m pv.2) "other" clock' =
              some (sub.filter (fun d => !d.IsBlank), nested')) ∧
            (f.IsBlank = true ↔ sub.filter (fun d => !d.IsBlank) = []) ∧
            ((∀ d ∈ sub, d.IsBlank = true) → f.IsBlank = true) ∧
            (sub = [] → f.IsBlank = true) ∧
            ((∃ d ∈ sub, d.IsBlank = false) → f.IsBlank = false))
      (fs.filter (fun pv => visible pv.1)) ds := by
  obtain ⟨fs', hw, -⟩ := fields_walk hcache hdata hret
  refine (walk_descriptors hw).imp ?_
  rintro ⟨p, v⟩ f ⟨now, blank, v', hb, hd⟩
  simp only at hb hd
  obtain ⟨hname, -, hblank, -, -⟩ := describe_spec hd
  refine ⟨hname, ?_⟩
  intro sinfo sfs hv hs
  simp only at hv
  subst hv
  rw [blankOf_struct hs] at hb
  cases hwn : walk env sinfo.name (sfs.map (fun pv => pv.1.name)) false "other"
      (fun _ => 0) 0 sfs with
  | none => simp [hwn] at hb
  | some r =>
    obtain ⟨sub, sfs'⟩ := r
    simp only [hwn, Option.some.injEq] at hb
    have hf : ∀ clock', fields env (nestedHandle m (.struct sinfo sfs)) "other" clock' =
        some (sub, { nestedHandle m (.struct sinfo sfs) with
          data := dataStore (nestedHandle m (.struct sinfo sfs)).data (.struct sinfo sfs')
          cache := cachePut (nestedHandle m (.struct sinfo sfs)).cache "other" sub }) := by
      intro clock'
      rw [@fields_miss_struct env (nestedHandle m (.struct sinfo sfs)) "other" clock' false
        sinfo sfs rfl rfl,
        walk_unstamped (by decide) (by decide) clock' (fun _ => 0) sfs 0 0, hwn]
    have hiff : f.IsBlank = true ↔ sub.filter (fun d => !d.IsBlank) = [] := by
      rw [hblank, ← hb]
      simp [List.length_eq_zero]
    refine ⟨sub, _, hf, fun clock' => by simp [columnsHasValue, hf clock'], hiff, ?_, ?_, ?_⟩
    · intro hall
      rw [hiff, List.filter_eq_nil_iff]
      intro d hd'
      simp [hall d hd']
    · intro hnil
      rw [hiff, hnil]
      rfl
    · rintro ⟨d, hd', hdb⟩
      cases hfb : f.IsBlank with
      | false => rfl
      | true =>
        have := hiff.1 hfb
        rw [List.filter_eq_nil_iff] at this
        have := this d hd'
        simp [hdb] at this

/-- C15 (witness): a record with a nested struct whose fields are blank, one without
exported fields, and one with a non-blank field. -/
theorem fields_nested_struct_blank_witness :
    ∃ ds m', fields sampleEnv (handleOn "Trip" nestedFields) "other" (fun _ => 0)
        = some (ds, m') ∧
      ds.map (fun f => (f.Name, f.IsBlank)) =
        [("Empty", true), ("Hidden", true), ("Home", false)] ∧
      List.Forall₂ (fun pv f => f.Name = pv.1.name ∧
        ∀ sinfo sfs, pv.2 = .struct sinfo sfs → sinfo.scanner = false →
          ∃ sub nested',
            (∀ clock', fields sampleEnv (nestedHandle (handleOn "Trip" nestedFields) pv.2)
              "other" clock' = some (sub, nested')) ∧
            (∀ clock', columnsHasValue sampleEnv
              (nestedHandle (handleOn "Trip" nestedFields) pv.2)
              "other" clock' = some (sub.filter (fun d => !d.IsBlank), nested')) ∧
            (f.IsBlank = true ↔ sub.filter (fun d => !d.IsBlank) = []) ∧
            ((∀ d ∈ sub, d.IsBlank = true) → f.IsBlank = true) ∧
            (sub = [] → f.IsBlank = true) ∧
            ((∃ d ∈ sub, d.IsBlank = false) → f.IsBlank = false))
        (nestedFields.filter (fun pv => visible pv.1)) ds :=
  ⟨_, _, rfl, rfl,
    fields_nested_struct_blank sampleEnv (handleOn "Trip" nestedFields) _ "other"
      (fun _ => 0) true
      { name := "Trip", scanner := false, tableName := none } nestedFields _ rfl rfl rfl⟩

/-! ### Association queries -/

/-- After a classification pass over a struct record, the same operation asked again of
the handle the pass left gives the same descriptors and leaves the record alone. -/
theorem fields_after_pass {env : Env} {m m₁ : Model} {op : String} {clock : Nat → Int}
    {addr : Bool}
    {info : StructInfo} {fs : List (FieldDecl × Val)} {ds : List Field}
    (hcache : (cacheGet m.cache op).length = 0)
    (hdata : dataIndirect m.data = some (addr, .struct info fs))
    (hret : fields env m op clock = some (ds, m₁)) (clock' : Nat → Int) :
    ∃ m₂, fields env m₁ op clock' = some (ds, m₂) ∧ m₂.data = m₁.data := by
  obtain ⟨fs', hw, rfl⟩ := fields_walk hcache hdata hret
  cases hds : ds with
  | cons f rest =>
      refine ⟨_, ?_, rfl⟩
      unfold fields
      simp only [cacheGet_cachePut]
      rw [if_pos (by simp)]
  | nil =>
      subst hds
      obtain ⟨hfs, hall⟩ := walk_empty hw
      subst hfs
      have hd1 : dataIndirect (dataStore m.data (.struct info fs'))
          = some (addr, .struct info fs') := by
        rw [dataStore_self hdata]; exact hdata
      have hc1 : (cacheGet (cachePut m.cache op []) op).length = 0 := by
        rw [cacheGet_cachePut]; rfl
      have h2 := @fields_miss_struct env { m with
            data := dataStore m.data (.struct info fs')
            cache := cachePut m.cache op [] } op clock' addr info fs' hc1 hd1
      simp only [hall clock' 0] at h2
      exact ⟨_, h2, by simp [dataStore_self hdata]⟩

/-- C16: on a struct record whose handle has no cached sequence for "null", with `ds` the
descriptors a completed `fields("null")` returns: `beforeAssociations` and
`afterAssociations`, whether called first on the handle or after that classification,
return the descriptors of `ds` that are not blank and whose role is before, respectively
after, in the order of `ds`; no descriptor is in both results; and the record is the
same after each call as before it. -/
theorem associations_filter_fields (env : Env) (m m₁ : Model)
    (clock clock' : Nat → Int)
    (addr : Bool) (info : StructInfo) (fs : List (FieldDecl × Val)) (ds : List Field)
    (hcache : (cacheGet m.cache "null").length = 0)
    (hdata : dataIndirect m.data = some (addr, .struct info fs))
    (hret : fields env m "null" clock = some (ds, m₁)) :
    beforeAssociations env m clock =
      some (ds.filter (fun f => f.beforeAssociation && !f.IsBlank), m₁) ∧
    afterAssociations env m clock =
      some (ds.filter (fun f => f.afterAssociation && !f.IsBlank), m₁) ∧
    m₁.data = m.data ∧
    (∃ m₂, beforeAssociations env m₁ clock' =
        some (ds.filter (fun f => f.beforeAssociation && !f.IsBlank), m₂) ∧
      m₂.data = m.data) ∧
    (∃ m₂, afterAssociations env m₁ clock' =
        some (ds.filter (fun f => f.afterAssociation && !f.IsBlank), m₂) ∧
      m₂.data = m.data) ∧
    (ds.filter (fun f => f.beforeAssociation && !f.IsBlank)).Sublist ds ∧
    (ds.filter (fun f => f.afterAssociation && !f.IsBlank)).Sublist ds ∧
    (∀ f ∈ ds.filter (fun f => f.beforeAssociation && !f.IsBlank),
      f ∉ ds.filter (fun f => f.afterAssociation && !f.IsBlank)) := by
  have hne1 : ("null" : String) ≠ "create" := by decide
  have hne2 : ("null" : String) ≠ "update" := by decide
  obtain ⟨fs', hw, hm₁⟩ := fields_walk hcache hdata hret
  have hfs : fs' = fs := walk_other_fields hne1 hne2 hw
  have hdata₁ : m₁.data = m.data := by
    rw [hm₁, hfs]
    simp [dataStore_self hdata]
  obtain ⟨m₂, h2, hd2⟩ := fields_after_pass hcache hdata hret clock'
  refine ⟨by simp [beforeAssociations, hret], by simp [afterAssociations, hret], hdata₁,
    ⟨m₂, by simp [beforeAssociations, h2], by rw [hd2, hdata₁]⟩,
    ⟨m₂, by simp [afterAssociations, h2], by rw [hd2, hdata₁]⟩,
    List.filter_sublist _, List.filter_sublist _, ?_⟩
  intro f hfb hfa
  rw [List.mem_filter] at hfb hfa
  obtain ⟨pv, -, now, blank, v', -, hd⟩ := forall₂_mem_right (walk_descriptors hw) f hfb.1
  obtain ⟨hr1, hr2⟩ := describe_roles hd
  have hb : f.beforeAssociation = true := by
    have := hfb.2
    simp only [Bool.and_eq_true] at this
    exact this.1
  have ha : f.afterAssociation = true := by
    have := hfa.2
    simp only [Bool.and_eq_true] at this
    exact this.1
  by_cases hc : (timeOf pv.2).isSome = true ∨ f.IsPrimaryKey = true
  · have := (hr1 hc).2.1
    rw [hb] at this
    cases this
  · have hn : timeOf pv.2 = none := by
      cases ht : timeOf pv.2 with
      | none => rfl
      | some t => exact absurd (Or.inl (by simp [ht])) hc
    have hp : f.IsPrimaryKey = false := by
      cases hpk : f.IsPrimaryKey with
      | false => rfl
      | true => exact absurd (Or.inr hpk) hc
    have h2 := hr2 hn hp
    cases hvi : pv.2.indirect with
    | none => simp only [hvi] at h2; rw [h2.2.1] at hb; cases hb
    | some w =>
      cases w with
      | slice elem items =>
          simp only [hvi] at h2
          obtain ⟨names, -, -, h3, -⟩ := h2
          rw [h3] at hb; cases hb
      | struct sinfo sfs =>
          simp only [hvi] at h2
          by_cases hs : sinfo.scanner = true
          · simp only [hs, if_true] at h2
            rw [h2.2.1] at hb; cases hb
          · simp only [hs, if_false, Bool.false_eq_true] at h2
            by_cases hsib : (fs.map (fun pv => pv.1.name)).contains (pv.1.name ++ "Id") = true
            · simp only [hsib, if_true] at h2
              rw [h2.2.1] at ha; cases ha
            · simp only [hsib, if_false, Bool.false_eq_true] at h2
              rw [h2.2.1] at hb; cases hb
      | time t =>
          simp only [hvi] at h2
          by_cases hsib : (fs.map (fun pv => pv.1.name)).contains (pv.1.name ++ "Id") = true
          · simp only [hsib, if_true] at h2
            rw [h2.2.1] at ha; cases ha
          · simp only [hsib, if_false, Bool.false_eq_true] at h2
            rw [h2.2.1] at hb; cases hb
      | _ => simp only [hvi] at h2; rw [h2.2.1] at hb; cases hb

/-- C16 (witness): the `User` with a non-blank `Address` (an after-association), a blank
`Company` (a before-association) and no email. -/
theorem associations_filter_fields_witness :
    ∃ ds m₁, fields sampleEnv (handleOn "User" assocFields) "null" (fun _ => 0)
        = some (ds, m₁) ∧
      (ds.filter (fun f => f.beforeAssociation && !f.IsBlank)).map (fun f => f.Name) = [] ∧
      (ds.filter (fun f => f.afterAssociation && !f.IsBlank)).map (fun f => f.Name)
        = ["Address"] ∧
      beforeAssociations sampleEnv (handleOn "User" assocFields) (fun _ => 0) =
        some (ds.filter (fun f => f.beforeAssociation && !f.IsBlank), m₁) ∧
      afterAssociations sampleEnv (handleOn "User" assocFields) (fun _ => 0) =
        some (ds.filter (fun f => f.afterAssociation && !f.IsBlank), m₁) ∧
      m₁.data = (handleOn "User" assocFields).data :=
  ⟨_, _, rfl, rfl, rfl,
    (associations_filter_fields sampleEnv (handleOn "User" assocFields) _ (fun _ => 0)
      (fun _ => 9) true
      { name := "User", scanner := false, tableName := none } assocFields _
      rfl rfl rfl).1,
    (associations_filter_fields sampleEnv (handleOn "User" assocFields) _ (fun _ => 0)
      (fun _ => 9) true
      { name := "User", scanner := false, tableName := none } assocFields _
      rfl rfl rfl).2.1,
    (associations_filter_fields sampleEnv (handleOn "User" assocFields) _ (fun _ => 0)
      (fun _ => 9) true
      { name := "User", scanner := false, tableName := none } assocFields _
      rfl rfl rfl).2.2.1⟩

/-! ### Table names -/

theorem tableName_valid {env : Env} {order : List (String × String)} {m : Model}
    {addr : Bool} {v : Val} (hdata : dataIndirect m.data = some (addr, v)) :
    tableName env order m =
      match tableNameMethod v with
      | some result => some (result, m)
      | none =>
        match typeName m with
        | none => none
        | some tn =>
          if (!env.singularTableName) = true then
            match pluralLoop order (env.toSnake tn) with
            | some r => some (r, m)
            | none => some (env.toSnake tn, m)
          else some (env.toSnake tn, m) := by
  unfold tableName
  cases hm : m.data with
  | none => rw [hm] at hdata; simp [dataIndirect] at hdata
  | some d =>
      rw [hm] at hdata
      simp only [hdata]

/-- C17 (counterexample): the record type `Animal` exposes a `TableName` method returning
"beasts", declared on the pointer type; on a pointer to an `Animal` the method is not
found on the dereferenced record, and `tableName` returns the derived name: "animals"
with pluralised naming on, "animal" with singular naming. -/
theorem tableName_skips_pointer_receiver :
    dataIndirect animalRecord.data = some (true,
      .struct ⟨"Animal", false, none, some "beasts"⟩ [(plainField "Id", .int .int64 1)]) ∧
    exposedTableName ⟨"Animal", false, none, some "beasts"⟩ = some "beasts" ∧
    tableName sampleEnv pluralMap animalRecord = some ("animals", animalRecord) ∧
    tableName singularEnv pluralMap animalRecord = some ("animal", animalRecord) ∧
    (tableName sampleEnv pluralMap animalRecord).map Prod.fst ≠ some "beasts" ∧
    (tableName singularEnv pluralMap animalRecord).map Prod.fst ≠ some "beasts" :=
  ⟨rfl, rfl, rfl, rfl, by decide, by decide⟩

/-- C17 (amended): on a handle whose record is valid, when the struct type of the record
declares a `TableName` method with a value receiver (the methods the lookup on the
dereferenced record finds), `tableName` returns what that method returns, unchanged,
whatever the naming switch and the traversal of the rule table; when the type declares
no `TableName` method with a value receiver (one declared on the pointer type is not
consulted) and singular naming is configured, it returns `toSnake` of the struct's name,
with nothing appended; and when the record is a slice and singular naming is configured,
it returns `toSnake` of the element type's name, with nothing appended. -/
theorem tableName_override_or_singular (env : Env) (order : List (String × String))
    (m : Model) (addr : Bool) (v : Val)
    (hdata : dataIndirect m.data = some (addr, v)) :
    (∀ info fs s, v = .struct info fs → info.tableName = some s →
      tableName env order m = some (s, m)) ∧
    (∀ info fs, v = .struct info fs → info.tableName = none →
      env.singularTableName = true →
      tableName env order m = some (env.toSnake info.name, m)) ∧
    (∀ elem items, v = .slice elem items → env.singularTableName = true →
      tableName env order m = some (env.toSnake elem.name, m)) := by
  rw [tableName_valid hdata]
  refine ⟨?_, ?_, ?_⟩
  · intro info fs s hv hs
    subst hv
    simp [tableNameMethod, hs]
  · intro info fs hv hnone hsing
    subst hv
    simp [tableNameMethod, hnone, hsing, typeName, hdata, Val.typeOf, Ty.name]
  · intro elem items hv hsing
    subst hv
    simp [tableNameMethod, hsing, typeName, hdata]

/-- C17 (witness): a record type whose `TableName` method, declared with a value
receiver, answers "people", with pluralised naming on; the record type `Animal`, whose
`TableName` is declared on the pointer type, with singular naming; and a record type
without the method, with singular naming. -/
theorem tableName_override_or_singular_witness :
    tableName sampleEnv pluralMap namedRecord = some ("people", namedRecord) ∧
    tableName singularEnv pluralMap animalRecord = some ("animal", animalRecord) ∧
    tableName singularEnv pluralMap (handleOn "Category" []) =
      some ("category", handleOn "Category" []) :=
  ⟨(tableName_override_or_singular sampleEnv pluralMap namedRecord true
      (.struct ⟨"Person", false, some "people", none⟩ [(plainField "Id", .int .int64 1)])
      rfl).1 _ _ "people" rfl rfl,
    (tableName_override_or_singular singularEnv pluralMap animalRecord true
      (.struct ⟨"Animal", false, none, some "beasts"⟩ [(plainField "Id", .int .int64 1)])
      rfl).2.1 _ _ rfl rfl rfl,
    rfl⟩

theorem pluralLoop_of_forall {str r : String} :
    ∀ {order : List (String × String)},
      (∀ kv ∈ order, regMatch kv.1 str = true → regReplace kv.1 str kv.2 = r) →
      (∃ kv ∈ order, regMatch kv.1 str = true) → pluralLoop order str = some r := by
  intro order
  induction order with
  | nil => rintro - ⟨kv, hkv, -⟩; simp at hkv
  | cons kv rest ih =>
      obtain ⟨key, value⟩ := kv
      intro hall hex
      by_cases hm : regMatch key str = true
      · simp only [pluralLoop, hm, if_true]
        rw [hall (key, value) (List.mem_cons_self _ _) hm]
      · simp only [pluralLoop, hm, if_false, Bool.false_eq_true]
        apply ih (fun kv hkv => hall kv (List.mem_cons_of_mem _ hkv))
        obtain ⟨kv, hkv, hkm⟩ := hex
        rcases List.mem_cons.1 hkv with rfl | hkv
        · exact absurd hkm hm
        · exact ⟨kv, hkv, hkm⟩

/-- C18 (counterexample): with pluralised naming on and no `TableName` method, the record
type `Bus`, whose snake-case name is "bus", resolves to "bus", which is not "buses". -/
theorem tableName_bus_is_bus :
    sampleEnv.toSnake "Bus" = "bus" ∧
    tableName sampleEnv pluralMap (handleOn "Bus" []) = some ("bus", handleOn "Bus" []) ∧
    "bus" ≠ "buses" :=
  ⟨rfl, rfl, by decide⟩

/-- C18 (amended): with pluralised naming on and no `TableName` method, a struct record
whose type has the snake-case name "bus" resolves to the table name "bus", in whatever
order the rule table is traversed: the only rule that matches is the entry "s?", which
puts an "s" in the place of the final "s". -/
theorem tableName_bus (env : Env) (order : List (String × String)) (m : Model)
    (addr : Bool) (info : StructInfo) (fs : List (FieldDecl × Val))
    (hdata : dataIndirect m.data = some (addr, .struct info fs))
    (hmethod : info.tableName = none)
    (hplural : env.singularTableName = false)
    (hsnake : env.toSnake info.name = "bus")
    (horder : order.Perm pluralMap) :
    tableName env order m = some ("bus", m) := by
  have hloop : pluralLoop order "bus" = some "bus" := by
    apply pluralLoop_of_forall
    · intro kv hkv
      have hall : ∀ kv ∈ pluralMap, regMatch kv.1 "bus" = true →
          regReplace kv.1 "bus" kv.2 = "bus" := by decide
      exact hall kv (horder.mem_iff.1 hkv)
    · exact ⟨("s?", "s"), horder.mem_iff.2 (by decide), by decide⟩
  rw [tableName_valid hdata]
  simp [tableNameMethod, hmethod, typeName, hdata, Val.typeOf, Ty.name, hplural, hsnake,
    hloop]

/-- C18 (witness): the record type `Bus` under the traversal that meets "s?" first. -/
theorem tableName_bus_witness :
    optionalSFirst.Perm pluralMap ∧
    tableName sampleEnv optionalSFirst (handleOn "Bus" []) = some ("bus", handleOn "Bus" []) :=
  ⟨by decide,
    tableName_bus sampleEnv optionalSFirst (handleOn "Bus" []) true
      { name := "Bus", scanner := false, tableName := none } [] rfl rfl rfl rfl
      (by decide)⟩

/-! ### Columns and values -/

theorem mapPut_keys_mem {α : Type} (entries : List (String × α)) (key : String) (value : α)
    (k : String) :
    k ∈ (mapPut entries key value).map Prod.fst ↔ k = key ∨ k ∈ entries.map Prod.fst := by
  induction entries with
  | nil => simp [mapPut]
  | cons e rest ih =>
      by_cases he : (e.1 == key) = true
      · have hk : e.1 = key := by simpa using he
        simp only [mapPut, he, if_true, List.map_cons, List.mem_cons]
        rw [hk]
        tauto
      · simp only [mapPut, he, if_false, Bool.false_eq_true, List.map_cons, List.mem_cons, ih]
        tauto

theorem mapPut_mem {α : Type} (entries : List (String × α)) (key : String) (value : α)
    (k : String) (v : α) (h : (k, v) ∈ mapPut entries key value) :
    (k = key ∧ v = value) ∨ (k, v) ∈ entries := by
  induction entries with
  | nil =>
      simp only [mapPut, List.mem_singleton, Prod.mk.injEq] at h
      exact Or.inl h
  | cons e rest ih =>
      by_cases he : (e.1 == key) = true
      · simp only [mapPut, he, if_true, List.mem_cons, Prod.mk.injEq] at h
        rcases h with h | h
        · exact Or.inl h
        · exact Or.inr (List.mem_cons_of_mem _ h)
      · simp only [mapPut, he, if_false, Bool.false_eq_true, List.mem_cons] at h
        rcases h with h | h
        · exact Or.inr (by rw [h]; exact List.mem_cons_self _ _)
        · rcases ih h with h' | h'
          · exact Or.inl h'
          · exact Or.inr (List.mem_cons_of_mem _ h')

theorem mapPut_nodup {α : Type} (entries : List (String × α)) (key : String) (value : α)
    (h : (entries.map Prod.fst).Nodup) : ((mapPut entries key value).map Prod.fst).Nodup := by
  induction entries with
  | nil => simp [mapPut]
  | cons e rest ih =>
      rw [List.map_cons, List.nodup_cons] at h
      by_cases he : (e.1 == key) = true
      · have hk : e.1 = key := by simpa using he
        simp only [mapPut, he, if_true, List.map_cons, List.nodup_cons]
        exact ⟨by rw [← hk]; exact h.1, h.2⟩
      · simp only [mapPut, he, if_false, Bool.false_eq_true, List.map_cons, List.nodup_cons]
        refine ⟨?_, ih h.2⟩
        rw [mapPut_keys_mem]
        rintro (hk | hk)
        · exact he (by simp [hk])
        · exact h.1 hk

/-- The loop of `columnsAndValues` started from the entries `acc`: the keys stay
distinct, a key is there exactly when it was there or is the column of a descriptor
that passes the test, and every entry was there or comes from such a descriptor. -/
theorem columns_fold (ds : List Field) :
    ∀ acc : List (String × Val), (acc.map Prod.fst).Nodup →
      let cols := ds.foldl (fun results field =>
        if (!field.IsPrimaryKey && decide (field.SqlType.length > 0)) = true then
          mapPut results field.DbName field.Value
        else results) acc
      (cols.map Prod.fst).Nodup ∧
      (∀ k, k ∈ cols.map Prod.fst ↔
        k ∈ acc.map Prod.fst ∨ ∃ f ∈ ds, isColumn f = true ∧ f.DbName = k) ∧
      (∀ k v, (k, v) ∈ cols →
        (k, v) ∈ acc ∨ ∃ f ∈ ds, isColumn f = true ∧ f.DbName = k ∧ f.Value = v) := by
  induction ds with
  | nil =>
      intro acc hacc
      simp only [List.foldl_nil]
      exact ⟨hacc, fun k => by simp, fun k v h => Or.inl h⟩
  | cons d rest ih =>
      intro acc hacc
      simp only [List.foldl_cons]
      by_cases hq : (!d.IsPrimaryKey && decide (d.SqlType.length > 0)) = true
      · simp only [hq, if_true]
        obtain ⟨h1, h2, h3⟩ := ih (mapPut acc d.DbName d.Value) (mapPut_nodup _ _ _ hacc)
        refine ⟨h1, ?_, ?_⟩
        · intro k
          rw [h2 k, mapPut_keys_mem]
          constructor
          · rintro ((hk | hk) | ⟨f, hf, hc, hn⟩)
            · exact Or.inr ⟨d, List.mem_cons_self _ _, hq, hk.symm⟩
            · exact Or.inl hk
            · exact Or.inr ⟨f, List.mem_cons_of_mem _ hf, hc, hn⟩
          · rintro (hk | ⟨f, hf, hc, hn⟩)
            · exact Or.inl (Or.inr hk)
            · rcases List.mem_cons.1 hf with rfl | hf
              · exact Or.inl (Or.inl hn.symm)
              · exact Or.inr ⟨f, hf, hc, hn⟩
        · intro k v hkv
          rcases h3 k v hkv with h | ⟨f, hf, hc, hn, hv⟩
          · rcases mapPut_mem _ _ _ _ _ h with ⟨hk, hv⟩ | h'
            · exact Or.inr ⟨d, List.mem_cons_self _ _, hq, hk.symm, hv.symm⟩
            · exact Or.inl h'
          · exact Or.inr ⟨f, List.mem_cons_of_mem _ hf, hc, hn, hv⟩
      · simp only [hq, if_false, Bool.false_eq_true]
        obtain ⟨h1, h2, h3⟩ := ih acc hacc
        refine ⟨h1, ?_, ?_⟩
        · intro k
          rw [h2 k]
          constructor
          · rintro (hk | ⟨f, hf, hc, hn⟩)
            · exact Or.inl hk
            · exact Or.inr ⟨f, List.mem_cons_of_mem _ hf, hc, hn⟩
          · rintro (hk | ⟨f, hf, hc, hn⟩)
            · exact Or.inl hk
            · rcases List.mem_cons.1 hf with rfl | hf
              · exact absurd hc hq
              · exact Or.inr ⟨f, hf, hc, hn⟩
        · intro k v hkv
          rcases h3 k v hkv with h | ⟨f, hf, hc, hn, hv⟩
          · exact Or.inl h
          · exact Or.inr ⟨f, List.mem_cons_of_mem _ hf, hc, hn, hv⟩

/-- The storage type `describe` gives is empty or is what `getSqlTag` resolves. -/
theorem describe_sqlType {env : Env} {tn : String} {sib : List String} {addr : Bool}
    {op : String} {now : Int} {p : FieldDecl} {v v' : Val} {blank : Bool} {f : Field}
    (h : describe env tn sib addr op now p v blank = some (f, v')) :
    f.SqlType = "" ∨ f.SqlType = getSqlTag env f p := by
  obtain ⟨hr1, hr2⟩ := describe_roles h
  by_cases hc : (timeOf v).isSome = true ∨ f.IsPrimaryKey = true
  · exact Or.inr (hr1 hc).1
  · have hn : timeOf v = none := by
      cases ht : timeOf v with
      | none => rfl
      | some t => exact absurd (Or.inl (by simp [ht])) hc
    have hp : f.IsPrimaryKey = false := by
      cases hpk : f.IsPrimaryKey with
      | false => rfl
      | true => exact absurd (Or.inr hpk) hc
    have h2 := hr2 hn hp
    cases hvi : v.indirect with
    | none => simp only [hvi] at h2; exact Or.inr h2.1
    | some w =>
      cases w with
      | slice elem items =>
          simp only [hvi] at h2
          obtain ⟨names, -, -, -, h3, -⟩ := h2
          exact Or.inl h3
      | struct sinfo sfs =>
          simp only [hvi] at h2
          by_cases hs : sinfo.scanner = true
          · simp only [hs, if_true] at h2
            exact Or.inr h2.1
          · simp only [hs, if_false, Bool.false_eq_true] at h2
            by_cases hsib : sib.contains (p.name ++ "Id") = true
            · simp only [hsib, if_true] at h2
              exact Or.inl h2.2.2.1
            · simp only [hsib, if_false, Bool.false_eq_true] at h2
              exact Or.inl h2.2.2.1
      | time t =>
          simp only [hvi] at h2
          by_cases hsib : sib.contains (p.name ++ "Id") = true
          · simp only [hsib, if_true] at h2
            exact Or.inl h2.2.2.1
          · simp only [hsib, if_false, Bool.false_eq_true] at h2
            exact Or.inl h2.2.2.1
      | _ => simp only [hvi] at h2; exact Or.inr h2.1

theorem getSqlTag_dash (env : Env) (field : Field) (p : FieldDecl)
    (h : (env.parseSqlTag p.tag).1 = "-") : getSqlTag env field p = "" := by
  unfold getSqlTag
  simp [h]

/-- C13: on a non-nil record, with `ds` the descriptors a completed `fields(op)` returns,
`columnsAndValues(op)` completes with a map whose keys are pairwise distinct and are
exactly the `DbName`s of the descriptors of `ds` that are not the primary key and have a
non-empty storage type; every entry carries the value of such a descriptor of that
`DbName`, and a descriptor's `DbName` is mapped to that descriptor's value when no other
such descriptor of the same `DbName` carries another value. `getSqlTag` answers the empty
storage type whenever the tag parses to the explicit type "-", whatever the modifiers and
the dialect, so on a classification pass the descriptor of a field tagged so has no
storage type and contributes no entry. -/
theorem columnsAndValues_entries (env : Env) (m m' : Model) (op : String) (clock : Nat → Int)
    (ds : List Field)
    (hdata : m.data ≠ none)
    (hret : fields env m op clock = some (ds, m')) :
    (∃ cols, columnsAndValues env m op clock = some (cols, m') ∧
      (cols.map Prod.fst).Nodup ∧
      (∀ k, k ∈ cols.map Prod.fst ↔ ∃ f ∈ ds, isColumn f = true ∧ f.DbName = k) ∧
      (∀ k v, (k, v) ∈ cols → ∃ f ∈ ds, isColumn f = true ∧ f.DbName = k ∧ f.Value = v) ∧
      (∀ f ∈ ds, isColumn f = true →
        (∀ g ∈ ds, isColumn g = true → g.DbName = f.DbName → g.Value = f.Value) →
        (f.DbName, f.Value) ∈ cols)) ∧
    (∀ (field : Field) (p : FieldDecl), (env.parseSqlTag p.tag).1 = "-" →
      getSqlTag env field p = "") ∧
    (∀ addr info fs, (cacheGet m.cache op).length = 0 →
      dataIndirect m.data = some (addr, .struct info fs) →
      List.Forall₂ (fun pv f => f.Name = pv.1.name ∧
          ((env.parseSqlTag pv.1.tag).1 = "-" → f.SqlType = "" ∧ isColumn f = false))
        (fs.filter (fun pv => visible pv.1)) ds) := by
  refine ⟨?_, getSqlTag_dash env, ?_⟩
  · obtain ⟨h1, h2, h3⟩ := columns_fold ds [] (by simp)
    have hcall : columnsAndValues env m op clock = some (ds.foldl (fun results field =>
        if (!field.IsPrimaryKey && decide (field.SqlType.length > 0)) = true then
          mapPut results field.DbName field.Value
        else results) [], m') := by
      unfold columnsAndValues
      cases hm : m.data with
      | none => exact absurd hm hdata
      | some d => simp only [hret]
    refine ⟨_, hcall, h1, ?_, ?_, ?_⟩
    · intro k
      rw [h2 k]
      simp
    · intro k v hkv
      rcases h3 k v hkv with h | h
      · simp at h
      · exact h
    · intro f hf hc hagree
      have hk : f.DbName ∈ (ds.foldl (fun results field =>
          if (!field.IsPrimaryKey && decide (field.SqlType.length > 0)) = true then
            mapPut results field.DbName field.Value
          else results) []).map Prod.fst := (h2 _).2 (Or.inr ⟨f, hf, hc, rfl⟩)
      rw [List.mem_map] at hk
      obtain ⟨⟨k, v⟩, hkv, hk'⟩ := hk
      simp only at hk'
      subst hk'
      rcases h3 _ v hkv with h | ⟨g, hg, hgc, hgn, hgv⟩
      · simp at h
      · rw [← hagree g hg hgc hgn, hgv]
        exact hkv
  · intro addr info fs hcache hd
    obtain ⟨fs', hw, -⟩ := fields_walk hcache hd hret
    refine (walk_descriptors hw).imp ?_
    rintro ⟨p, v⟩ f ⟨now, blank, v', -, hdesc⟩
    simp only at hdesc
    obtain ⟨hname, -⟩ := describe_spec hdesc
    refine ⟨hname, ?_⟩
    intro htag
    simp only at htag
    have hsql : f.SqlType = "" := by
      rcases describe_sqlType hdesc with h | h
      · exact h
      · rw [h, getSqlTag_dash env f p htag]
    exact ⟨hsql, by simp [isColumn, hsql]⟩

/-- C13 (witness): a record with `Id`, `Name` and a `Password` tagged "-", under the
operation "other". -/
theorem columnsAndValues_entries_witness :
    columnsAndValues sampleEnv (handleOn "Login" taggedFields) "other" (fun _ => 0)
      = (fields sampleEnv (handleOn "Login" taggedFields) "other" (fun _ => 0)).map
          (fun r => ([("name", Val.str "Ann")], r.2)) ∧
    ∃ ds m', fields sampleEnv (handleOn "Login" taggedFields) "other" (fun _ => 0)
        = some (ds, m') ∧
      ∃ cols, columnsAndValues sampleEnv (handleOn "Login" taggedFields) "other" (fun _ => 0)
          = some (cols, m') ∧
        (cols.map Prod.fst).Nodup ∧
        (∀ k, k ∈ cols.map Prod.fst ↔ ∃ f ∈ ds, isColumn f = true ∧ f.DbName = k) ∧
        (∀ k v, (k, v) ∈ cols →
          ∃ f ∈ ds, isColumn f = true ∧ f.DbName = k ∧ f.Value = v) ∧
        (∀ f ∈ ds, isColumn f = true →
          (∀ g ∈ ds, isColumn g = true → g.DbName = f.DbName → g.Value = f.Value) →
          (f.DbName, f.Value) ∈ cols) :=
  ⟨rfl, _, _, rfl,
    (columnsAndValues_entries sampleEnv (handleOn "Login" taggedFields) _ "other" 0 _
      (by simp [handleOn]) rfl).1⟩

/-! ### Completion of the classification -/

theorem resolveRole_total {env : Env} {tn : String} {sib : List String} {field : Field}
    {p : FieldDecl} {isTime : Bool} {value : Val}
    (h : ∀ elem items, value.indirect = some (.slice elem items) →
      elem.fieldNames?.isSome = true) :
    ∃ f, resolveRole env tn sib field p isTime value = some f := by
  unfold resolveRole
  repeat' split
  all_goals first
    | exact ⟨_, rfl⟩
    | (exfalso; simp_all)

theorem passable_slice {v : Val} (hp : passable v = true) :
    ∀ elem items, v.indirect = some (.slice elem items) → elem.fieldNames?.isSome = true := by
  intro elem items hvi
  cases v with
  | slice e its =>
      simp only [Val.indirect, Option.some.injEq, Val.slice.injEq] at hvi
      obtain ⟨rfl, -⟩ := hvi
      simpa [passable] using hp
  | ptr a t =>
      simp only [Val.indirect, Option.some.injEq] at hvi
      subst hvi
      simpa [passable] using hp
  | nilptr e => simp [Val.indirect] at hvi
  | _ => simp [Val.indirect] at hvi

theorem autoFill_total {addr : Bool} {op : String} {ac au : Bool} {now t : Int}
    (hwr : addr = true ∨ (op ≠ "create" ∧ op ≠ "update")) :
    ∃ t', autoFill addr op ac au now t = some t' := by
  rcases hwr with ha | ⟨h1, h2⟩
  · subst ha
    unfold autoFill
    by_cases hc : op = "create"
    · by_cases hz : ((ac || au) && t == 0) = true
      · exact ⟨now, by simp [hc, hz]⟩
      · exact ⟨t, by simp [hc, hz]⟩
    · by_cases hu : op = "update"
      · by_cases ha : au = true
        · exact ⟨now, by simp [hc, hu, ha]⟩
        · exact ⟨t, by simp [hc, hu, ha]⟩
      · exact ⟨t, by simp [hc, hu]⟩
  · exact ⟨t, autoFill_other h1 h2⟩

theorem describe_total {env : Env} {tn : String} {sib : List String} {addr : Bool}
    {op : String} {now : Int} {p : FieldDecl} {v : Val} {blank : Bool}
    (hwr : addr = true ∨ (op ≠ "create" ∧ op ≠ "update"))
    (hp : passable v = true) :
    ∃ r, describe env tn sib addr op now p v blank = some r := by
  unfold describe
  simp only
  cases ht : timeOf v with
  | some t =>
      simp only
      obtain ⟨t', hfill⟩ := @autoFill_total addr op ("created_at" == env.toSnake p.name)
        ("updated_at" == env.toSnake p.name) now t hwr
      simp only [hfill]
      obtain ⟨f, hf⟩ := @resolveRole_total env tn sib
        { Name := p.name, Value := .time t', SqlType := "", DbName := env.toSnake p.name,
          AutoCreateTime := "created_at" == env.toSnake p.name,
          AutoUpdateTime := "updated_at" == env.toSnake p.name,
          IsPrimaryKey := primaryKeyDb env == env.toSnake p.name, IsBlank := blank,
          beforeAssociation := false, afterAssociation := false, foreignKey := "" }
        p true (.time t') (by intro elem items h; simp [Val.indirect] at h)
      simp only [hf]
      exact ⟨_, rfl⟩
  | none =>
      simp only
      obtain ⟨f, hf⟩ := @resolveRole_total env tn sib
        { Name := p.name, Value := v, SqlType := "", DbName := env.toSnake p.name,
          AutoCreateTime := false, AutoUpdateTime := false,
          IsPrimaryKey := primaryKeyDb env == env.toSnake p.name, IsBlank := blank,
          beforeAssociation := false, afterAssociation := false, foreignKey := "" }
        p false v (passable_slice hp)
      simp only [hf]
      exact ⟨_, rfl⟩

mutual
/-- The blank check completes on a passable value. -/
theorem blankOf_total {env : Env} :
    ∀ (v : Val), passable v = true → ∃ b, blankOf env v = some b
  | .struct info fs, hp => by
      by_cases hs : info.scanner = true
      · simp only [passable, hs, if_true] at hp
        cases hv : fieldByName fs "Valid" with
        | none => simp [hv] at hp
        | some w =>
          cases w with
          | bool b => exact ⟨!b, by rw [blankOf]; simp [hs, hv]⟩
          | _ => simp [hv] at hp
      · have hs' : info.scanner = false := by simpa using hs
        have hpf : passableFields fs = true := by simpa [passable, hs'] using hp
        obtain ⟨r, hr⟩ := walk_total fs info.name (fs.map (fun pv => pv.1.name)) false
          "other" (fun _ => 0) 0 (Or.inr ⟨by decide, by decide⟩) hpf
        rw [blankOf_struct hs', hr]
        exact ⟨_, rfl⟩
  | .int k x, _ => by cases k <;> simp [blankOf]
  | .bool _, _ => by simp [blankOf]
  | .uint _ _, _ => by simp [blankOf]
  | .float _ _, _ => by simp [blankOf]
  | .str _, _ => by simp [blankOf]
  | .time _, _ => by simp [blankOf]
  | .slice _ _, _ => by simp [blankOf]
  | .ptr _ _, _ => by simp [blankOf]
  | .nilptr _, _ => by simp [blankOf]
  | .map _ _ _, _ => by simp [blankOf]
/-- The walk completes on passable fields when it may write or has nothing to write. -/
theorem walk_total {env : Env} :
    ∀ (fs : List (FieldDecl × Val)) (tn : String) (sib : List String) (addr : Bool)
      (op : String) (clock : Nat → Int) (i : Nat),
      (addr = true ∨ (op ≠ "create" ∧ op ≠ "update")) →
      passableFields fs = true → ∃ r, walk env tn sib addr op clock i fs = some r
  | [], _, _, _, _, _, _, _, _ => ⟨_, walk_nil⟩
  | (p, v) :: rest, tn, sib, addr, op, clock, i, hwr, hp => by
      simp only [passableFields, Bool.and_eq_true, Bool.or_eq_true, Bool.not_eq_true'] at hp
      obtain ⟨r, hr⟩ := walk_total rest tn sib addr op clock (i + 1) hwr hp.2
      rw [walk_cons]
      by_cases hv : visible p = true
      · have hpv : passable v = true := by
          rcases hp.1 with h | h
          · rw [h] at hv; cases hv
          · exact h
        obtain ⟨b, hb⟩ := blankOf_total v hpv
        obtain ⟨d, hd⟩ := @describe_total env tn sib addr op (clock i) p v b hwr hpv
        rw [if_pos hv, hb]
        simp only []
        rw [hd]
        simp only []
        rw [hr]
        exact ⟨_, rfl⟩
      · rw [if_neg hv, hr]
        exact ⟨_, rfl⟩
end

/-- C19 (counterexample): a boolean and a float each get a descriptor that has a
storage type, the one the dialect answers for the value; and on a record with a slice of
strings `fields` does not complete. -/
theorem fields_unclassified_kinds_have_storage_type :
    (∃ ds m', fields sampleEnv (handleOn "Flags"
        [(plainField "Active", .bool false), (plainField "Score", .float .float64 0)])
        "other" (fun _ => 0) = some (ds, m') ∧
      ds.map (fun f => (f.Name, f.SqlType, f.beforeAssociation, f.afterAssociation)) =
        [("Active", "bool", false, false), ("Score", "float64", false, false)] ∧
      sampleEnv.sqlTag (.bool false) 0 = "bool" ∧
      sampleEnv.sqlTag (.float .float64 0) 0 = "float64") ∧
    fields sampleEnv (handleOn "Post" tagsFields) "other" (fun _ => 0) = none :=
  ⟨⟨_, _, rfl, rfl, rfl, rfl⟩, rfl⟩

/-- C19 (amended): on a struct record classified afresh whose described fields are
passable (no slice of elements that are not structs, no scanner without a boolean
`Valid`, also inside the nested structs the blank check enters), and which is passed by
reference when the operation is "create" or "update", `fields` completes and returns one
descriptor for every exported, non-embedded field; a field whose kind, after a pointer
is followed, is neither slice nor struct (a boolean, a float, a map, a nil pointer) gets a
descriptor without association role whose storage type is the one `getSqlTag` resolves
from the field's tag and the dialect. -/
theorem fields_completes_on_passable (env : Env) (m : Model) (op : String) (clock : Nat → Int)
    (addr : Bool) (info : StructInfo) (fs : List (FieldDecl × Val))
    (hcache : (cacheGet m.cache op).length = 0)
    (hdata : dataIndirect m.data = some (addr, .struct info fs))
    (hpass : passableFields fs = true)
    (hwrite : addr = true ∨ (op ≠ "create" ∧ op ≠ "update")) :
    ∃ ds m', fields env m op clock = some (ds, m') ∧
      ds.length = (fs.filter (fun pv => visible pv.1)).length ∧
      List.Forall₂ (fun pv f => f.Name = pv.1.name ∧
          (unclassified pv.2 = true → timeOf pv.2 = none → f.IsPrimaryKey = false →
            f.SqlType = getSqlTag env f pv.1 ∧ f.beforeAssociation = false ∧
            f.afterAssociation = false ∧ f.foreignKey = ""))
        (fs.filter (fun pv => visible pv.1)) ds := by
  obtain ⟨⟨ds, fs'⟩, hw⟩ := @walk_total env fs info.name
    (fs.map (fun pv => pv.1.name)) addr op clock 0 hwrite hpass
  have hf := @fields_miss_struct env m op clock addr info fs hcache hdata
  rw [hw] at hf
  simp only at hf
  have hF := walk_descriptors hw
  refine ⟨ds, _, hf, hF.length_eq.symm, hF.imp ?_⟩
  rintro ⟨p, v⟩ f ⟨now, blank, v', -, hd⟩
  simp only at hd
  obtain ⟨hname, -⟩ := describe_spec hd
  refine ⟨hname, ?_⟩
  intro hu hn hp
  simp only at hu hn
  have h2 := (describe_roles hd).2 hn hp
  unfold unclassified at hu
  cases hvi : v.indirect with
  | none => simp only [hvi] at h2; exact h2
  | some w =>
    simp only [hvi] at hu
    cases w with
    | slice elem items => simp [Val.kind] at hu
    | struct sinfo sfs => simp [Val.kind] at hu
    | time t => simp [Val.kind] at hu
    | _ => simp only [hvi] at h2; exact h2

/-- C19 (witness): a record with a boolean, a float, a map and a nil pointer. -/
theorem fields_completes_on_passable_witness :
    passableFields scalarFields = true ∧
    ∃ ds m', fields sampleEnv (handleOn "Flags" scalarFields) "create" (fun _ => 3)
        = some (ds, m') ∧
      ds.length = (scalarFields.filter (fun pv => visible pv.1)).length ∧
      List.Forall₂ (fun pv f => f.Name = pv.1.name ∧
          (unclassified pv.2 = true → timeOf pv.2 = none → f.IsPrimaryKey = false →
            f.SqlType = getSqlTag sampleEnv f pv.1 ∧ f.beforeAssociation = false ∧
            f.afterAssociation = false ∧ f.foreignKey = ""))
        (scalarFields.filter (fun pv => visible pv.1)) ds :=
  ⟨rfl,
    fields_completes_on_passable sampleEnv (handleOn "Flags" scalarFields) "create"
      (fun _ => 3) true
      { name := "Flags", scanner := false, tableName := none } scalarFields rfl rfl rfl
      (Or.inl rfl)⟩

end Gorm
